import Mathlib

set_option maxRecDepth 100000

/-!
Verification of the grug storage and commitment core: a shallow embedding of
the Jellyfish Merkle tree (`crates/jellyfish-merkle/src/tree.rs`), the cache
overlay (`crates/app/src/cache.rs`) and the shared-store paging iterator
(`crates/app/src/shared.rs`), together with theorems settling the spec's
claims about them.

Bytes are modelled as `Nat` (each `< 256`), byte strings as `List Nat`,
hashes as 32-byte lists, and machine integers as `Nat` with explicit
`% 2^32` / `% 2^64` where overflow matters.
-/

namespace Grug

/-! ## SHA-256

Modelled from the spec: the `hash` function of `grug_types` (not under
`src/`) is SHA-256; leaf and internal node hashing are domain-separated
SHA-256 per spec §3. This is a direct executable implementation of
FIPS 180-4 over byte lists. -/

def M32 : Nat := 4294967296

def rotr32 (n x : Nat) : Nat := ((x >>> n) ||| (x <<< (32 - n))) % M32

def shaCh (x y z : Nat) : Nat := ((x &&& y) ^^^ ((x ^^^ 4294967295) &&& z)) % M32

def shaMaj (x y z : Nat) : Nat := ((x &&& y) ^^^ (x &&& z) ^^^ (y &&& z)) % M32

def bigSigma0 (x : Nat) : Nat := (rotr32 2 x ^^^ rotr32 13 x ^^^ rotr32 22 x) % M32

def bigSigma1 (x : Nat) : Nat := (rotr32 6 x ^^^ rotr32 11 x ^^^ rotr32 25 x) % M32

def smallSigma0 (x : Nat) : Nat := (rotr32 7 x ^^^ rotr32 18 x ^^^ (x >>> 3)) % M32

def smallSigma1 (x : Nat) : Nat := (rotr32 17 x ^^^ rotr32 19 x ^^^ (x >>> 10)) % M32

def shaK : List Nat :=
  [1116352408, 1899447441, 3049323471, 3921009573, 961987163, 1508970993,
   2453635748, 2870763221, 3624381080, 310598401, 607225278, 1426881987,
   1925078388, 2162078206, 2614888103, 3248222580, 3835390401, 4022224774,
   264347078, 604807628, 770255983, 1249150122, 1555081692, 1996064986,
   2554220882, 2821834349, 2952996808, 3210313671, 3336571891, 3584528711,
   113926993, 338241895, 666307205, 773529912, 1294757372, 1396182291,
   1695183700, 1986661051, 2177026350, 2456956037, 2730485921, 2820302411,
   3259730800, 3345764771, 3516065817, 3600352804, 4094571909, 275423344,
   430227734, 506948616, 659060556, 883997877, 958139571, 1322822218,
   1537002063, 1747873779, 1955562222, 2024104815, 2227730452, 2361852424,
   2428436474, 2756734187, 3204031479, 3329325298]

/-- Big-endian encoding of `x` into `n` bytes. -/
def beBytes : Nat → Nat → List Nat
  | 0, _ => []
  | n + 1, x => beBytes n (x / 256) ++ [x % 256]

def padMessage (msg : List Nat) : List Nat :=
  msg ++ [128] ++ List.replicate ((119 - msg.length % 64) % 64) 0 ++ beBytes 8 (8 * msg.length)

def bytesToWords : List Nat → List Nat
  | b0 :: b1 :: b2 :: b3 :: rest =>
      (((b0 * 256 + b1) * 256 + b2) * 256 + b3) :: bytesToWords rest
  | _ => []

def extendOnce (w : List Nat) : List Nat :=
  let n := w.length
  w ++ [(smallSigma1 (w.getD (n - 2) 0) + w.getD (n - 7) 0 +
         smallSigma0 (w.getD (n - 15) 0) + w.getD (n - 16) 0) % M32]

def extendN : Nat → List Nat → List Nat
  | 0, w => w
  | n + 1, w => extendN n (extendOnce w)

def schedule (block : List Nat) : List Nat := extendN 48 (bytesToWords block)

structure Hash8 where
  a : Nat
  b : Nat
  c : Nat
  d : Nat
  e : Nat
  f : Nat
  g : Nat
  h : Nat
deriving DecidableEq, Repr

def shaRound (s : Hash8) (k : Nat) (w : Nat) : Hash8 :=
  let t1 := (s.h + bigSigma1 s.e + shaCh s.e s.f s.g + k + w) % M32
  let t2 := (bigSigma0 s.a + shaMaj s.a s.b s.c) % M32
  ⟨(t1 + t2) % M32, s.a, s.b, s.c, (s.d + t1) % M32, s.e, s.f, s.g⟩

def shaRounds : List (Nat × Nat) → Hash8 → Hash8
  | [], s => s
  | (k, w) :: rest, s => shaRounds rest (shaRound s k w)

def compressBlock (h : Hash8) (block : List Nat) : Hash8 :=
  let s := shaRounds (List.zip shaK (schedule block)) h
  ⟨(h.a + s.a) % M32, (h.b + s.b) % M32, (h.c + s.c) % M32, (h.d + s.d) % M32,
   (h.e + s.e) % M32, (h.f + s.f) % M32, (h.g + s.g) % M32, (h.h + s.h) % M32⟩

def processBlocks : Nat → Hash8 → List Nat → Hash8
  | 0, h, _ => h
  | n + 1, h, bytes => processBlocks n (compressBlock h (bytes.take 64)) (bytes.drop 64)

def shaInit : Hash8 :=
  ⟨1779033703, 3144134277, 1013904242, 2773480762,
   1359893119, 2600822924, 528734635, 1541459225⟩

def wordsToBytes : List Nat → List Nat
  | [] => []
  | w :: rest => beBytes 4 w ++ wordsToBytes rest

def sha256 (msg : List Nat) : List Nat :=
  let padded := padMessage msg
  let s := processBlocks (padded.length / 64) shaInit padded
  wordsToBytes [s.a, s.b, s.c, s.d, s.e, s.f, s.g, s.h]

/-! ## Jellyfish Merkle tree: data model

Mirrors `crates/jellyfish-merkle/src/tree.rs`. The node/child/bit-array types
and node hashing live in the crate's other modules (not under `src/`);
they are modelled from the spec §3:
  - leaf hash    = SHA256(0x01 ‖ key_hash ‖ value_hash)
  - internal hash = SHA256(0x00 ‖ (left or 32 zero bytes) ‖ (right or 32 zero bytes))
  - `BitArray` is a bit sequence; `extend_one_bit(true)` appends bit 0 (left),
    `extend_one_bit(false)` appends bit 1 (right); the root path is empty. -/

abbrev Bytes := List Nat

abbrev Hash256 := List Nat

def ZERO_HASH : Hash256 := List.replicate 32 0

structure Child where
  version : Nat
  hash : Hash256
deriving DecidableEq, Repr

structure InternalNode where
  left_child : Option Child
  right_child : Option Child
deriving DecidableEq, Repr

structure LeafNode where
  key_hash : Hash256
  value_hash : Hash256
deriving DecidableEq, Repr

inductive Node where
  | internal : InternalNode → Node
  | leaf : LeafNode → Node
deriving DecidableEq, Repr

def childOrZero : Option Child → Hash256
  | some c => c.hash
  | none => ZERO_HASH

/-- Modelled from the spec: node hashing (§3), domain-separated SHA-256. -/
def Node.hash : Node → Hash256
  | .leaf l => sha256 (1 :: (l.key_hash ++ l.value_hash))
  | .internal i => sha256 (0 :: (childOrZero i.left_child ++ childOrZero i.right_child))

def Node.is_leaf : Node → Bool
  | .leaf _ => true
  | .internal _ => false

inductive Op (A : Type) where
  | insert : A → Op A
  | delete
deriving DecidableEq, Repr

def mapOp {A B : Type} (f : A → B) : Op A → Op B
  | .insert a => .insert (f a)
  | .delete => .delete

/-- `bit_at_index` of tree.rs: the i-th bit, MSB of byte 0 first. -/
def bit_at_index (bytes : Bytes) (index : Nat) : Nat :=
  (bytes.getD (index / 8) 0 >>> (7 - index % 8)) &&& 1

/-- `BitArray::from_bytes` followed by an ascending range over all bits. -/
def bitsOfBytes (bytes : Bytes) : List Nat :=
  (List.range (8 * bytes.length)).map (bit_at_index bytes)

/-- `BitArray::extend_one_bit`: appends bit 0 for left, 1 for right. -/
def extendOneBit (bits : List Nat) (is_left : Bool) : List Nat :=
  bits ++ [if is_left then 0 else 1]

/-! ## Tree store

`nodes : Map<(u64, &BitArray), Node>` and `orphans : Set<(u64, u64, &BitArray)>`
are modelled as association lists with overwrite-on-save and set-insert
semantics (`Path::save` overwrites, `Path::load` fails when absent —
`crates/storage/src/path.rs`). -/

def lookupNode : List ((Nat × List Nat) × Node) → Nat × List Nat → Option Node
  | [], _ => none
  | (k, n) :: rest, key => if k = key then some n else lookupNode rest key

def insertEntry : List ((Nat × List Nat) × Node) → Nat × List Nat → Node → List ((Nat × List Nat) × Node)
  | [], key, n => [(key, n)]
  | (k, m) :: rest, key, n =>
      if k = key then (key, n) :: rest else (k, m) :: insertEntry rest key n

def insertOrphan (l : List (Nat × Nat × List Nat)) (e : Nat × Nat × List Nat) :
    List (Nat × Nat × List Nat) :=
  if e ∈ l then l else l ++ [e]

structure TreeStore where
  nodes : List ((Nat × List Nat) × Node)
  orphans : List (Nat × Nat × List Nat)
deriving DecidableEq, Repr

def emptyTreeStore : TreeStore := ⟨[], []⟩

/-- `MerkleTree::save_node` (the tracing is irrelevant to the store state). -/
def saveNode (s : TreeStore) (version : Nat) (bits : List Nat) (node : Node) : TreeStore :=
  { s with nodes := insertEntry s.nodes (version, bits) node }

/-- `MerkleTree::mark_node_as_orphaned`. -/
def markNodeAsOrphaned (s : TreeStore) (orphaned_since_version version : Nat)
    (bits : List Nat) : TreeStore :=
  { s with orphans := insertOrphan s.orphans (orphaned_since_version, version, bits) }

/-! ## Apply engine -/

inductive Outcome where
  | unchanged : Option Node → Outcome
  | updated : Node → Outcome
  | deleted
deriving DecidableEq, Repr

/-- `partition_batch`: the source splits at `partition_point` on the bit at
position `bits.num_bits`; on a batch sorted by key hash this split point is
exactly the length of the leading run of 0-bits, i.e. a takeWhile/dropWhile
split. -/
def partition_batch {T : Type} (batch : List (Hash256 × T)) (bits : List Nat) :
    List (Hash256 × T) × List (Hash256 × T) :=
  (batch.takeWhile (fun p => bit_at_index p.1 bits.length == 0),
   batch.dropWhile (fun p => bit_at_index p.1 bits.length == 0))

def partition_leaf (leaf : Option LeafNode) (bits : List Nat) :
    Option LeafNode × Option LeafNode :=
  match leaf with
  | some l => if bit_at_index l.key_hash bits.length = 0 then (some l, none) else (none, some l)
  | none => (none, none)

/-- `prepare_batch_for_subtree`: extract the op matching the existing leaf's
key hash (the last match wins, as the source overwrites `maybe_op` while
scanning forward), and keep only the inserts of the rest. -/
def prepare_batch_for_subtree (batch : List (Hash256 × Op Hash256))
    (existing_leaf : Option LeafNode) :
    List (Hash256 × Hash256) × Option (Op Hash256) :=
  match batch with
  | [] => ([], none)
  | (key_hash, op) :: rest =>
    let r := prepare_batch_for_subtree rest existing_leaf
    match existing_leaf with
    | some leaf =>
      if key_hash = leaf.key_hash then
        (r.1, some (r.2.getD op))
      else
        match op with
        | .insert value_hash => ((key_hash, value_hash) :: r.1, r.2)
        | .delete => (r.1, r.2)
    | none =>
      match op with
      | .insert value_hash => ((key_hash, value_hash) :: r.1, r.2)
      | .delete => (r.1, r.2)

/-- `into_child`: the `unreachable!` arm of the source is modelled as `none`. -/
def into_child (version : Nat) : Outcome → Option (Option Child)
  | .updated node => some (some ⟨version, node.hash⟩)
  | .unchanged none => some none
  | _ => none

/-- `MerkleTree::create_subtree`. Recursion is fuelled: the source recurses on
paths extended one bit at a time, bounded by the 256-bit key hashes; fuel 0
models non-termination/failure and never occurs with adequate fuel. -/
def create_subtree : Nat → TreeStore → Nat → List Nat → List (Hash256 × Hash256) →
    Option LeafNode → Option (TreeStore × Outcome)
  | 0, _, _, _, _, _ => none
  | _ + 1, s, _, _, [], none => some (s, .unchanged none)
  | _ + 1, s, version, bits, [], some leaf_node =>
      let new_node := Node.leaf leaf_node
      some (saveNode s version bits new_node, .updated new_node)
  | _ + 1, s, version, bits, [(key_hash, value_hash)], none =>
      let new_node := Node.leaf ⟨key_hash, value_hash⟩
      some (saveNode s version bits new_node, .updated new_node)
  | fuel + 1, s, version, bits, batch, existing_leaf =>
      let bl := partition_batch batch bits
      let ll := partition_leaf existing_leaf bits
      match create_subtree fuel s version (extendOneBit bits true) bl.1 ll.1 with
      | none => none
      | some (s, left_outcome) =>
        match create_subtree fuel s version (extendOneBit bits false) bl.2 ll.2 with
        | none => none
        | some (s, right_outcome) =>
          match into_child version left_outcome, into_child version right_outcome with
          | some lc, some rc =>
              let new_node := Node.internal ⟨lc, rc⟩
              some (saveNode s version bits new_node, .updated new_node)
          | _, _ => none

/-- The last (fall-through) arm of `apply_at_internal`'s `match`: replace the
changed child descriptors, keep the unchanged ones, return
`Updated(internal)`. -/
def combineDefault (new_version : Nat) (internal_node : InternalNode)
    (left right : Outcome) : Outcome :=
  let lc := match left with
    | .updated child_node => some (Child.mk new_version child_node.hash)
    | .deleted => none
    | .unchanged _ => internal_node.left_child
  let rc := match right with
    | .updated child_node => some (Child.mk new_version child_node.hash)
    | .deleted => none
    | .unchanged _ => internal_node.right_child
  .updated (Node.internal ⟨lc, rc⟩)

/-- `MerkleTree::apply_at_leaf`. -/
def apply_at_leaf (fuel : Nat) (s : TreeStore) (new_version : Nat) (bits : List Nat)
    (leaf_node : LeafNode) (batch : List (Hash256 × Op Hash256)) :
    Option (TreeStore × Outcome) :=
  let r := prepare_batch_for_subtree batch (some leaf_node)
  match r.1, r.2 with
  | [], some (.insert value_hash) =>
      if value_hash = leaf_node.value_hash then
        some (s, .unchanged (some (Node.leaf leaf_node)))
      else
        some (s, .updated (Node.leaf { leaf_node with value_hash := value_hash }))
  | [], some .delete => some (s, .deleted)
  | [], none => some (s, .unchanged (some (Node.leaf leaf_node)))
  | filtered, some (.insert value_hash) =>
      create_subtree fuel s new_version bits filtered
        (some { leaf_node with value_hash := value_hash })
  | filtered, some .delete =>
      create_subtree fuel s new_version bits filtered none
  | filtered, none =>
      create_subtree fuel s new_version bits filtered (some leaf_node)

mutual

/-- `MerkleTree::apply_at`: dispatch on what is stored at `(old_version, bits)`. -/
def apply_at : Nat → TreeStore → Nat → Nat → List Nat → List (Hash256 × Op Hash256) →
    Option (TreeStore × Outcome)
  | 0, _, _, _, _, _ => none
  | fuel + 1, s, new_version, old_version, bits, batch =>
    match lookupNode s.nodes (old_version, bits) with
    | some (Node.leaf leaf_node) => apply_at_leaf fuel s new_version bits leaf_node batch
    | some (Node.internal internal_node) =>
        apply_at_internal fuel s new_version bits internal_node batch
    | none =>
        let r := prepare_batch_for_subtree batch none
        create_subtree fuel s new_version bits r.1 none
termination_by structural fuel => fuel

/-- `MerkleTree::apply_at_internal`. -/
def apply_at_internal : Nat → TreeStore → Nat → List Nat → InternalNode →
    List (Hash256 × Op Hash256) → Option (TreeStore × Outcome)
  | 0, _, _, _, _, _ => none
  | fuel + 1, s, new_version, bits, internal_node, batch =>
    let bl := partition_batch batch bits
    match apply_at_child fuel s new_version bits true internal_node.left_child bl.1 with
    | none => none
    | some (s, left_outcome) =>
      match apply_at_child fuel s new_version bits false internal_node.right_child bl.2 with
      | none => none
      | some (s, right_outcome) =>
        match left_outcome, right_outcome with
        -- both children are deleted or never existed. delete this node as well
        | .deleted, .deleted => some (s, .deleted)
        | .deleted, .unchanged none => some (s, .deleted)
        | .unchanged none, .deleted => some (s, .deleted)
        | .unchanged none, .unchanged none => some (s, .deleted)
        -- neither children is changed. this node is unchanged as well
        | .unchanged _, .unchanged _ => some (s, .unchanged (some (Node.internal internal_node)))
        -- left child is a leaf, right child is deleted: collapse, move left up
        | .updated left, .deleted =>
            if left.is_leaf then some (s, .updated left)
            else some (s, combineDefault new_version internal_node (.updated left) .deleted)
        | .updated left, .unchanged none =>
            if left.is_leaf then some (s, .updated left)
            else some (s, combineDefault new_version internal_node (.updated left) (.unchanged none))
        | .unchanged (some left), .deleted =>
            if left.is_leaf then some (s, .updated left)
            else some (s, combineDefault new_version internal_node (.unchanged (some left)) .deleted)
        -- left child is deleted, right child is a leaf: collapse, move right up
        | .deleted, .updated right =>
            if right.is_leaf then some (s, .updated right)
            else some (s, combineDefault new_version internal_node .deleted (.updated right))
        | .unchanged none, .updated right =>
            if right.is_leaf then some (s, .updated right)
            else some (s, combineDefault new_version internal_node (.unchanged none) (.updated right))
        | .deleted, .unchanged (some right) =>
            if right.is_leaf then some (s, .updated right)
            else some (s, combineDefault new_version internal_node .deleted (.unchanged (some right)))
        -- at least one child is updated and the path can't be collapsed
        | left, right => some (s, combineDefault new_version internal_node left right)
termination_by structural fuel => fuel

/-- `MerkleTree::apply_at_child`. -/
def apply_at_child : Nat → TreeStore → Nat → List Nat → Bool → Option Child →
    List (Hash256 × Op Hash256) → Option (TreeStore × Outcome)
  | 0, _, _, _, _, _, _ => none
  | fuel + 1, s, new_version, parent_bits, is_left, child, batch =>
    let child_bits := extendOneBit parent_bits is_left
    match batch.isEmpty, child with
    -- child exists, but there is no op to apply
    | true, some child =>
        match lookupNode s.nodes (child.version, child_bits) with
        | some child_node => some (s, .unchanged (some child_node))
        | none => none
    -- child doesn't exist, and there is no op to apply
    | true, none => some (s, .unchanged none)
    -- child exists, and there are ops to apply
    | false, some child =>
        match apply_at fuel s new_version child.version child_bits batch with
        | none => none
        | some (s, outcome) =>
          let s := match outcome with
            | .updated new_child_node => saveNode s new_version child_bits new_child_node
            | _ => s
          let s := match outcome with
            | .deleted => markNodeAsOrphaned s new_version child.version child_bits
            | .updated _ => markNodeAsOrphaned s new_version child.version child_bits
            | _ => s
          some (s, outcome)
    -- child doesn't exist, but there are ops to apply
    | false, none =>
        let r := prepare_batch_for_subtree batch none
        create_subtree fuel s new_version child_bits r.1 none
termination_by structural fuel => fuel

end

/-- Fuel bounding the recursion depth of the apply engine. Each tree level
consumes at most three units (`apply_at` → `apply_at_internal` →
`apply_at_child`) and paths are at most 256 bits long. -/
def applyFuel : Nat := 2048

/-- `MerkleTree::apply`. The `debug_assert!` on version incrementality is
compiled out in release mode and is not part of the behaviour. -/
def apply (s : TreeStore) (old_version new_version : Nat)
    (batch : List (Hash256 × Op Hash256)) : Option (TreeStore × Option Hash256) :=
  let s := if (lookupNode s.nodes (old_version, [])).isSome then
      markNodeAsOrphaned s new_version old_version []
    else s
  match apply_at applyFuel s new_version old_version [] batch with
  | some (s, .updated new_root_node) =>
      some (saveNode s new_version [] new_root_node, some new_root_node.hash)
  | some (s, .unchanged (some new_root_node)) =>
      some (saveNode s new_version [] new_root_node, some new_root_node.hash)
  | some (s, .deleted) => some (s, none)
  | some (s, .unchanged none) => some (s, none)
  | none => none

/-- Lexicographic three-way comparison of byte strings (`Vec<u8>::cmp`). -/
def byteCompare : List Nat → List Nat → Ordering
  | [], [] => .eq
  | [], _ :: _ => .lt
  | _ :: _, [] => .gt
  | a :: as, b :: bs =>
    match compare a b with
    | .eq => byteCompare as bs
    | o => o

/-- Stable insertion used to model `Vec::sort_by` (a stable sort) keyed on the
key hash. -/
def insertSortedByKey (p : Hash256 × Op Hash256) :
    List (Hash256 × Op Hash256) → List (Hash256 × Op Hash256)
  | [] => [p]
  | q :: rest =>
    if byteCompare p.1 q.1 = .gt then q :: insertSortedByKey p rest else p :: q :: rest

def sortByKeyHash (l : List (Hash256 × Op Hash256)) : List (Hash256 × Op Hash256) :=
  l.foldr insertSortedByKey []

/-- `MerkleTree::apply_raw`: hash the keys and values, sort ascending by key
hash, then `apply`. -/
def apply_raw (s : TreeStore) (old_version new_version : Nat)
    (batch : List (Bytes × Op Bytes)) : Option (TreeStore × Option Hash256) :=
  apply s old_version new_version
    (sortByKeyHash (batch.map (fun p => (sha256 p.1, mapOp sha256 p.2))))

/-- `MerkleTree::root_hash`. -/
def root_hash (s : TreeStore) (version : Nat) : Option Hash256 :=
  (lookupNode s.nodes (version, [])).map Node.hash

/-! ## Proof generator -/

inductive ProofNode where
  | internal : Option Hash256 → Option Hash256 → ProofNode
  | leaf : Hash256 → Hash256 → ProofNode
deriving DecidableEq, Repr

structure MembershipProof where
  sibling_hashes : List (Option Hash256)
deriving DecidableEq, Repr

structure NonMembershipProof where
  node : ProofNode
  sibling_hashes : List (Option Hash256)
deriving DecidableEq, Repr

inductive Proof where
  | membership : MembershipProof → Proof
  | nonMembership : NonMembershipProof → Proof
deriving DecidableEq, Repr

def hash_of : Option Child → Option Hash256 :=
  Option.map Child.hash

/-- The loop of `MerkleTree::prove`: walk the bits of the key hash from the
root; `iter` is the list of remaining bits. The `unreachable!` arm and a
failing child load are modelled as `none`. Siblings are pushed to the end of
the accumulator, like `Vec::push`. -/
def proveLoop (s : TreeStore) (key_hash : Hash256) :
    List Nat → List Nat → Node → List (Option Hash256) →
    Option (Option ProofNode × List (Option Hash256))
  | _, _, .leaf leaf, sibling_hashes =>
      some
        (if key_hash = leaf.key_hash then none
         else some (.leaf leaf.key_hash leaf.value_hash),
         sibling_hashes)
  | iter, bits, .internal ⟨left_child, right_child⟩, sibling_hashes =>
    match iter, left_child, right_child with
    | 0 :: iterRest, some child, sibling =>
        match lookupNode s.nodes (child.version, bits ++ [0]) with
        | some node =>
            proveLoop s key_hash iterRest (bits ++ [0]) node
              (sibling_hashes ++ [hash_of sibling])
        | none => none
    | 1 :: iterRest, sibling, some child =>
        match lookupNode s.nodes (child.version, bits ++ [1]) with
        | some node =>
            proveLoop s key_hash iterRest (bits ++ [1]) node
              (sibling_hashes ++ [hash_of sibling])
        | none => none
    | 0 :: _, none, sibling =>
        some (some (.internal none (hash_of sibling)), sibling_hashes)
    | 1 :: _, sibling, none =>
        some (some (.internal (hash_of sibling) none), sibling_hashes)
    | _, _, _ => none

/-- `MerkleTree::prove`. The root load failure (`StdError::data_not_found`
from `Path::load`) is modelled as `none`. -/
def prove (s : TreeStore) (key_hash : Hash256) (version : Nat) : Option Proof :=
  match lookupNode s.nodes (version, []) with
  | none => none
  | some node =>
    match proveLoop s key_hash (bitsOfBytes key_hash) [] node [] with
    | none => none
    | some (proof_node, sibling_hashes) =>
      let sibling_hashes := sibling_hashes.reverse
      match proof_node with
      | some node => some (.nonMembership ⟨node, sibling_hashes⟩)
      | none => some (.membership ⟨sibling_hashes⟩)

-- FIPS 180-4 test vector.
example : sha256 [97, 98, 99] =
    [0xba, 0x78, 0x16, 0xbf, 0x8f, 0x01, 0xcf, 0xea, 0x41, 0x41, 0x40, 0xde, 0x5d, 0xae, 0x22, 0x23,
     0xb0, 0x03, 0x61, 0xa3, 0x96, 0x17, 0x7a, 0x9c, 0xb4, 0x10, 0xff, 0x61, 0xf2, 0x00, 0x15, 0xad] := by
  decide

-- sha256("r"), as documented in the test comments of tree.rs.
example : sha256 [114] =
    [0x45, 0x43, 0x49, 0xe4, 0x22, 0xf0, 0x52, 0x97, 0x19, 0x1e, 0xad, 0x13, 0xe2, 0x1d, 0x3d, 0xb5,
     0x20, 0xe5, 0xab, 0xef, 0x52, 0x05, 0x5e, 0x49, 0x64, 0xb8, 0x2f, 0xb2, 0x13, 0xf5, 0x93, 0xa1] := by
  decide

/-! ## Concrete scenarios -/

/-- The S1 batch, in the ascending raw-key order of `Batch::from`
(a `BTreeMap`): "L" < "a" < "m" < "r". -/
def s1Batch : List (Bytes × Op Bytes) :=
  [([76], .insert [102, 117, 122, 122]),
   ([97], .insert [98, 117, 122, 122]),
   ([109], .insert [98, 97, 114]),
   ([114], .insert [102, 111, 111])]

def s1Result : Option (TreeStore × Option Hash256) :=
  apply_raw emptyTreeStore 0 1 s1Batch

def s1Store : TreeStore := ((s1Result.map Prod.fst).getD emptyTreeStore)

def s1RootDigest : Hash256 :=
  [0xae, 0x08, 0xc2, 0x46, 0xd5, 0x3a, 0x8f, 0xf3, 0x57, 0x2a, 0x68, 0xd5, 0xbb, 0xa4, 0xd6, 0x10,
   0xaa, 0xaa, 0x76, 0x5e, 0x3e, 0xf5, 0x35, 0x32, 0x0c, 0x56, 0x53, 0x96, 0x9a, 0xaa, 0x03, 0x1b]

/-- The S1 store, written out explicitly; `s1Result_eq` proves it equal
to the computed store, so later concrete theorems walk this literal instead
of re-running the whole hashing pipeline. -/
def s1StoreLit : TreeStore :=
  ⟨[((1, [0, 1, 0]),
      Node.leaf ⟨[69, 67, 73, 228, 34, 240, 82, 151, 25, 30, 173, 19, 226, 29, 61, 181, 32, 229, 171, 239, 82, 5, 94, 73, 100, 184, 47, 178, 19, 245, 147, 161],
      [44, 38, 180, 107, 104, 255, 198, 143, 249, 155, 69, 60, 29, 48, 65, 52, 19, 66, 45, 112, 100, 131, 191, 160, 249, 138, 94, 136, 98, 102, 231, 174]⟩),
    ((1, [0, 1, 1, 0]),
      Node.leaf ⟨[98, 198, 106, 122, 93, 215, 12, 49, 70, 97, 128, 99, 195, 68, 229, 49, 230, 212, 181, 158, 55, 152, 8, 68, 60, 233, 98, 179, 171, 214, 60, 90],
      [252, 222, 43, 46, 219, 165, 107, 244, 8, 96, 31, 183, 33, 254, 155, 92, 51, 141, 16, 238, 66, 158, 160, 79, 174, 85, 17, 182, 143, 191, 143, 185]⟩),
    ((1, [0, 1, 1, 1]),
      Node.leaf ⟨[114, 223, 207, 176, 196, 112, 172, 37, 92, 222, 131, 251, 143, 227, 141, 232, 161, 40, 24, 142, 3, 234, 91, 165, 178, 169, 58, 219, 234, 16, 98, 250],
      [147, 133, 11, 112, 117, 133, 228, 4, 228, 149, 26, 61, 220, 31, 5, 163, 75, 61, 79, 95, 192, 129, 214, 22, 244, 109, 138, 46, 143, 28, 142, 104]⟩),
    ((1, [0, 1, 1]),
      Node.internal ⟨some ⟨1, [253, 52, 227, 248, 217, 132, 14, 127, 109, 111, 99, 148, 53, 182, 249, 182, 119, 50, 252, 94, 61, 82, 136, 226, 104, 2, 26, 234, 184, 115, 242, 128]⟩,
      some ⟨1, [65, 35, 65, 56, 11, 30, 23, 16, 119, 221, 157, 169, 175, 147, 106, 226, 18, 110, 222, 45, 217, 29, 197, 172, 176, 247, 115, 99, 212, 110, 183, 107]⟩⟩),
    ((1, [0, 1]),
      Node.internal ⟨some ⟨1, [200, 52, 142, 154, 122, 50, 126, 139, 118, 233, 112, 150, 195, 98, 161, 248, 112, 113, 238, 65, 8, 181, 101, 209, 244, 9, 82, 156, 24, 156, 182, 132]⟩,
      some ⟨1, [225, 4, 226, 188, 242, 64, 39, 175, 115, 124, 2, 16, 51, 203, 157, 140, 189, 113, 10, 70, 63, 84, 174, 111, 47, 249, 235, 6, 199, 132, 199, 68]⟩⟩),
    ((1, [0]),
      Node.internal ⟨none,
      some ⟨1, [82, 29, 224, 163, 239, 43, 119, 145, 102, 100, 53, 168, 114, 202, 158, 196, 2, 206, 136, 106, 255, 7, 187, 68, 1, 222, 40, 191, 221, 228, 161, 59]⟩⟩),
    ((1, [1]),
      Node.leaf ⟨[202, 151, 129, 18, 202, 27, 189, 202, 250, 194, 49, 179, 154, 35, 220, 77, 167, 134, 239, 248, 20, 124, 78, 114, 185, 128, 119, 133, 175, 238, 72, 187],
      [159, 255, 59, 203, 16, 202, 94, 135, 184, 16, 156, 205, 233, 233, 69, 32, 18, 214, 52, 160, 5, 148, 42, 252, 70, 207, 43, 127, 163, 7, 82, 106]⟩),
    ((1, []),
      Node.internal ⟨some ⟨1, [184, 67, 169, 103, 101, 252, 64, 100, 18, 39, 35, 78, 159, 154, 39, 54, 194, 224, 205, 248, 251, 45, 197, 78, 53, 139, 180, 250, 41, 166, 16, 66]⟩,
      some ⟨1, [203, 100, 14, 104, 104, 38, 40, 68, 90, 62, 7, 19, 250, 254, 145, 185, 206, 254, 79, 129, 194, 51, 126, 157, 61, 242, 1, 216, 26, 231, 2, 34]⟩⟩)],
   []⟩

/-- The S3 batch: delete all four keys (ascending raw-key order). -/
def s3Batch : List (Bytes × Op Bytes) :=
  [([76], .delete), ([97], .delete), ([109], .delete), ([114], .delete)]

def s3Result : Option (TreeStore × Option Hash256) :=
  apply_raw s1Store 1 2 s3Batch

/-- Every node stored at version 1 has an orphan entry with
`orphaned_since_version = 2`. -/
def allV1NodesOrphanedSince2 (s : TreeStore) : Bool :=
  s.nodes.all fun e => !(e.1.1 == 1) || s.orphans.contains (2, e.1.1, e.1.2)

/-- The S4 (no-op) batch: overwrites with identical values plus deletes of
absent keys "biden", "larry", "trump" (ascending raw-key order). -/
def s4Batch : List (Bytes × Op Bytes) :=
  [([76], .insert [102, 117, 122, 122]),
   ([97], .insert [98, 117, 122, 122]),
   ([98, 105, 100, 101, 110], .delete),
   ([108, 97, 114, 114, 121], .delete),
   ([109], .insert [98, 97, 114]),
   ([114], .insert [102, 111, 111]),
   ([116, 114, 117, 109, 112], .delete)]

def s4Result : Option (TreeStore × Option Hash256) :=
  apply_raw s1Store 1 2 s4Batch

/-! ## Cache overlay (`crates/app/src/cache.rs`)

The base store is modelled by its contents: an association list of records
sorted strictly ascending by key (the KV contract of spec §4.A: `scan`
yields the records in `[min, max)` in order). The pending batch is a
`BTreeMap<Vec<u8>, Op>`: an association list sorted strictly ascending by
key. -/

inductive Order where
  | ascending
  | descending
deriving DecidableEq, Repr

abbrev Record := Bytes × Bytes

/-- Key strictly-less, by lexicographic byte comparison. -/
def keyLt (a b : Bytes) : Prop := byteCompare a b = .lt

instance (a b : Bytes) : Decidable (keyLt a b) := by unfold keyLt; infer_instance

/-- A store's contents / a batch: sorted strictly ascending by key. -/
def SortedByKey {A : Type} (l : List (Bytes × A)) : Prop :=
  l.Pairwise (fun x y => keyLt x.1 y.1)

/-- `[min, max)` bound check: `min` inclusive, `max` exclusive, either side
optional (unbounded). -/
def inBounds (mi ma : Option Bytes) (k : Bytes) : Bool :=
  (match mi with
   | some m => !(byteCompare k m == .lt)
   | none => true) &&
  (match ma with
   | some m => byteCompare k m == .lt
   | none => true)

/-- The KV contract's `scan` on a store with the given sorted contents. -/
def scanList (contents : List Record) (mi ma : Option Bytes) (order : Order) : List Record :=
  let f := contents.filter (fun r => inBounds mi ma r.1)
  match order with
  | .ascending => f
  | .descending => f.reverse

/-- The pending iterator of `CacheStore::scan`: `pending.range((min, max))`
ascending, reversed for descending order. -/
def pendingRange (pending : List (Bytes × Op Bytes)) (mi ma : Option Bytes)
    (order : Order) : List (Bytes × Op Bytes) :=
  let f := pending.filter (fun p => inBounds mi ma p.1)
  match order with
  | .ascending => f
  | .descending => f.reverse

/-- The `Merged` iterator of cache.rs, run to completion: `next` peeks both
sides, compares keys (reversed for descending), yields the base record on
`Less`, takes the pending entry on `Greater` (yield on `Insert`, skip on
`Delete`), and on `Equal` discards the base record and takes the pending
entry. -/
def mergedList (order : Order) (base : List Record) (pending : List (Bytes × Op Bytes)) :
    List Record :=
  match base, pending with
  | [], [] => []
  | b :: bs, [] => b :: mergedList order bs []
  | [], (pk, .insert pv) :: ps => (pk, pv) :: mergedList order [] ps
  | [], (_, .delete) :: ps => mergedList order [] ps
  | b :: bs, (pk, pop) :: ps =>
    let ordering := match order with
      | .ascending => byteCompare b.1 pk
      | .descending => (byteCompare b.1 pk).swap
    match ordering with
    | .lt => b :: mergedList order bs ((pk, pop) :: ps)
    | .eq =>
      match pop with
      | .insert pv => (pk, pv) :: mergedList order bs ps
      | .delete => mergedList order bs ps
    | .gt =>
      match pop with
      | .insert pv => (pk, pv) :: mergedList order (b :: bs) ps
      | .delete => mergedList order (b :: bs) ps
termination_by base.length + pending.length

/-- `CacheStore::scan`: empty if `min > max`, else the merged iteration of
the base scan and the pending range. -/
def cacheScan (base : List Record) (pending : List (Bytes × Op Bytes))
    (mi ma : Option Bytes) (order : Order) : List Record :=
  match mi, ma with
  | some m1, some m2 =>
    if byteCompare m1 m2 = .gt then []
    else mergedList order (scanList base mi ma order) (pendingRange pending mi ma order)
  | _, _ => mergedList order (scanList base mi ma order) (pendingRange pending mi ma order)

/-- Applying one op to the base contents: the KV contract's `write` (insert
or overwrite, keeping the sort) / `remove`. -/
def insertSortedRecord : List Record → Bytes → Bytes → List Record
  | [], k, v => [(k, v)]
  | r :: rest, k, v =>
    match byteCompare k r.1 with
    | .lt => (k, v) :: r :: rest
    | .eq => (k, v) :: rest
    | .gt => r :: insertSortedRecord rest k v

def applyOp (contents : List Record) (k : Bytes) : Op Bytes → List Record
  | .insert v => insertSortedRecord contents k v
  | .delete => contents.filter (fun r => !(r.1 == k))

/-- `flush`ing a batch into the base store: apply each op in order. -/
def applyBatch (contents : List Record) (batch : List (Bytes × Op Bytes)) : List Record :=
  batch.foldl (fun c p => applyOp c p.1 p.2) contents

/-! ### Association-list lookup and sorted extensionality -/

def lookupA {A : Type} : List (Bytes × A) → Bytes → Option A
  | [], _ => none
  | (k, v) :: rest, key => if k = key then some v else lookupA rest key

def KeysDistinct {A : Type} (l : List (Bytes × A)) : Prop :=
  l.Pairwise (fun x y => x.1 ≠ y.1)

/-- Sorted strictly descending by key. -/
def SortedByKeyDesc {A : Type} (l : List (Bytes × A)) : Prop :=
  l.Pairwise (fun x y => keyLt y.1 x.1)

/-- `CacheStore::read`: pending entry wins (`Insert` → value, `Delete` →
absent); otherwise read the base. -/
def cacheRead (base : List Record) (pending : List (Bytes × Op Bytes)) (k : Bytes) :
    Option Bytes :=
  match lookupA pending k with
  | some (.insert v) => some v
  | some .delete => none
  | none => lookupA base k

/-- The S5 base store contents. -/
def s5Base : List Record :=
  [([1], [1]), ([2], [2]), ([4], [4]), ([5], [5]), ([6], [6]), ([7], [7])]

/-- The S5 pending batch. -/
def s5Pending : List (Bytes × Op Bytes) :=
  [([2], .delete), ([3], .insert [3]), ([6], .insert [255]), ([7], .delete), ([8], .insert [8])]

/-- The expected S5 merged ascending scan. -/
def s5Merged : List Record :=
  [([1], [1]), ([3], [3]), ([4], [4]), ([5], [5]), ([6], [255]), ([8], [8])]

instance {A : Type} (l : List (Bytes × A)) : Decidable (SortedByKey l) := by
  unfold SortedByKey
  infer_instance

/-! ## Shared store paging (`crates/app/src/shared.rs`) -/

/-- Modelled from the spec: `increment_last_byte` (grug_types, not under
`src/`) re-seeds the ascending lower bound to the lexicographic successor of
the last yielded key — "lex-next by appending a zero" (spec §9) — so that the
next page excludes `last_key` and nothing else. -/
def increment_last_byte (key : Bytes) : Bytes := key ++ [0]

/-- `SharedIter::BATCH_SIZE`. -/
def BATCH_SIZE : Nat := 30

/-- `SharedIter`, iterated to exhaustion over a store whose contents do not
change between pages: each page takes up to `BATCH_SIZE` records of a fresh
`scan`, then re-seeds `min` (ascending) to `increment_last_byte(last_key)` or
`max` (descending) to `last_key`; iteration ends at the first empty page.
Fuel bounds the page count; `sharedScan` supplies enough for any store. -/
def sharedScanPages : Nat → List Record → Option Bytes → Option Bytes → Order → List Record
  | 0, _, _, _, _ => []
  | fuel + 1, contents, mi, ma, order =>
    let batch := (scanList contents mi ma order).take BATCH_SIZE
    match batch.getLast? with
    | none => []
    | some kv =>
      match order with
      | .ascending =>
          batch ++ sharedScanPages fuel contents (some (increment_last_byte kv.1)) ma order
      | .descending =>
          batch ++ sharedScanPages fuel contents mi (some kv.1) order

/-- `SharedStore::scan`, collected: enough fuel for any page count. -/
def sharedScan (contents : List Record) (mi ma : Option Bytes) (order : Order) : List Record :=
  sharedScanPages (contents.length + 1) contents mi ma order

/-- Hash of the node at bit path 011 in the S1 tree (from the tree.rs test
comments). -/
def hash011 : Hash256 :=
  [0xe1, 0x04, 0xe2, 0xbc, 0xf2, 0x40, 0x27, 0xaf, 0x73, 0x7c, 0x02, 0x10, 0x33, 0xcb, 0x9d, 0x8c,
   0xbd, 0x71, 0x0a, 0x46, 0x3f, 0x54, 0xae, 0x6f, 0x2f, 0xf9, 0xeb, 0x06, 0xc7, 0x84, 0xc7, 0x44]

/-- Hash of the node at bit path 1 in the S1 tree (from the tree.rs test
comments). -/
def hash1 : Hash256 :=
  [0xcb, 0x64, 0x0e, 0x68, 0x68, 0x26, 0x28, 0x44, 0x5a, 0x3e, 0x07, 0x13, 0xfa, 0xfe, 0x91, 0xb9,
   0xce, 0xfe, 0x4f, 0x81, 0xc2, 0x33, 0x7e, 0x9d, 0x3d, 0xf2, 0x01, 0xd8, 0x1a, 0xe7, 0x02, 0x22]

/-- Modelled from the spec: the terminal of the proof walk of §4.G — walk the
key hash's bits from the root; at a leaf the witness is `none` when the leaf's
key hash equals the queried one (membership), else the mismatching
`Leaf{key_hash, value_hash}`; at an internal node whose required child is
absent, `Internal` with `None` on the queried key's side and the present
sibling's hash on the other. -/
def walkWitness (s : TreeStore) (key_hash : Hash256) :
    List Nat → List Nat → Node → Option (Option ProofNode)
  | _, _, .leaf leaf =>
      some (if key_hash = leaf.key_hash then none
            else some (.leaf leaf.key_hash leaf.value_hash))
  | iter, bits, .internal ⟨left_child, right_child⟩ =>
    match iter, left_child, right_child with
    | 0 :: iterRest, some child, _ =>
        match lookupNode s.nodes (child.version, bits ++ [0]) with
        | some node => walkWitness s key_hash iterRest (bits ++ [0]) node
        | none => none
    | 1 :: iterRest, _, some child =>
        match lookupNode s.nodes (child.version, bits ++ [1]) with
        | some node => walkWitness s key_hash iterRest (bits ++ [1]) node
        | none => none
    | 0 :: _, none, sibling => some (some (.internal none (hash_of sibling)))
    | 1 :: _, sibling, none => some (some (.internal (hash_of sibling) none))
    | _, _, _ => none

/-- Modelled from the spec: the sibling hashes collected during the §4.G walk
in root-toward-leaf (descent) order. -/
def descentSiblings (s : TreeStore) (key_hash : Hash256) :
    List Nat → List Nat → Node → Option (List (Option Hash256))
  | _, _, .leaf _ => some []
  | iter, bits, .internal ⟨left_child, right_child⟩ =>
    match iter, left_child, right_child with
    | 0 :: iterRest, some child, sibling =>
        match lookupNode s.nodes (child.version, bits ++ [0]) with
        | some node =>
            (descentSiblings s key_hash iterRest (bits ++ [0]) node).map
              (fun sibs => hash_of sibling :: sibs)
        | none => none
    | 1 :: iterRest, sibling, some child =>
        match lookupNode s.nodes (child.version, bits ++ [1]) with
        | some node =>
            (descentSiblings s key_hash iterRest (bits ++ [1]) node).map
              (fun sibs => hash_of sibling :: sibs)
        | none => none
    | 0 :: _, none, _ => some []
    | 1 :: _, _, none => some []
    | _, _, _ => none

/-- Modelled from the spec: the root-toward-leaf sibling order §4.G/C5 claims
for the proof artifact, starting at the stored root. -/
def rootToLeafSiblings (s : TreeStore) (key_hash : Hash256) (version : Nat) :
    Option (List (Option Hash256)) :=
  match lookupNode s.nodes (version, []) with
  | none => none
  | some node => descentSiblings s key_hash (bitsOfBytes key_hash) [] node


/-! ## Logical tree lookup, structural invariant, and no-op batches -/

/-- The node map of a `TreeStore`. -/
abbrev NodeMap := List ((Nat × List Nat) × Node)

/-- Logical lookup of `key_hash` in the subtree rooted at `(version, bits)`:
walk by the key hash's bits, following child descriptors exactly as `prove`
and the apply engine route. `none` = out of fuel; `some none` = the key is
absent; `some (some vh)` = the key is bound with value hash `vh`. -/
def subtreeGet : Nat → NodeMap → Nat → List Nat → Hash256 → Option (Option Hash256)
  | 0, _, _, _, _ => none
  | fuel + 1, nodes, version, bits, key_hash =>
    match lookupNode nodes (version, bits) with
    | none => some none
    | some (.leaf l) => some (if l.key_hash = key_hash then some l.value_hash else none)
    | some (.internal i) =>
      if bit_at_index key_hash bits.length = 0 then
        match i.left_child with
        | none => some none
        | some c => subtreeGet fuel nodes c.version (extendOneBit bits true) key_hash
      else
        match i.right_child with
        | none => some none
        | some c => subtreeGet fuel nodes c.version (extendOneBit bits false) key_hash

/-- The structural invariant of a stored node (spec invariants: no dangling
child descriptors, every internal node has at least one child, a single
child is never a leaf, and a child is recorded at a version no newer than
the version its parent is stored under). Fuel bounds the depth. -/
def nodeShape : Nat → NodeMap → Nat → List Nat → Node → Bool
  | 0, _, _, _, _ => false
  | _ + 1, _, _, _, .leaf _ => true
  | fuel + 1, nodes, version, bits, .internal i =>
    (i.left_child.isSome || i.right_child.isSome) &&
    (match i.left_child with
     | none => true
     | some c =>
       decide (c.version ≤ version) &&
       match lookupNode nodes (c.version, extendOneBit bits true) with
       | none => false
       | some m =>
         (i.right_child.isSome || !m.is_leaf) &&
         nodeShape fuel nodes c.version (extendOneBit bits true) m) &&
    (match i.right_child with
     | none => true
     | some c =>
       decide (c.version ≤ version) &&
       match lookupNode nodes (c.version, extendOneBit bits false) with
       | none => false
       | some m =>
         (i.left_child.isSome || !m.is_leaf) &&
         nodeShape fuel nodes c.version (extendOneBit bits false) m)

/-- Well-formedness of the (possibly absent) subtree rooted at `(version, bits)`. -/
def subtreeWF (fuel : Nat) (nodes : NodeMap) (version : Nat) (bits : List Nat) : Bool :=
  match lookupNode nodes (version, bits) with
  | none => true
  | some n => nodeShape fuel nodes version bits n

/-- An op is a no-op on the subtree at `(version, bits)`: an insert re-binds
a bound key to its present value hash, a delete targets an absent key. -/
def noopOp (fuel : Nat) (nodes : NodeMap) (version : Nat) (bits : List Nat) :
    Hash256 × Op Hash256 → Bool
  | (key_hash, .insert value_hash) =>
      subtreeGet fuel nodes version bits key_hash == some (some value_hash)
  | (key_hash, .delete) => subtreeGet fuel nodes version bits key_hash == some none

/-- A batch of no-ops on the subtree at `(version, bits)`. -/
def NoopBatch (fuel : Nat) (nodes : NodeMap) (version : Nat) (bits : List Nat)
    (batch : List (Hash256 × Op Hash256)) : Bool :=
  batch.all (noopOp fuel nodes version bits)

/-- Strict bit-lexicographic order on key hashes: the bytewise order
`apply_raw` sorts by, read off the bit sequence (the two orders coincide on
the equal-length 32-byte hashes the engine feeds to the tree). -/
def bitLexLt (a b : Bytes) : Prop :=
  byteCompare (bitsOfBytes a) (bitsOfBytes b) = .lt

instance (a b : Bytes) : Decidable (bitLexLt a b) := by
  unfold bitLexLt; infer_instance

/-- Batch sorted strictly ascending in key-hash bit order (the engine's
precondition: sorted with unique key hashes). -/
def BitSorted (batch : List (Hash256 × Op Hash256)) : Prop :=
  batch.Pairwise (fun p q => bitLexLt p.1 q.1)

instance (batch : List (Hash256 × Op Hash256)) : Decidable (BitSorted batch) := by
  unfold BitSorted; infer_instance

/-- Every key hash in the batch runs along the path `bits`. -/
def KeysAlongPath (bits : List Nat) (batch : List (Hash256 × Op Hash256)) : Prop :=
  ∀ p ∈ batch, ∀ i < bits.length, bit_at_index p.1 i = bits.getD i 0

/-- The node a child descriptor designates (`none` when the child is absent). -/
def childLookup (nodes : NodeMap) (bits : List Nat) (il : Bool) : Option Child → Option Node
  | none => none
  | some c => lookupNode nodes (c.version, extendOneBit bits il)

/-- What one step of the apply engine guarantees at `(`new_version`, bits)`:
writes confined to the new version below `bits`; an `Unchanged` outcome
leaves the node map untouched and reports the node the dispatch saw; an
`Updated` outcome is a well-shaped replacement subtree; a `Deleted` outcome
does not write at `bits` itself. -/
def AtConc (s s' : TreeStore) (new_version : Nat) (bits : List Nat) (out : Outcome)
    (look : Option Node) (gf : Nat) : Prop :=
  (∀ (v' : Nat) (p' : List Nat), (v' ≠ new_version ∨ ¬ bits <+: p') →
    lookupNode s'.nodes (v', p') = lookupNode s.nodes (v', p')) ∧
  (∀ o, out = .unchanged o → s'.nodes = s.nodes ∧ o = look) ∧
  (∀ n, out = .updated n → nodeShape gf s'.nodes new_version bits n = true) ∧
  (out = .deleted →
    lookupNode s'.nodes (new_version, bits) = lookupNode s.nodes (new_version, bits))

/-- What `apply_at_child` guarantees, at the child path
`extendOneBit bits il`: as `AtConc`, except that an `Updated` replacement is
additionally saved at the child path, and an `Unchanged` outcome reports the
loaded child (or absence). -/
def ChildConc (s s' : TreeStore) (new_version : Nat) (bits : List Nat) (il : Bool)
    (child : Option Child) (out : Outcome) (gf : Nat) : Prop :=
  (∀ (v' : Nat) (p' : List Nat), (v' ≠ new_version ∨ ¬ extendOneBit bits il <+: p') →
    lookupNode s'.nodes (v', p') = lookupNode s.nodes (v', p')) ∧
  (∀ o, out = .unchanged o → s'.nodes = s.nodes ∧
    ((child = none ∧ o = none) ∨
     (∃ c m, child = some c ∧
       lookupNode s.nodes (c.version, extendOneBit bits il) = some m ∧ o = some m))) ∧
  (∀ n, out = .updated n →
    lookupNode s'.nodes (new_version, extendOneBit bits il) = some n ∧
    nodeShape gf s'.nodes new_version (extendOneBit bits il) n = true) ∧
  (out = .deleted →
    lookupNode s'.nodes (new_version, extendOneBit bits il) =
      lookupNode s.nodes (new_version, extendOneBit bits il))

/-! ## Single-internal-child retention scenario

Three synthetic key hashes whose first bits are 00, 01 and 1: inserting all
three and then deleting the third leaves a root whose only child is the old
internal node over the first two — retained, not collapsed. -/

def c2KeyA : Hash256 := List.replicate 32 0

def c2KeyB : Hash256 := 64 :: List.replicate 31 0

def c2KeyC : Hash256 := 128 :: List.replicate 31 0

def c2Val : Hash256 := List.replicate 32 1

def c2Batch1 : List (Hash256 × Op Hash256) :=
  [(c2KeyA, .insert c2Val), (c2KeyB, .insert c2Val), (c2KeyC, .insert c2Val)]

def c2Store1 : TreeStore :=
  ((apply emptyTreeStore 0 1 c2Batch1).map Prod.fst).getD emptyTreeStore

def c2Result2 : Option (TreeStore × Option Hash256) :=
  apply c2Store1 1 2 [(c2KeyC, .delete)]

def c2Store2 : TreeStore := (c2Result2.map Prod.fst).getD emptyTreeStore

/-- The root stored at version 2 is an internal node whose only child is an
internal node (looked up at the left child path). -/
def singleInternalChildRetained (res : Option (TreeStore × Option Hash256)) : Bool :=
  match res with
  | some (st, _) =>
    match lookupNode st.nodes (2, []) with
    | some (.internal ⟨some c, none⟩) =>
      match lookupNode st.nodes (c.version, [0]) with
      | some (.internal _) => true
      | _ => false
    | _ => false
  | none => false

end Grug

namespace Grug

/-! ## Supporting lemmas -/

/-! ### Order lemmas for lexicographic byte comparison -/

theorem byteCompare_self (a : Bytes) : byteCompare a a = .eq := by
  induction a with
  | nil => rfl
  | cons x xs ih => simp [byteCompare, Nat.compare_eq_eq.2 rfl, ih]

theorem byteCompare_eq_iff : ∀ {a b : Bytes}, byteCompare a b = .eq ↔ a = b := by
  intro a
  induction a with
  | nil => intro b; cases b <;> simp [byteCompare]
  | cons x xs ih =>
    intro b
    cases b with
    | nil => simp [byteCompare]
    | cons y ys =>
      rcases Nat.lt_trichotomy x y with h | h | h
      · simp [byteCompare, Nat.compare_eq_lt.2 h]
        intro hxy; omega
      · subst h
        simp [byteCompare, Nat.compare_eq_eq.2 rfl, ih]
      · simp [byteCompare, Nat.compare_eq_gt.2 h]
        intro hxy; omega
  

theorem byteCompare_swap (a : Bytes) : ∀ b : Bytes, (byteCompare a b).swap = byteCompare b a := by
  induction a with
  | nil => intro b; cases b <;> rfl
  | cons x xs ih =>
    intro b
    cases b with
    | nil => rfl
    | cons y ys =>
      rcases Nat.lt_trichotomy x y with h | h | h
      · simp [byteCompare, Nat.compare_eq_lt.2 h, Nat.compare_eq_gt.2 h, Ordering.swap]
      · subst h; simp [byteCompare, Nat.compare_eq_eq.2 rfl, ih]
      · simp [byteCompare, Nat.compare_eq_gt.2 h, Nat.compare_eq_lt.2 h, Ordering.swap]

theorem byteCompare_lt_trans :
    ∀ {a b c : Bytes}, byteCompare a b = .lt → byteCompare b c = .lt → byteCompare a c = .lt := by
  intro a
  induction a with
  | nil =>
    intro b c hab hbc
    cases b with
    | nil => exact hbc
    | cons y ys =>
      cases c with
      | nil => simp [byteCompare] at hbc
      | cons z zs => rfl
  | cons x xs ih =>
    intro b c hab hbc
    cases b with
    | nil => simp [byteCompare] at hab
    | cons y ys =>
      cases c with
      | nil => simp [byteCompare] at hbc
      | cons z zs =>
        rcases Nat.lt_trichotomy x y with h | h | h
        · rcases Nat.lt_trichotomy y z with h2 | h2 | h2
          · simp [byteCompare, Nat.compare_eq_lt.2 (Nat.lt_trans h h2)]
          · subst h2; simp [byteCompare, Nat.compare_eq_lt.2 h]
          · simp [byteCompare, Nat.compare_eq_gt.2 h2] at hbc
        · subst h
          rcases Nat.lt_trichotomy x z with h2 | h2 | h2
          · simp [byteCompare, Nat.compare_eq_lt.2 h2]
          · subst h2
            simp [byteCompare, Nat.compare_eq_eq.2 rfl] at hab hbc ⊢
            exact ih hab hbc
          · simp [byteCompare, Nat.compare_eq_gt.2 h2] at hbc
        · simp [byteCompare, Nat.compare_eq_gt.2 h] at hab

theorem keyLt_irrefl (a : Bytes) : ¬ keyLt a a := by
  simp [keyLt, byteCompare_self]

theorem keyLt_asymm {a b : Bytes} (h : keyLt a b) : ¬ keyLt b a := by
  intro h2
  exact absurd (byteCompare_lt_trans h h2) (keyLt_irrefl a)

theorem keyLt_trans {a b c : Bytes} (h1 : keyLt a b) (h2 : keyLt b c) : keyLt a c :=
  byteCompare_lt_trans h1 h2

/-- Trichotomy for byteCompare: exactly one of lt / eq / gt. -/
theorem byteCompare_gt_iff {a b : Bytes} : byteCompare a b = .gt ↔ keyLt b a := by
  unfold keyLt
  rw [← byteCompare_swap b a]
  cases byteCompare b a <;> simp [Ordering.swap]

theorem keyLt_or {a b : Bytes} (h : ¬ keyLt a b) : a = b ∨ keyLt b a := by
  rcases he : byteCompare a b with _ | _ | _
  · exact absurd he h
  · exact Or.inl (byteCompare_eq_iff.1 he)
  · exact Or.inr (byteCompare_gt_iff.1 he)

theorem lookupA_eq_some {A : Type} :
    ∀ {l : List (Bytes × A)} {k : Bytes} {v : A}, lookupA l k = some v → (k, v) ∈ l := by
  intro l
  induction l with
  | nil => intro k v h; simp [lookupA] at h
  | cons p rest ih =>
    intro k v h
    rw [lookupA] at h
    split at h
    · rename_i heq
      cases h
      subst heq
      exact List.mem_cons_self _ _
    · exact List.mem_cons_of_mem _ (ih h)

theorem lookupA_eq_none_of_not_mem {A : Type} :
    ∀ {l : List (Bytes × A)} {k : Bytes}, k ∉ l.map Prod.fst → lookupA l k = none := by
  intro l
  induction l with
  | nil => intro k _; rfl
  | cons p rest ih =>
    intro k h
    simp only [List.map_cons, List.mem_cons] at h
    push_neg at h
    rw [lookupA, if_neg (fun he => h.1 he.symm), ih h.2]

theorem lookupA_head {A : Type} (k : Bytes) (v : A) (l : List (Bytes × A)) :
    lookupA ((k, v) :: l) k = some v := by
  simp [lookupA]

theorem lookupA_tail_of_sorted {A : Type} {k : Bytes} {v : A} {l : List (Bytes × A)}
    (h : SortedByKey ((k, v) :: l)) : lookupA l k = none := by
  apply lookupA_eq_none_of_not_mem
  intro hmem
  rcases List.mem_map.1 hmem with ⟨p, hp, hfst⟩
  have := (List.pairwise_cons.1 h).1 p hp
  rw [hfst] at this
  exact keyLt_irrefl k this

/-- Two sorted association lists with the same lookups are equal. -/
theorem sorted_ext {A : Type} :
    ∀ {u v : List (Bytes × A)}, SortedByKey u → SortedByKey v →
      (∀ k, lookupA u k = lookupA v k) → u = v := by
  intro u
  induction u with
  | nil =>
    intro v _ _ h
    cases v with
    | nil => rfl
    | cons p rest =>
      have h2 : lookupA (p :: rest) p.1 = some p.2 := by
        obtain ⟨k2, v2⟩ := p
        exact lookupA_head _ _ _
      rw [← h p.1] at h2
      simp [lookupA] at h2
  | cons p u' ih =>
    intro v hu hv h
    obtain ⟨k, v0⟩ := p
    have hk : lookupA v k = some v0 := by rw [← h k]; exact lookupA_head _ _ _
    cases v with
    | nil => simp [lookupA] at hk
    | cons q v' =>
      obtain ⟨k2, v2⟩ := q
      by_cases hkk : k2 = k
      · subst hkk
        rw [lookupA_head] at hk
        cases hk
        have htails : ∀ k', lookupA u' k' = lookupA v' k' := by
          intro k'
          by_cases hk' : k' = k2
          · subst hk'
            rw [lookupA_tail_of_sorted hu, lookupA_tail_of_sorted hv]
          · have := h k'
            rw [lookupA, lookupA, if_neg (fun he => hk' he.symm),
                if_neg (fun he => hk' he.symm)] at this
            exact this
        rw [ih (List.Pairwise.sublist (List.sublist_cons_self _ _) hu)
              (List.Pairwise.sublist (List.sublist_cons_self _ _) hv) htails]
      · exfalso
        -- k is in v', so k2 < k; symmetrically k2 is in u', so k < k2
        rw [lookupA, if_neg hkk] at hk
        have hkv' : keyLt k2 k := by
          have hmem := lookupA_eq_some hk
          have := (List.pairwise_cons.1 hv).1 _ hmem
          exact this
        have hk2 : lookupA u' k2 = some v2 := by
          have h3 := h k2
          rw [lookupA, if_neg (fun he => hkk he.symm)] at h3
          rw [h3, lookupA_head]
        have hku' : keyLt k k2 := by
          have hmem := lookupA_eq_some hk2
          have := (List.pairwise_cons.1 hu).1 _ hmem
          exact this
        exact keyLt_asymm hku' hkv'

/-! ### Equation lemmas for the merged iterator -/

theorem mergedList_nil_pending (order : Order) :
    ∀ base : List Record, mergedList order base [] = base := by
  intro base
  induction base with
  | nil => simp [mergedList]
  | cons b bs ih => exact (mergedList.eq_def _ _ _).trans (congrArg (List.cons b) ih)

theorem mergedList_asc_lt {b : Record} {bs : List Record} {pk : Bytes} {pop : Op Bytes}
    {ps : List (Bytes × Op Bytes)} (h : byteCompare b.1 pk = .lt) :
    mergedList .ascending (b :: bs) ((pk, pop) :: ps) =
      b :: mergedList .ascending bs ((pk, pop) :: ps) := by
  obtain ⟨bk, bv⟩ := b
  rw [mergedList.eq_def]
  simp_all

theorem mergedList_asc_eq_insert {b : Record} {bs : List Record} {pk pv : Bytes}
    {ps : List (Bytes × Op Bytes)} (h : byteCompare b.1 pk = .eq) :
    mergedList .ascending (b :: bs) ((pk, .insert pv) :: ps) =
      (pk, pv) :: mergedList .ascending bs ps := by
  obtain ⟨bk, bv⟩ := b
  rw [mergedList.eq_def]
  simp_all

theorem mergedList_asc_eq_delete {b : Record} {bs : List Record} {pk : Bytes}
    {ps : List (Bytes × Op Bytes)} (h : byteCompare b.1 pk = .eq) :
    mergedList .ascending (b :: bs) ((pk, .delete) :: ps) =
      mergedList .ascending bs ps := by
  obtain ⟨bk, bv⟩ := b
  rw [mergedList.eq_def]
  simp_all

theorem mergedList_asc_gt_insert {b : Record} {bs : List Record} {pk pv : Bytes}
    {ps : List (Bytes × Op Bytes)} (h : byteCompare b.1 pk = .gt) :
    mergedList .ascending (b :: bs) ((pk, .insert pv) :: ps) =
      (pk, pv) :: mergedList .ascending (b :: bs) ps := by
  obtain ⟨bk, bv⟩ := b
  rw [mergedList.eq_def]
  simp_all

theorem mergedList_asc_gt_delete {b : Record} {bs : List Record} {pk : Bytes}
    {ps : List (Bytes × Op Bytes)} (h : byteCompare b.1 pk = .gt) :
    mergedList .ascending (b :: bs) ((pk, .delete) :: ps) =
      mergedList .ascending (b :: bs) ps := by
  obtain ⟨bk, bv⟩ := b
  rw [mergedList.eq_def]
  simp_all

theorem mergedList_nil_insert (order : Order) (pk pv : Bytes) (ps : List (Bytes × Op Bytes)) :
    mergedList order [] ((pk, .insert pv) :: ps) = (pk, pv) :: mergedList order [] ps := by
  rw [mergedList.eq_def]

theorem mergedList_nil_delete (order : Order) (pk : Bytes) (ps : List (Bytes × Op Bytes)) :
    mergedList order [] ((pk, .delete) :: ps) = mergedList order [] ps := by
  rw [mergedList.eq_def]

/-! ### Lookup helpers -/

theorem lookupA_append {A : Type} (a b : List (Bytes × A)) (k : Bytes) :
    lookupA (a ++ b) k =
      match lookupA a k with
      | some v => some v
      | none => lookupA b k := by
  induction a with
  | nil => simp [lookupA]
  | cons p rest ih =>
    obtain ⟨pk, pv⟩ := p
    by_cases h : pk = k <;> simp [lookupA, h, ih]

theorem lookupA_filter_key {A : Type} (p : Bytes → Bool) (l : List (Bytes × A)) (k : Bytes) :
    lookupA (l.filter (fun r => p r.1)) k = if p k then lookupA l k else none := by
  induction l with
  | nil => simp [lookupA]
  | cons q rest ih =>
    obtain ⟨qk, qv⟩ := q
    by_cases hq : qk = k
    · subst hq
      by_cases hp : p qk <;> simp [lookupA, hp, ih]
    · by_cases hp : p qk <;> simp [lookupA, hq, hp, ih]

theorem keysDistinct_of_sorted {A : Type} {l : List (Bytes × A)} (h : SortedByKey l) :
    KeysDistinct l := by
  refine List.Pairwise.imp ?_ h
  intro a b hlt he
  rw [he] at hlt
  exact keyLt_irrefl _ hlt

theorem lookupA_reverse {A : Type} :
    ∀ {l : List (Bytes × A)}, KeysDistinct l → ∀ k, lookupA l.reverse k = lookupA l k := by
  intro l
  induction l with
  | nil => intro _ k; rfl
  | cons p rest ih =>
    intro h k
    obtain ⟨pk, pv⟩ := p
    have hd : KeysDistinct rest := (List.pairwise_cons.1 h).2
    rw [List.reverse_cons, lookupA_append, ih hd]
    by_cases hk : pk = k
    · subst hk
      have hnone : lookupA rest pk = none := by
        apply lookupA_eq_none_of_not_mem
        intro hm
        rcases List.mem_map.1 hm with ⟨q, hq, he⟩
        exact (List.pairwise_cons.1 h).1 q hq he.symm
      simp [lookupA, hnone]
    · simp only [lookupA, if_neg hk]
      cases lookupA rest k <;> simp [lookupA, hk]

theorem lookupA_none_of_all_gt {A : Type} {c : Bytes} {l : List (Bytes × A)}
    (h : ∀ q ∈ l, keyLt c q.1) : lookupA l c = none := by
  apply lookupA_eq_none_of_not_mem
  intro hm
  rcases List.mem_map.1 hm with ⟨q, hq, he⟩
  exact keyLt_irrefl c (he ▸ h q hq)

theorem lookupA_none_of_all_lt {A : Type} {c : Bytes} {l : List (Bytes × A)}
    (h : ∀ q ∈ l, keyLt q.1 c) : lookupA l c = none := by
  apply lookupA_eq_none_of_not_mem
  intro hm
  rcases List.mem_map.1 hm with ⟨q, hq, he⟩
  exact keyLt_irrefl c (he ▸ h q hq)

/-! ### Sorted-list API -/

theorem sortedByKey_head {A : Type} {p : Bytes × A} {l : List (Bytes × A)}
    (h : SortedByKey (p :: l)) : ∀ q ∈ l, keyLt p.1 q.1 :=
  (List.pairwise_cons.1 h).1

theorem sortedByKey_tail {A : Type} {p : Bytes × A} {l : List (Bytes × A)}
    (h : SortedByKey (p :: l)) : SortedByKey l :=
  (List.pairwise_cons.1 h).2

theorem sortedByKeyDesc_head {A : Type} {p : Bytes × A} {l : List (Bytes × A)}
    (h : SortedByKeyDesc (p :: l)) : ∀ q ∈ l, keyLt q.1 p.1 :=
  (List.pairwise_cons.1 h).1

theorem sortedByKeyDesc_tail {A : Type} {p : Bytes × A} {l : List (Bytes × A)}
    (h : SortedByKeyDesc (p :: l)) : SortedByKeyDesc l :=
  (List.pairwise_cons.1 h).2

theorem keysDistinct_of_sorted_desc {A : Type} {l : List (Bytes × A)}
    (h : SortedByKeyDesc l) : KeysDistinct l := by
  refine List.Pairwise.imp ?_ h
  intro a b hlt he
  rw [he] at hlt
  exact keyLt_irrefl _ hlt

/-! ### Ordering.swap and descending equation helpers -/

theorem ordering_swap_eq_lt {o : Ordering} : o.swap = .lt ↔ o = .gt := by
  cases o <;> simp [Ordering.swap]

theorem ordering_swap_eq_eq {o : Ordering} : o.swap = .eq ↔ o = .eq := by
  cases o <;> simp [Ordering.swap]

theorem ordering_swap_eq_gt {o : Ordering} : o.swap = .gt ↔ o = .lt := by
  cases o <;> simp [Ordering.swap]

theorem mergedList_desc_gt {b : Record} {bs : List Record} {pk : Bytes} {pop : Op Bytes}
    {ps : List (Bytes × Op Bytes)} (h : byteCompare b.1 pk = .gt) :
    mergedList .descending (b :: bs) ((pk, pop) :: ps) =
      b :: mergedList .descending bs ((pk, pop) :: ps) := by
  obtain ⟨bk, bv⟩ := b
  rw [mergedList.eq_def]
  simp_all [Ordering.swap]

theorem mergedList_desc_eq_insert {b : Record} {bs : List Record} {pk pv : Bytes}
    {ps : List (Bytes × Op Bytes)} (h : byteCompare b.1 pk = .eq) :
    mergedList .descending (b :: bs) ((pk, .insert pv) :: ps) =
      (pk, pv) :: mergedList .descending bs ps := by
  obtain ⟨bk, bv⟩ := b
  rw [mergedList.eq_def]
  simp_all [Ordering.swap]

theorem mergedList_desc_eq_delete {b : Record} {bs : List Record} {pk : Bytes}
    {ps : List (Bytes × Op Bytes)} (h : byteCompare b.1 pk = .eq) :
    mergedList .descending (b :: bs) ((pk, .delete) :: ps) =
      mergedList .descending bs ps := by
  obtain ⟨bk, bv⟩ := b
  rw [mergedList.eq_def]
  simp_all [Ordering.swap]

theorem mergedList_desc_lt_insert {b : Record} {bs : List Record} {pk pv : Bytes}
    {ps : List (Bytes × Op Bytes)} (h : byteCompare b.1 pk = .lt) :
    mergedList .descending (b :: bs) ((pk, .insert pv) :: ps) =
      (pk, pv) :: mergedList .descending (b :: bs) ps := by
  obtain ⟨bk, bv⟩ := b
  rw [mergedList.eq_def]
  simp_all [Ordering.swap]

theorem mergedList_desc_lt_delete {b : Record} {bs : List Record} {pk : Bytes}
    {ps : List (Bytes × Op Bytes)} (h : byteCompare b.1 pk = .lt) :
    mergedList .descending (b :: bs) ((pk, .delete) :: ps) =
      mergedList .descending (b :: bs) ps := by
  obtain ⟨bk, bv⟩ := b
  rw [mergedList.eq_def]
  simp_all [Ordering.swap]

/-! ### The merged iterator: key membership -/

theorem mergedList_keys_sub (order : Order) (base : List Record)
    (pending : List (Bytes × Op Bytes)) :
    ∀ r : Record, r ∈ mergedList order base pending →
      r.1 ∈ base.map Prod.fst ∨ r.1 ∈ pending.map Prod.fst := by
  induction base, pending using mergedList.induct order with
  | case1 => intro r h; simp [mergedList] at h
  | case2 b bs ih =>
    intro r h
    rw [mergedList_nil_pending] at h
    exact Or.inl (List.mem_map_of_mem Prod.fst h)
  | case3 pk pv ps ih =>
    intro r h
    rw [mergedList_nil_insert] at h
    rcases List.mem_cons.1 h with rfl | h
    · simp
    · rcases ih r h with h1 | h1
      · simp at h1
      · simp [h1]
  | case4 pk ps ih =>
    intro r h
    rw [mergedList_nil_delete] at h
    rcases ih r h with h1 | h1
    · simp at h1
    · simp [h1]
  | case5 b bs pk pop ps _ord h ih =>
    intro r hr
    cases order with
    | ascending =>
      rw [mergedList_asc_lt h] at hr
      rcases List.mem_cons.1 hr with rfl | hr
      · simp
      · rcases ih r hr with h1 | h1 <;> simp_all
    | descending =>
      rw [mergedList_desc_gt (ordering_swap_eq_lt.1 h)] at hr
      rcases List.mem_cons.1 hr with rfl | hr
      · simp
      · rcases ih r hr with h1 | h1 <;> simp_all
  | case6 b bs pk ps _ord h pv ih =>
    intro r hr
    cases order with
    | ascending =>
      rw [mergedList_asc_eq_insert h] at hr
      rcases List.mem_cons.1 hr with rfl | hr
      · simp
      · rcases ih r hr with h1 | h1 <;> simp_all
    | descending =>
      rw [mergedList_desc_eq_insert (ordering_swap_eq_eq.1 h)] at hr
      rcases List.mem_cons.1 hr with rfl | hr
      · simp
      · rcases ih r hr with h1 | h1 <;> simp_all
  | case7 b bs pk ps _ord h ih =>
    intro r hr
    cases order with
    | ascending =>
      rw [mergedList_asc_eq_delete h] at hr
      rcases ih r hr with h1 | h1 <;> simp_all
    | descending =>
      rw [mergedList_desc_eq_delete (ordering_swap_eq_eq.1 h)] at hr
      rcases ih r hr with h1 | h1 <;> simp_all
  | case8 b bs pk ps _ord h pv ih =>
    intro r hr
    cases order with
    | ascending =>
      rw [mergedList_asc_gt_insert h] at hr
      rcases List.mem_cons.1 hr with rfl | hr
      · simp
      · rcases ih r hr with h1 | h1 <;> simp_all
    | descending =>
      rw [mergedList_desc_lt_insert (ordering_swap_eq_gt.1 h)] at hr
      rcases List.mem_cons.1 hr with rfl | hr
      · simp
      · rcases ih r hr with h1 | h1 <;> simp_all
  | case9 b bs pk ps _ord h ih =>
    intro r hr
    cases order with
    | ascending =>
      rw [mergedList_asc_gt_delete h] at hr
      rcases ih r hr with h1 | h1 <;> simp_all
    | descending =>
      rw [mergedList_desc_lt_delete (ordering_swap_eq_gt.1 h)] at hr
      rcases ih r hr with h1 | h1 <;> simp_all

theorem mergedList_key_lb {c : Bytes} {base : List Record}
    {pending : List (Bytes × Op Bytes)} (order : Order)
    (hbase : ∀ q ∈ base, keyLt c q.1) (hpend : ∀ q ∈ pending, keyLt c q.1) :
    ∀ q ∈ mergedList order base pending, keyLt c q.1 := by
  intro q hq
  rcases mergedList_keys_sub order base pending q hq with h | h
  · rcases List.mem_map.1 h with ⟨x, hx, he⟩
    exact he ▸ hbase x hx
  · rcases List.mem_map.1 h with ⟨x, hx, he⟩
    exact he ▸ hpend x hx

theorem mergedList_key_ub {c : Bytes} {base : List Record}
    {pending : List (Bytes × Op Bytes)} (order : Order)
    (hbase : ∀ q ∈ base, keyLt q.1 c) (hpend : ∀ q ∈ pending, keyLt q.1 c) :
    ∀ q ∈ mergedList order base pending, keyLt q.1 c := by
  intro q hq
  rcases mergedList_keys_sub order base pending q hq with h | h
  · rcases List.mem_map.1 h with ⟨x, hx, he⟩
    exact he ▸ hbase x hx
  · rcases List.mem_map.1 h with ⟨x, hx, he⟩
    exact he ▸ hpend x hx

theorem mergedList_asc_sorted :
    ∀ (base : List Record) (pending : List (Bytes × Op Bytes)),
      SortedByKey base → SortedByKey pending →
      SortedByKey (mergedList .ascending base pending) := by
  intro base pending
  induction base, pending using mergedList.induct Order.ascending with
  | case1 => intro _ _; simp [mergedList]; exact List.Pairwise.nil
  | case2 b bs ih =>
    intro hb hp
    rw [mergedList_nil_pending]
    exact hb
  | case3 pk pv ps ih =>
    intro hb hp
    rw [mergedList_nil_insert]
    refine List.pairwise_cons.2 ⟨?_, ih hb (sortedByKey_tail hp)⟩
    exact mergedList_key_lb _ (by intro q hq; simp at hq) (sortedByKey_head hp)
  | case4 pk ps ih =>
    intro hb hp
    rw [mergedList_nil_delete]
    exact ih hb (sortedByKey_tail hp)
  | case5 b bs pk pop ps _ord h ih =>
    intro hb hp
    rw [mergedList_asc_lt h]
    refine List.pairwise_cons.2 ⟨?_, ih (sortedByKey_tail hb) hp⟩
    refine mergedList_key_lb _ (sortedByKey_head hb) ?_
    intro q hq
    rcases List.mem_cons.1 hq with rfl | hq
    · exact h
    · exact keyLt_trans h (sortedByKey_head hp q hq)
  | case6 b bs pk ps _ord h pv ih =>
    intro hb hp
    rw [mergedList_asc_eq_insert h]
    have hbk : b.1 = pk := byteCompare_eq_iff.1 h
    refine List.pairwise_cons.2 ⟨?_, ih (sortedByKey_tail hb) (sortedByKey_tail hp)⟩
    refine mergedList_key_lb _ ?_ (sortedByKey_head hp)
    intro q hq
    have := sortedByKey_head hb q hq
    rwa [hbk] at this
  | case7 b bs pk ps _ord h ih =>
    intro hb hp
    rw [mergedList_asc_eq_delete h]
    exact ih (sortedByKey_tail hb) (sortedByKey_tail hp)
  | case8 b bs pk ps _ord h pv ih =>
    intro hb hp
    rw [mergedList_asc_gt_insert h]
    have hpk : keyLt pk b.1 := byteCompare_gt_iff.1 h
    refine List.pairwise_cons.2 ⟨?_, ih hb (sortedByKey_tail hp)⟩
    refine mergedList_key_lb _ ?_ (sortedByKey_head hp)
    intro q hq
    rcases List.mem_cons.1 hq with rfl | hq
    · exact hpk
    · exact keyLt_trans hpk (sortedByKey_head hb q hq)
  | case9 b bs pk ps _ord h ih =>
    intro hb hp
    rw [mergedList_asc_gt_delete h]
    exact ih hb (sortedByKey_tail hp)

theorem mergedList_desc_sorted :
    ∀ (base : List Record) (pending : List (Bytes × Op Bytes)),
      SortedByKeyDesc base → SortedByKeyDesc pending →
      SortedByKeyDesc (mergedList .descending base pending) := by
  intro base pending
  induction base, pending using mergedList.induct Order.descending with
  | case1 => intro _ _; simp [mergedList]; exact List.Pairwise.nil
  | case2 b bs ih =>
    intro hb hp
    rw [mergedList_nil_pending]
    exact hb
  | case3 pk pv ps ih =>
    intro hb hp
    rw [mergedList_nil_insert]
    refine List.pairwise_cons.2 ⟨?_, ih hb (sortedByKeyDesc_tail hp)⟩
    exact mergedList_key_ub _ (by intro q hq; simp at hq) (sortedByKeyDesc_head hp)
  | case4 pk ps ih =>
    intro hb hp
    rw [mergedList_nil_delete]
    exact ih hb (sortedByKeyDesc_tail hp)
  | case5 b bs pk pop ps _ord h ih =>
    intro hb hp
    have hgt : byteCompare b.1 pk = .gt := ordering_swap_eq_lt.1 h
    rw [mergedList_desc_gt hgt]
    have hpk : keyLt pk b.1 := byteCompare_gt_iff.1 hgt
    refine List.pairwise_cons.2 ⟨?_, ih (sortedByKeyDesc_tail hb) hp⟩
    refine mergedList_key_ub _ (sortedByKeyDesc_head hb) ?_
    intro q hq
    rcases List.mem_cons.1 hq with rfl | hq
    · exact hpk
    · exact keyLt_trans (sortedByKeyDesc_head hp q hq) hpk
  | case6 b bs pk ps _ord h pv ih =>
    intro hb hp
    have heq : byteCompare b.1 pk = .eq := ordering_swap_eq_eq.1 h
    rw [mergedList_desc_eq_insert heq]
    have hbk : b.1 = pk := byteCompare_eq_iff.1 heq
    refine List.pairwise_cons.2 ⟨?_, ih (sortedByKeyDesc_tail hb) (sortedByKeyDesc_tail hp)⟩
    refine mergedList_key_ub _ ?_ (sortedByKeyDesc_head hp)
    intro q hq
    have := sortedByKeyDesc_head hb q hq
    rwa [hbk] at this
  | case7 b bs pk ps _ord h ih =>
    intro hb hp
    rw [mergedList_desc_eq_delete (ordering_swap_eq_eq.1 h)]
    exact ih (sortedByKeyDesc_tail hb) (sortedByKeyDesc_tail hp)
  | case8 b bs pk ps _ord h pv ih =>
    intro hb hp
    have hlt : byteCompare b.1 pk = .lt := ordering_swap_eq_gt.1 h
    rw [mergedList_desc_lt_insert hlt]
    refine List.pairwise_cons.2 ⟨?_, ih hb (sortedByKeyDesc_tail hp)⟩
    refine mergedList_key_ub _ ?_ (sortedByKeyDesc_head hp)
    intro q hq
    rcases List.mem_cons.1 hq with rfl | hq
    · exact hlt
    · exact keyLt_trans (sortedByKeyDesc_head hb q hq) hlt
  | case9 b bs pk ps _ord h ih =>
    intro hb hp
    rw [mergedList_desc_lt_delete (ordering_swap_eq_gt.1 h)]
    exact ih hb (sortedByKeyDesc_tail hp)

theorem mergedList_asc_lookup :
    ∀ (base : List Record) (pending : List (Bytes × Op Bytes)),
      SortedByKey base → SortedByKey pending →
      ∀ k, lookupA (mergedList .ascending base pending) k = cacheRead base pending k := by
  intro base pending
  induction base, pending using mergedList.induct Order.ascending with
  | case1 => intro _ _ k; simp [mergedList, cacheRead, lookupA]
  | case2 b bs ih =>
    intro hb hp k
    rw [mergedList_nil_pending]
    simp [cacheRead, lookupA]
  | case3 pk pv ps ih =>
    intro hb hp k
    rw [mergedList_nil_insert]
    by_cases hk : pk = k
    · subst hk
      simp [lookupA, cacheRead]
    · rw [show lookupA ((pk, pv) :: mergedList .ascending [] ps) k =
            lookupA (mergedList .ascending [] ps) k from by simp [lookupA, hk]]
      rw [ih hb (sortedByKey_tail hp) k]
      simp [cacheRead, lookupA, hk]
  | case4 pk ps ih =>
    intro hb hp k
    rw [mergedList_nil_delete]
    by_cases hk : pk = k
    · subst hk
      rw [ih hb (sortedByKey_tail hp) pk]
      have hps : lookupA ps pk = none := lookupA_none_of_all_gt (sortedByKey_head hp)
      simp [cacheRead, lookupA, hps]
    · rw [ih hb (sortedByKey_tail hp) k]
      simp [cacheRead, lookupA, hk]
  | case5 b bs pk pop ps _ord h ih =>
    intro hb hp k
    rw [mergedList_asc_lt h]
    obtain ⟨bk, bv⟩ := b
    by_cases hk : bk = k
    · subst hk
      have hpnone : lookupA ((pk, pop) :: ps) bk = none := by
        apply lookupA_none_of_all_gt
        intro q hq
        rcases List.mem_cons.1 hq with rfl | hq
        · exact h
        · exact keyLt_trans h (sortedByKey_head hp q hq)
      unfold cacheRead
      rw [hpnone]
      simp [lookupA]
    · rw [show lookupA ((bk, bv) :: mergedList .ascending bs ((pk, pop) :: ps)) k =
            lookupA (mergedList .ascending bs ((pk, pop) :: ps)) k
          from by simp [lookupA, hk]]
      rw [ih (sortedByKey_tail hb) hp k]
      simp [cacheRead, lookupA, hk]
  | case6 b bs pk ps _ord h pv ih =>
    intro hb hp k
    rw [mergedList_asc_eq_insert h]
    obtain ⟨bk, bv⟩ := b
    have hbk : bk = pk := byteCompare_eq_iff.1 h
    by_cases hk : pk = k
    · subst hk
      simp [lookupA, cacheRead]
    · rw [show lookupA ((pk, pv) :: mergedList .ascending bs ps) k =
            lookupA (mergedList .ascending bs ps) k from by simp [lookupA, hk]]
      rw [ih (sortedByKey_tail hb) (sortedByKey_tail hp) k]
      have hbkne : bk ≠ k := hbk ▸ hk
      simp [cacheRead, lookupA, hk, hbkne]
  | case7 b bs pk ps _ord h ih =>
    intro hb hp k
    rw [mergedList_asc_eq_delete h]
    obtain ⟨bk, bv⟩ := b
    have hbk : bk = pk := byteCompare_eq_iff.1 h
    by_cases hk : pk = k
    · subst hk
      rw [ih (sortedByKey_tail hb) (sortedByKey_tail hp) pk]
      have hbs : lookupA bs pk = none := by
        apply lookupA_none_of_all_gt
        intro q hq
        have := sortedByKey_head hb q hq
        rwa [hbk] at this
      have hps : lookupA ps pk = none := lookupA_none_of_all_gt (sortedByKey_head hp)
      simp [cacheRead, lookupA, hbs, hps]
    · rw [ih (sortedByKey_tail hb) (sortedByKey_tail hp) k]
      have hbkne : bk ≠ k := hbk ▸ hk
      simp [cacheRead, lookupA, hk, hbkne]
  | case8 b bs pk ps _ord h pv ih =>
    intro hb hp k
    rw [mergedList_asc_gt_insert h]
    by_cases hk : pk = k
    · subst hk
      simp [lookupA, cacheRead]
    · rw [show lookupA ((pk, pv) :: mergedList .ascending (b :: bs) ps) k =
            lookupA (mergedList .ascending (b :: bs) ps) k from by simp [lookupA, hk]]
      rw [ih hb (sortedByKey_tail hp) k]
      simp [cacheRead, lookupA, hk]
  | case9 b bs pk ps _ord h ih =>
    intro hb hp k
    rw [mergedList_asc_gt_delete h]
    have hpk : keyLt pk b.1 := byteCompare_gt_iff.1 h
    by_cases hk : pk = k
    · subst hk
      rw [ih hb (sortedByKey_tail hp) pk]
      have hbs : lookupA (b :: bs) pk = none := by
        apply lookupA_none_of_all_gt
        intro q hq
        rcases List.mem_cons.1 hq with rfl | hq
        · exact hpk
        · exact keyLt_trans hpk (sortedByKey_head hb q hq)
      have hps : lookupA ps pk = none := lookupA_none_of_all_gt (sortedByKey_head hp)
      unfold cacheRead
      rw [hps, hbs, show lookupA ((pk, Op.delete) :: ps) pk = some Op.delete from
        lookupA_head _ _ _]
    · rw [ih hb (sortedByKey_tail hp) k]
      simp [cacheRead, lookupA, hk]

theorem mergedList_desc_lookup :
    ∀ (base : List Record) (pending : List (Bytes × Op Bytes)),
      SortedByKeyDesc base → SortedByKeyDesc pending →
      ∀ k, lookupA (mergedList .descending base pending) k = cacheRead base pending k := by
  intro base pending
  induction base, pending using mergedList.induct Order.descending with
  | case1 => intro _ _ k; simp [mergedList, cacheRead, lookupA]
  | case2 b bs ih =>
    intro hb hp k
    rw [mergedList_nil_pending]
    simp [cacheRead, lookupA]
  | case3 pk pv ps ih =>
    intro hb hp k
    rw [mergedList_nil_insert]
    by_cases hk : pk = k
    · subst hk
      simp [lookupA, cacheRead]
    · rw [show lookupA ((pk, pv) :: mergedList .descending [] ps) k =
            lookupA (mergedList .descending [] ps) k from by simp [lookupA, hk]]
      rw [ih hb (sortedByKeyDesc_tail hp) k]
      simp [cacheRead, lookupA, hk]
  | case4 pk ps ih =>
    intro hb hp k
    rw [mergedList_nil_delete]
    by_cases hk : pk = k
    · subst hk
      rw [ih hb (sortedByKeyDesc_tail hp) pk]
      have hps : lookupA ps pk = none := lookupA_none_of_all_lt (sortedByKeyDesc_head hp)
      unfold cacheRead
      rw [hps, show lookupA ((pk, Op.delete) :: ps) pk = some Op.delete from
        lookupA_head _ _ _]
      rfl
    · rw [ih hb (sortedByKeyDesc_tail hp) k]
      simp [cacheRead, lookupA, hk]
  | case5 b bs pk pop ps _ord h ih =>
    intro hb hp k
    have hgt : byteCompare b.1 pk = .gt := ordering_swap_eq_lt.1 h
    rw [mergedList_desc_gt hgt]
    obtain ⟨bk, bv⟩ := b
    have hpk : keyLt pk bk := byteCompare_gt_iff.1 hgt
    by_cases hk : bk = k
    · subst hk
      have hpnone : lookupA ((pk, pop) :: ps) bk = none := by
        apply lookupA_none_of_all_lt
        intro q hq
        rcases List.mem_cons.1 hq with rfl | hq
        · exact hpk
        · exact keyLt_trans (sortedByKeyDesc_head hp q hq) hpk
      unfold cacheRead
      rw [hpnone]
      simp [lookupA]
    · rw [show lookupA ((bk, bv) :: mergedList .descending bs ((pk, pop) :: ps)) k =
            lookupA (mergedList .descending bs ((pk, pop) :: ps)) k
          from by simp [lookupA, hk]]
      rw [ih (sortedByKeyDesc_tail hb) hp k]
      simp [cacheRead, lookupA, hk]
  | case6 b bs pk ps _ord h pv ih =>
    intro hb hp k
    have heq : byteCompare b.1 pk = .eq := ordering_swap_eq_eq.1 h
    rw [mergedList_desc_eq_insert heq]
    obtain ⟨bk, bv⟩ := b
    have hbk : bk = pk := byteCompare_eq_iff.1 heq
    by_cases hk : pk = k
    · subst hk
      simp [lookupA, cacheRead]
    · rw [show lookupA ((pk, pv) :: mergedList .descending bs ps) k =
            lookupA (mergedList .descending bs ps) k from by simp [lookupA, hk]]
      rw [ih (sortedByKeyDesc_tail hb) (sortedByKeyDesc_tail hp) k]
      have hbkne : bk ≠ k := hbk ▸ hk
      simp [cacheRead, lookupA, hk, hbkne]
  | case7 b bs pk ps _ord h ih =>
    intro hb hp k
    have heq : byteCompare b.1 pk = .eq := ordering_swap_eq_eq.1 h
    rw [mergedList_desc_eq_delete heq]
    obtain ⟨bk, bv⟩ := b
    have hbk : bk = pk := byteCompare_eq_iff.1 heq
    by_cases hk : pk = k
    · subst hk
      rw [ih (sortedByKeyDesc_tail hb) (sortedByKeyDesc_tail hp) pk]
      have hbs : lookupA bs pk = none := by
        apply lookupA_none_of_all_lt
        intro q hq
        have := sortedByKeyDesc_head hb q hq
        rwa [hbk] at this
      have hps : lookupA ps pk = none := lookupA_none_of_all_lt (sortedByKeyDesc_head hp)
      unfold cacheRead
      rw [hps, hbs, show lookupA ((pk, Op.delete) :: ps) pk = some Op.delete from
        lookupA_head _ _ _]
    · rw [ih (sortedByKeyDesc_tail hb) (sortedByKeyDesc_tail hp) k]
      have hbkne : bk ≠ k := hbk ▸ hk
      simp [cacheRead, lookupA, hk, hbkne]
  | case8 b bs pk ps _ord h pv ih =>
    intro hb hp k
    have hlt : byteCompare b.1 pk = .lt := ordering_swap_eq_gt.1 h
    rw [mergedList_desc_lt_insert hlt]
    by_cases hk : pk = k
    · subst hk
      simp [lookupA, cacheRead]
    · rw [show lookupA ((pk, pv) :: mergedList .descending (b :: bs) ps) k =
            lookupA (mergedList .descending (b :: bs) ps) k from by simp [lookupA, hk]]
      rw [ih hb (sortedByKeyDesc_tail hp) k]
      simp [cacheRead, lookupA, hk]
  | case9 b bs pk ps _ord h ih =>
    intro hb hp k
    have hlt : byteCompare b.1 pk = .lt := ordering_swap_eq_gt.1 h
    rw [mergedList_desc_lt_delete hlt]
    by_cases hk : pk = k
    · subst hk
      rw [ih hb (sortedByKeyDesc_tail hp) pk]
      have hbs : lookupA (b :: bs) pk = none := by
        apply lookupA_none_of_all_lt
        intro q hq
        rcases List.mem_cons.1 hq with rfl | hq
        · exact hlt
        · exact keyLt_trans (sortedByKeyDesc_head hb q hq) hlt
      have hps : lookupA ps pk = none := lookupA_none_of_all_lt (sortedByKeyDesc_head hp)
      unfold cacheRead
      rw [hps, hbs, show lookupA ((pk, Op.delete) :: ps) pk = some Op.delete from
        lookupA_head _ _ _]
    · rw [ih hb (sortedByKeyDesc_tail hp) k]
      simp [cacheRead, lookupA, hk]

/-! ### Applying a batch to the base contents -/

theorem mem_insertSortedRecord :
    ∀ {l : List Record} {k v : Bytes} {q : Record},
      q ∈ insertSortedRecord l k v → q = (k, v) ∨ q ∈ l := by
  intro l
  induction l with
  | nil =>
    intro k v q h
    simp [insertSortedRecord] at h
    exact Or.inl h
  | cons r rest ih =>
    intro k v q h
    rw [insertSortedRecord] at h
    rcases he : byteCompare k r.1 with _ | _ | _ <;> rw [he] at h
    · rcases List.mem_cons.1 h with rfl | h
      · exact Or.inl rfl
      · exact Or.inr h
    · rcases List.mem_cons.1 h with rfl | h
      · exact Or.inl rfl
      · exact Or.inr (List.mem_cons_of_mem _ h)
    · rcases List.mem_cons.1 h with rfl | h
      · exact Or.inr (List.mem_cons_self _ _)
      · rcases ih h with h1 | h1
        · exact Or.inl h1
        · exact Or.inr (List.mem_cons_of_mem _ h1)

theorem insertSortedRecord_sorted :
    ∀ {l : List Record} {k v : Bytes}, SortedByKey l →
      SortedByKey (insertSortedRecord l k v) := by
  intro l
  induction l with
  | nil => intro k v _; simp [insertSortedRecord, SortedByKey]
  | cons r rest ih =>
    intro k v hs
    rw [insertSortedRecord]
    rcases he : byteCompare k r.1 with _ | _ | _
    · refine List.pairwise_cons.2 ⟨?_, hs⟩
      intro q hq
      rcases List.mem_cons.1 hq with rfl | hq
      · exact he
      · exact keyLt_trans he (sortedByKey_head hs q hq)
    · have hk : k = r.1 := byteCompare_eq_iff.1 he
      refine List.pairwise_cons.2 ⟨?_, sortedByKey_tail hs⟩
      intro q hq
      show keyLt k q.1
      rw [hk]
      exact sortedByKey_head hs q hq
    · refine List.pairwise_cons.2 ⟨?_, ih (sortedByKey_tail hs)⟩
      intro q hq
      rcases mem_insertSortedRecord hq with rfl | hq
      · exact byteCompare_gt_iff.1 he
      · exact sortedByKey_head hs q hq

theorem lookupA_insertSortedRecord_self :
    ∀ (l : List Record) (k v : Bytes), lookupA (insertSortedRecord l k v) k = some v := by
  intro l
  induction l with
  | nil => intro k v; simp [insertSortedRecord, lookupA]
  | cons r rest ih =>
    intro k v
    rw [insertSortedRecord]
    rcases he : byteCompare k r.1 with _ | _ | _
    · simp [lookupA]
    · simp [lookupA]
    · have hk : r.1 ≠ k := by
        intro h
        rw [h] at he
        exact absurd (byteCompare_gt_iff.1 he) (keyLt_irrefl k)
      simp [lookupA, hk, ih]

theorem lookupA_insertSortedRecord_other :
    ∀ (l : List Record) (k v k' : Bytes), k' ≠ k →
      lookupA (insertSortedRecord l k v) k' = lookupA l k' := by
  intro l
  induction l with
  | nil =>
    intro k v k' h
    have hne : k ≠ k' := fun he => h he.symm
    simp [insertSortedRecord, lookupA, hne]
  | cons r rest ih =>
    intro k v k' h
    have hne : k ≠ k' := fun he => h he.symm
    rw [insertSortedRecord]
    rcases he : byteCompare k r.1 with _ | _ | _
    · simp [lookupA, hne]
    · have hk : k = r.1 := byteCompare_eq_iff.1 he
      subst hk
      simp [lookupA, hne]
    · by_cases hr : r.1 = k'
      · simp [lookupA, hr]
      · have hrec := ih k v k' h
        simp [lookupA, hr, hrec]

theorem applyOp_sorted {contents : List Record} {k : Bytes} {op : Op Bytes}
    (hs : SortedByKey contents) : SortedByKey (applyOp contents k op) := by
  cases op with
  | insert v => exact insertSortedRecord_sorted hs
  | delete => exact hs.filter _

theorem lookupA_applyOp_self (contents : List Record) (k : Bytes) (op : Op Bytes) :
    lookupA (applyOp contents k op) k =
      match op with
      | .insert v => some v
      | .delete => none := by
  cases op with
  | insert v => exact lookupA_insertSortedRecord_self contents k v
  | delete =>
    show lookupA (contents.filter fun r => !(r.1 == k)) k = none
    rw [lookupA_filter_key (fun a => !(a == k))]
    simp

theorem lookupA_applyOp_other (contents : List Record) (k : Bytes) (op : Op Bytes)
    (k' : Bytes) (h : k' ≠ k) : lookupA (applyOp contents k op) k' = lookupA contents k' := by
  cases op with
  | insert v => exact lookupA_insertSortedRecord_other contents k v k' h
  | delete =>
    show lookupA (contents.filter fun r => !(r.1 == k)) k' = lookupA contents k'
    rw [lookupA_filter_key (fun a => !(a == k))]
    simp [h]

theorem applyBatch_sorted :
    ∀ (batch : List (Bytes × Op Bytes)) (base : List Record), SortedByKey base →
      SortedByKey (applyBatch base batch) := by
  intro batch
  induction batch with
  | nil => intro base h; exact h
  | cons p ps ih =>
    intro base h
    exact ih (applyOp base p.1 p.2) (applyOp_sorted h)

theorem lookupA_applyBatch :
    ∀ (pending : List (Bytes × Op Bytes)) (base : List Record), SortedByKey pending →
      ∀ k, lookupA (applyBatch base pending) k = cacheRead base pending k := by
  intro pending
  induction pending with
  | nil => intro base _ k; simp [applyBatch, cacheRead, lookupA]
  | cons p ps ih =>
    intro base hp k
    obtain ⟨pk, op⟩ := p
    show lookupA (applyBatch (applyOp base pk op) ps) k = _
    rw [ih (applyOp base pk op) (sortedByKey_tail hp) k]
    by_cases hk : k = pk
    · subst hk
      have hps : lookupA ps k = none := lookupA_none_of_all_gt (sortedByKey_head hp)
      unfold cacheRead
      rw [hps, lookupA_head, lookupA_applyOp_self]
      cases op <;> rfl
    · unfold cacheRead
      rw [lookupA_applyOp_other base pk op k hk]
      rw [show lookupA ((pk, op) :: ps) k = lookupA ps k from by
        have hne : pk ≠ k := fun he => hk he.symm
        simp [lookupA, hne]]

theorem inBounds_false_of_min_gt_max {m1 m2 : Bytes} (h : byteCompare m1 m2 = .gt)
    (k : Bytes) : inBounds (some m1) (some m2) k = false := by
  by_cases hb : inBounds (some m1) (some m2) k = true
  · exfalso
    unfold inBounds at hb
    simp only [Bool.and_eq_true, Bool.not_eq_true'] at hb
    obtain ⟨h1, h2⟩ := hb
    have h2lt : byteCompare k m2 = .lt := by
      rcases he : byteCompare k m2 with _ | _ | _
      · rfl
      · rw [he] at h2; exact absurd h2 (by decide)
      · rw [he] at h2; exact absurd h2 (by decide)
    have hm : keyLt m2 m1 := byteCompare_gt_iff.1 h
    rcases he : byteCompare k m1 with _ | _ | _
    · rw [he] at h1; exact absurd h1 (by decide)
    · have : k = m1 := byteCompare_eq_iff.1 he
      subst this
      exact keyLt_asymm h2lt hm
    · have : keyLt m1 k := byteCompare_gt_iff.1 he
      exact keyLt_asymm (keyLt_trans this h2lt) hm
  · simpa using hb

/-- The cache-overlay merge law: scanning the overlay over a sorted base and a
sorted pending batch yields exactly the scan of the flushed store. -/
theorem cacheScan_merge_law (base : List Record) (pending : List (Bytes × Op Bytes))
    (mi ma : Option Bytes) (order : Order)
    (hb : SortedByKey base) (hp : SortedByKey pending) :
    cacheScan base pending mi ma order = scanList (applyBatch base pending) mi ma order := by
  have hfB : SortedByKey (base.filter fun r => inBounds mi ma r.1) := hb.filter _
  have hfP : SortedByKey (pending.filter fun p => inBounds mi ma p.1) := hp.filter _
  have happ := applyBatch_sorted pending base hb
  have hfA : SortedByKey ((applyBatch base pending).filter fun r => inBounds mi ma r.1) :=
    happ.filter _
  have hlook : ∀ k, cacheRead (base.filter fun r => inBounds mi ma r.1)
      (pending.filter fun p => inBounds mi ma p.1) k =
      lookupA ((applyBatch base pending).filter fun r => inBounds mi ma r.1) k := by
    intro k
    unfold cacheRead
    rw [lookupA_filter_key (inBounds mi ma) pending k,
        lookupA_filter_key (inBounds mi ma) base k,
        lookupA_filter_key (inBounds mi ma) (applyBatch base pending) k,
        lookupA_applyBatch pending base hp k]
    by_cases hk : inBounds mi ma k
    · simp only [hk, if_true]
      rfl
    · simp only [Bool.not_eq_true] at hk
      simp only [hk, Bool.false_eq_true, if_false]
  have hmain : mergedList order (scanList base mi ma order) (pendingRange pending mi ma order) =
      scanList (applyBatch base pending) mi ma order := by
    cases order with
    | ascending =>
      show mergedList .ascending (base.filter fun r => inBounds mi ma r.1)
          (pending.filter fun p => inBounds mi ma p.1) = _
      apply sorted_ext (mergedList_asc_sorted _ _ hfB hfP) hfA
      intro k
      rw [mergedList_asc_lookup _ _ hfB hfP k]
      exact hlook k
    | descending =>
      show mergedList .descending (base.filter fun r => inBounds mi ma r.1).reverse
          (pending.filter fun p => inBounds mi ma p.1).reverse =
          ((applyBatch base pending).filter fun r => inBounds mi ma r.1).reverse
      rw [← List.reverse_eq_iff]
      have hdB : SortedByKeyDesc (base.filter fun r => inBounds mi ma r.1).reverse := by
        unfold SortedByKeyDesc
        rw [List.pairwise_reverse]
        exact hfB
      have hdP : SortedByKeyDesc (pending.filter fun p => inBounds mi ma p.1).reverse := by
        unfold SortedByKeyDesc
        rw [List.pairwise_reverse]
        exact hfP
      have hdM := mergedList_desc_sorted _ _ hdB hdP
      have hascM : SortedByKey (mergedList .descending
          (base.filter fun r => inBounds mi ma r.1).reverse
          (pending.filter fun p => inBounds mi ma p.1).reverse).reverse := by
        unfold SortedByKey
        rw [List.pairwise_reverse]
        exact hdM
      apply sorted_ext hascM hfA
      intro k
      rw [lookupA_reverse (keysDistinct_of_sorted_desc hdM) k]
      rw [mergedList_desc_lookup _ _ hdB hdP k]
      unfold cacheRead
      rw [lookupA_reverse (keysDistinct_of_sorted hfP) k,
          lookupA_reverse (keysDistinct_of_sorted hfB) k]
      exact hlook k
  cases mi with
  | none => exact hmain
  | some m1 =>
    cases ma with
    | none => exact hmain
    | some m2 =>
      show (if byteCompare m1 m2 = .gt then [] else _) = _
      by_cases hg : byteCompare m1 m2 = .gt
      · rw [if_pos hg]
        have hnil : (applyBatch base pending).filter
            (fun r => inBounds (some m1) (some m2) r.1) = [] := by
          apply List.filter_eq_nil_iff.2
          intro a _
          simp [inBounds_false_of_min_gt_max hg]
        cases order with
        | ascending =>
          show _ = (applyBatch base pending).filter _
          rw [hnil]
        | descending =>
          show ([] : List Record) = ((applyBatch base pending).filter _).reverse
          rw [hnil]
          rfl
      · rw [if_neg hg]
        exact hmain

/-- `k < key ++ [0]` iff `¬ key < k`: appending a zero byte is the exact
lexicographic successor. -/
theorem byteCompare_append_zero :
    ∀ (a k : Bytes), (byteCompare k (a ++ [0]) = .lt) ↔ ¬ keyLt a k := by
  intro a
  induction a with
  | nil =>
    intro k
    cases k with
    | nil => simp [byteCompare, keyLt]
    | cons c ks =>
      unfold keyLt
      simp only [List.nil_append, byteCompare]
      rcases Nat.lt_trichotomy c 0 with h | h | h
      · omega
      · subst h
        simp only [Nat.compare_eq_eq.2 rfl]
        cases ks <;> simp [byteCompare]
      · simp [Nat.compare_eq_gt.2 h]
  | cons x xs ih =>
    intro k
    cases k with
    | nil => simp [byteCompare, keyLt]
    | cons c ks =>
      unfold keyLt
      simp only [List.cons_append, byteCompare]
      rcases Nat.lt_trichotomy c x with h | h | h
      · simp [Nat.compare_eq_lt.2 h, Nat.compare_eq_gt.2 h]
      · subst h
        simp only [Nat.compare_eq_eq.2 rfl]
        exact ih ks
      · simp [Nat.compare_eq_gt.2 h, Nat.compare_eq_lt.2 h]

theorem inBounds_succ (a k : Bytes) (ma : Option Bytes) :
    inBounds (some (a ++ [0])) ma k =
      ((byteCompare a k == .lt) && inBounds none ma k) := by
  have hmin : (!(byteCompare k (a ++ [0]) == .lt)) = (byteCompare a k == .lt) := by
    rcases hc : byteCompare k (a ++ [0]) with _ | _ | _
    · have hnot := (byteCompare_append_zero a k).1 hc
      unfold keyLt at hnot
      rcases h2 : byteCompare a k with _ | _ | _
      · exact absurd h2 hnot
      · rfl
      · rfl
    · have hne : ¬ (byteCompare k (a ++ [0]) = .lt) := by rw [hc]; intro hx; cases hx
      have hyes := (byteCompare_append_zero a k).not.1 hne
      push_neg at hyes
      unfold keyLt at hyes
      rw [hyes]
      rfl
    · have hne : ¬ (byteCompare k (a ++ [0]) = .lt) := by rw [hc]; intro hx; cases hx
      have hyes := (byteCompare_append_zero a k).not.1 hne
      push_neg at hyes
      unfold keyLt at hyes
      rw [hyes]
      rfl
  show ((!(byteCompare k (a ++ [0]) == .lt)) &&
      (match ma with
       | some m => byteCompare k m == Ordering.lt
       | none => true)) = _
  rw [hmin]
  rfl

theorem last_bound_of_sorted (rb : Bytes → Bytes → Bool) :
    ∀ (l : List Record), l.Pairwise (fun x y => rb x.1 y.1 = true) →
      ∀ kv, l.getLast? = some kv → ∀ x ∈ l, x = kv ∨ rb x.1 kv.1 = true := by
  intro l
  induction l with
  | nil => intro _ kv h; cases h
  | cons p rest ih =>
    intro hs kv hlast x hx
    cases rest with
    | nil =>
      simp only [List.getLast?_singleton] at hlast
      cases hlast
      rcases List.mem_singleton.1 hx with rfl
      exact Or.inl rfl
    | cons q rest' =>
      rw [List.getLast?_cons_cons] at hlast
      rcases List.mem_cons.1 hx with rfl | hx
      · have hkv : kv ∈ q :: rest' := List.mem_of_mem_getLast? (by rw [hlast]; rfl)
        exact Or.inr ((List.pairwise_cons.1 hs).1 kv hkv)
      · exact ih (List.pairwise_cons.1 hs).2 kv hlast x hx

/-- In a sorted list split as `take n ++ drop n` where the take-part ends with
`kv`, filtering for keys strictly after `kv` yields exactly the drop-part. -/
theorem sorted_filter_eq_drop (rb : Bytes → Bytes → Bool)
    (hasymm : ∀ a b, rb a b = true → rb b a = false)
    (l : List Record) (hs : l.Pairwise (fun x y => rb x.1 y.1 = true)) (n : Nat)
    (kv : Record) (hlast : (l.take n).getLast? = some kv) :
    l.filter (fun x => rb kv.1 x.1) = l.drop n := by
  have hsplit : l = l.take n ++ l.drop n := (List.take_append_drop n l).symm
  have hpw := hs
  rw [hsplit, List.pairwise_append] at hpw
  have h1 : (l.take n).filter (fun x => rb kv.1 x.1) = [] := by
    apply List.filter_eq_nil_iff.2
    intro x hx
    have htakes : (l.take n).Pairwise (fun x y => rb x.1 y.1 = true) :=
      hs.sublist (List.take_sublist n l)
    rcases last_bound_of_sorted rb (l.take n) htakes kv hlast x hx with rfl | hlt
    · have hself : rb x.1 x.1 = false := by
        rcases hr : rb x.1 x.1 with _ | _
        · rfl
        · have := hasymm _ _ hr
          rw [this] at hr
          cases hr
      simp [hself]
    · simp [hasymm _ _ hlt]
  have h2 : (l.drop n).filter (fun x => rb kv.1 x.1) = l.drop n := by
    apply List.filter_eq_self.2
    intro y hy
    have hkv : kv ∈ l.take n := List.mem_of_mem_getLast? (by rw [hlast]; rfl)
    simp [hpw.2.2 kv hkv y hy]
  conv_lhs => rw [hsplit]
  rw [List.filter_append, h1, h2, List.nil_append]

theorem ordering_beq_lt_iff {o : Ordering} : (o == Ordering.lt) = true ↔ o = Ordering.lt := by
  cases o <;> decide

theorem ordering_beq_lt_false_iff {o : Ordering} : (o == Ordering.lt) = false ↔ o ≠ Ordering.lt := by
  cases o <;> decide

theorem scan_after_page_asc (contents : List Record) (hs : SortedByKey contents)
    (mi ma : Option Bytes) (n : Nat) (kv : Record)
    (hlast : ((scanList contents mi ma .ascending).take n).getLast? = some kv) :
    scanList contents (some (increment_last_byte kv.1)) ma .ascending =
      (scanList contents mi ma .ascending).drop n := by
  have hkvmem : kv ∈ scanList contents mi ma .ascending :=
    List.take_subset n _ (List.mem_of_mem_getLast? (by rw [hlast]; rfl))
  have hkvB : inBounds mi ma kv.1 = true := (List.mem_filter.1 hkvmem).2
  have hpt : ∀ k : Bytes, inBounds (some (increment_last_byte kv.1)) ma k =
      ((byteCompare kv.1 k == .lt) && inBounds mi ma k) := by
    intro k
    rw [increment_last_byte, inBounds_succ]
    rcases hlt : byteCompare kv.1 k with _ | _ | _
    · -- kv < k: the original min bound is implied by the successor bound
      cases mi with
      | none => rfl
      | some m =>
        have hkvmin : (!(byteCompare kv.1 m == .lt)) = true := by
          rcases hx : (!(byteCompare kv.1 m == Ordering.lt)) with _ | _
          · simp [inBounds, hx] at hkvB
          · rfl
        have hkmin : (!(byteCompare k m == .lt)) = true := by
          rcases hx : byteCompare k m with _ | _ | _
          · exfalso
            rcases he : byteCompare kv.1 m with _ | _ | _
            · rw [he] at hkvmin; exact absurd hkvmin (by decide)
            · have hkm : kv.1 = m := byteCompare_eq_iff.1 he
              rw [hkm] at hlt
              exact keyLt_asymm hlt hx
            · have h1 : keyLt m kv.1 := byteCompare_gt_iff.1 he
              exact keyLt_asymm (keyLt_trans hx h1) hlt
          · rfl
          · rfl
        have hsame : inBounds (some m) ma k = inBounds none ma k := by
          cases ma <;> simp [inBounds, hkmin]
        rw [hsame]
    · rfl
    · rfl
  show contents.filter _ = (contents.filter _).drop n
  rw [List.filter_congr (fun r _ => hpt r.1)]
  rw [← List.filter_filter]
  refine sorted_filter_eq_drop (fun a b => byteCompare a b == .lt) ?_ _ ?_ n kv hlast
  · intro a b h
    exact ordering_beq_lt_false_iff.2 (keyLt_asymm (ordering_beq_lt_iff.1 h))
  · refine List.Pairwise.imp ?_ (hs.filter _)
    intro x y h
    exact ordering_beq_lt_iff.2 h

theorem beq_eq_lt_false : (Ordering.eq == Ordering.lt) = false := rfl

theorem beq_gt_lt_false : (Ordering.gt == Ordering.lt) = false := rfl

theorem scan_after_page_desc (contents : List Record) (hs : SortedByKey contents)
    (mi ma : Option Bytes) (n : Nat) (kv : Record)
    (hlast : ((scanList contents mi ma .descending).take n).getLast? = some kv) :
    scanList contents mi (some kv.1) .descending =
      (scanList contents mi ma .descending).drop n := by
  have hkvmem0 : kv ∈ scanList contents mi ma .descending :=
    List.take_subset n _ (List.mem_of_mem_getLast? (by rw [hlast]; rfl))
  have hkvmem : kv ∈ contents.filter (fun r => inBounds mi ma r.1) := by
    have : scanList contents mi ma .descending =
        (contents.filter (fun r => inBounds mi ma r.1)).reverse := rfl
    rw [this, List.mem_reverse] at hkvmem0
    exact hkvmem0
  have hkvB : inBounds mi ma kv.1 = true := (List.mem_filter.1 hkvmem).2
  have hpt : ∀ k : Bytes, inBounds mi (some kv.1) k =
      (inBounds mi ma k && (byteCompare k kv.1 == .lt)) := by
    intro k
    rcases hlt : byteCompare k kv.1 with _ | _ | _
    · -- k < kv: the original max bound is implied
      cases ma with
      | none => simp [inBounds, hlt]
      | some m =>
        have hkvmax : (byteCompare kv.1 m == Ordering.lt) = true := by
          rcases hx : (byteCompare kv.1 m == Ordering.lt) with _ | _
          · simp [inBounds, hx] at hkvB
          · rfl
        have hkmax : (byteCompare k m == Ordering.lt) = true := by
          have h1 : keyLt kv.1 m := ordering_beq_lt_iff.1 hkvmax
          exact ordering_beq_lt_iff.2 (keyLt_trans hlt h1)
        simp [inBounds, hlt, hkmax]
    · simp [inBounds, hlt, beq_eq_lt_false]
    · simp [inBounds, hlt, beq_gt_lt_false]
  have hlast2 : ((((contents.filter (fun r => inBounds mi ma r.1)).reverse)).take n).getLast? =
      some kv := hlast
  show (contents.filter _).reverse = ((contents.filter _).reverse).drop n
  rw [List.filter_congr (fun r _ => hpt r.1)]
  rw [show (fun r : Record => inBounds mi ma r.1 && (byteCompare r.1 kv.1 == Ordering.lt)) =
      (fun r : Record => (byteCompare r.1 kv.1 == Ordering.lt) && inBounds mi ma r.1) from by
    funext r
    exact Bool.and_comm _ _]
  rw [← List.filter_filter]
  rw [← List.filter_reverse]
  refine sorted_filter_eq_drop (fun a b => byteCompare b a == .lt) ?_ _ ?_ n kv hlast2
  · intro a b h
    exact ordering_beq_lt_false_iff.2 (keyLt_asymm (ordering_beq_lt_iff.1 h))
  · rw [List.pairwise_reverse]
    refine List.Pairwise.imp ?_ (hs.filter _)
    intro x y h
    exact ordering_beq_lt_iff.2 h

theorem sharedScanPages_eq :
    ∀ (fuel : Nat) (contents : List Record) (mi ma : Option Bytes) (order : Order),
      SortedByKey contents →
      (scanList contents mi ma order).length ≤ BATCH_SIZE * fuel →
      sharedScanPages fuel contents mi ma order = scanList contents mi ma order := by
  intro fuel
  induction fuel with
  | zero =>
    intro contents mi ma order hs hlen
    have h0 : (scanList contents mi ma order).length ≤ 0 := by
      simpa using hlen
    have hnil : scanList contents mi ma order = [] := by
      have hz : (scanList contents mi ma order).length = 0 := by omega
      exact List.length_eq_zero.1 hz
    rw [hnil]
    rfl
  | succ fuel ih =>
    intro contents mi ma order hs hlen
    rcases hl : scanList contents mi ma order with _ | ⟨r, rest⟩
    · simp [sharedScanPages, hl]
    · have hne : (scanList contents mi ma order).take BATCH_SIZE ≠ [] := by
        rw [hl]
        show r :: rest.take 29 ≠ []
        intro hx
        cases hx
      obtain ⟨kv, hkv⟩ : ∃ kv, ((scanList contents mi ma order).take BATCH_SIZE).getLast? =
          some kv := by
        rcases ho : ((scanList contents mi ma order).take BATCH_SIZE).getLast? with _ | kv
        · exact absurd (List.getLast?_eq_none_iff.1 ho) hne
        · exact ⟨kv, rfl⟩
      have hlen30 : (scanList contents mi ma order).length ≤ BATCH_SIZE * (fuel + 1) := hlen
      cases order with
      | ascending =>
        have hdrop := scan_after_page_asc contents hs mi ma BATCH_SIZE kv hkv
        have hih := ih contents (some (increment_last_byte kv.1)) ma .ascending hs (by
          rw [hdrop, List.length_drop]
          have h30 := hlen30
          simp only [BATCH_SIZE] at h30 ⊢
          omega)
        rw [show sharedScanPages (fuel + 1) contents mi ma .ascending =
            match ((scanList contents mi ma .ascending).take BATCH_SIZE).getLast? with
            | none => []
            | some kv =>
                (scanList contents mi ma .ascending).take BATCH_SIZE ++
                  sharedScanPages fuel contents (some (increment_last_byte kv.1)) ma .ascending
            from rfl]
        rw [hkv]
        show (scanList contents mi ma .ascending).take BATCH_SIZE ++
            sharedScanPages fuel contents (some (increment_last_byte kv.1)) ma .ascending = _
        rw [hih, hdrop, List.take_append_drop]
        exact hl
      | descending =>
        have hdrop := scan_after_page_desc contents hs mi ma BATCH_SIZE kv hkv
        have hih := ih contents mi (some kv.1) .descending hs (by
          rw [hdrop, List.length_drop]
          have h30 := hlen30
          simp only [BATCH_SIZE] at h30 ⊢
          omega)
        rw [show sharedScanPages (fuel + 1) contents mi ma .descending =
            match ((scanList contents mi ma .descending).take BATCH_SIZE).getLast? with
            | none => []
            | some kv =>
                (scanList contents mi ma .descending).take BATCH_SIZE ++
                  sharedScanPages fuel contents mi (some kv.1) .descending
            from rfl]
        rw [hkv]
        show (scanList contents mi ma .descending).take BATCH_SIZE ++
            sharedScanPages fuel contents mi (some kv.1) .descending = _
        rw [hih, hdrop, List.take_append_drop]
        exact hl

theorem proveLoop_spec (s : TreeStore) (key_hash : Hash256) :
    ∀ (iter bits : List Nat) (node : Node) (acc : List (Option Hash256)),
      proveLoop s key_hash iter bits node acc =
        match walkWitness s key_hash iter bits node,
              descentSiblings s key_hash iter bits node with
        | some w, some sibs => some (w, acc ++ sibs)
        | _, _ => none := by
  intro iter
  induction iter with
  | nil =>
    intro bits node acc
    cases node with
    | leaf leaf => simp [proveLoop, walkWitness, descentSiblings]
    | internal i =>
      obtain ⟨lc, rc⟩ := i
      simp [proveLoop, walkWitness, descentSiblings]
  | cons b iterRest ih =>
    intro bits node acc
    cases node with
    | leaf leaf => simp [proveLoop, walkWitness, descentSiblings]
    | internal i =>
      obtain ⟨lc, rc⟩ := i
      match b, lc, rc with
      | 0, some child, sibling =>
        rcases hl : lookupNode s.nodes (child.version, bits ++ [0]) with _ | nd
        · simp [proveLoop, walkWitness, descentSiblings, hl]
        · simp only [proveLoop, walkWitness, descentSiblings, hl]
          rw [ih (bits ++ [0]) nd (acc ++ [hash_of sibling])]
          rcases walkWitness s key_hash iterRest (bits ++ [0]) nd with _ | w <;>
            rcases descentSiblings s key_hash iterRest (bits ++ [0]) nd with _ | sibs <;>
            simp
      | 1, sibling, some child =>
        rcases hl : lookupNode s.nodes (child.version, bits ++ [1]) with _ | nd
        · simp [proveLoop, walkWitness, descentSiblings, hl]
        · simp only [proveLoop, walkWitness, descentSiblings, hl]
          rw [ih (bits ++ [1]) nd (acc ++ [hash_of sibling])]
          rcases walkWitness s key_hash iterRest (bits ++ [1]) nd with _ | w <;>
            rcases descentSiblings s key_hash iterRest (bits ++ [1]) nd with _ | sibs <;>
            simp
      | 0, none, sibling =>
        simp [proveLoop, walkWitness, descentSiblings]
      | 1, sibling, none =>
        simp [proveLoop, walkWitness, descentSiblings]
      | n + 2, _, _ =>
        simp [proveLoop, walkWitness, descentSiblings]


/-! ### Bit order, partition exactness, and prepare-batch lemmas -/

theorem extendOneBit_true (bits : List Nat) : extendOneBit bits true = bits ++ [0] := rfl

theorem extendOneBit_false (bits : List Nat) : extendOneBit bits false = bits ++ [1] := rfl

theorem bit_at_index_le_one (bytes : Bytes) (i : Nat) : bit_at_index bytes i ≤ 1 :=
  Nat.and_le_right

theorem bitsOfBytes_getD (a : Bytes) (i : Nat) :
    (bitsOfBytes a).getD i 0 = bit_at_index a i := by
  unfold bitsOfBytes
  rw [List.getD_eq_getElem?_getD, List.getElem?_map]
  by_cases h : i < 8 * a.length
  · rw [List.getElem?_range h]
    rfl
  · rw [List.getElem?_eq_none (by simpa using h)]
    have hbyte : a.getD (i / 8) 0 = 0 := List.getD_eq_default _ _ (by omega)
    unfold bit_at_index
    rw [hbyte]
    simp

theorem byteCompare_lt_getD_le :
    ∀ (l1 l2 : List Nat) (d : Nat), byteCompare l1 l2 = .lt →
      (∀ i < d, l1.getD i 0 = l2.getD i 0) → l1.getD d 0 ≤ l2.getD d 0 := by
  intro l1
  induction l1 with
  | nil => intro l2 d _ _; simp
  | cons a as ih =>
    intro l2 d hlt hag
    cases l2 with
    | nil => simp [byteCompare] at hlt
    | cons b bs =>
      simp only [byteCompare] at hlt
      rcases hc : compare a b with hc1 | hc1 | hc1
      · have hab : a < b := Nat.compare_eq_lt.mp hc
        cases d with
        | zero => simpa using Nat.le_of_lt hab
        | succ d =>
          have := hag 0 (Nat.succ_pos d)
          simp at this
          omega
      · have hab : a = b := Nat.compare_eq_eq.mp hc
        cases d with
        | zero => simpa using Nat.le_of_eq hab
        | succ d =>
          rw [hc] at hlt
          have := ih bs d hlt (fun i hi => by
            have := hag (i + 1) (by omega)
            simpa using this)
          simpa using this
      · rw [hc] at hlt
        exact absurd hlt (by simp)

theorem bitLexLt_bit_mono {a b : Bytes} (d : Nat) (h : bitLexLt a b)
    (hag : ∀ i < d, bit_at_index a i = bit_at_index b i) :
    bit_at_index a d ≤ bit_at_index b d := by
  have := byteCompare_lt_getD_le (bitsOfBytes a) (bitsOfBytes b) d h
    (fun i hi => by rw [bitsOfBytes_getD, bitsOfBytes_getD]; exact hag i hi)
  rwa [bitsOfBytes_getD, bitsOfBytes_getD] at this

theorem takeWhile_eq_filter_of_mono {α : Type} (P : α → Bool) :
    ∀ (l : List α), l.Pairwise (fun x y => P x = false → P y = false) →
      l.takeWhile P = l.filter P ∧ l.dropWhile P = l.filter (fun x => !P x) := by
  intro l
  induction l with
  | nil => intro _; simp
  | cons a l ih =>
    intro h
    rcases List.pairwise_cons.mp h with ⟨hhead, htail⟩
    rcases ih htail with ⟨ht, hd⟩
    cases hPa : P a with
    | true => simp [List.takeWhile_cons, List.dropWhile_cons, List.filter_cons, hPa, ht, hd]
    | false =>
      have hall : ∀ x ∈ l, P x = false := fun x hx => hhead x hx hPa
      constructor
      · rw [List.takeWhile_cons]
        simp only [hPa, List.filter_cons]
        rw [List.filter_eq_nil_iff.mpr (by intro x hx; simp [hall x hx])]
        simp
      · rw [List.dropWhile_cons]
        simp only [hPa, List.filter_cons, Bool.not_false]
        rw [List.filter_eq_self.mpr (fun x hx => by simp [hall x hx])]
        simp

theorem prepare_no_inserts :
    ∀ (batch : List (Hash256 × Op Hash256)),
      (∀ p ∈ batch, p.2 = .delete) →
      prepare_batch_for_subtree batch none = ([], none) := by
  intro batch
  induction batch with
  | nil => intro _; rfl
  | cons p rest ih =>
    intro h
    obtain ⟨kh, op⟩ := p
    have hop : op = .delete := h (kh, op) (List.mem_cons_self _ _)
    have hrest := ih (fun q hq => h q (List.mem_cons_of_mem _ hq))
    simp [prepare_batch_for_subtree, hop, hrest]

theorem prepare_leaf_noop (leaf : LeafNode) :
    ∀ (batch : List (Hash256 × Op Hash256)),
      (∀ p ∈ batch, (p.1 = leaf.key_hash ∧ p.2 = .insert leaf.value_hash) ∨
        (p.1 ≠ leaf.key_hash ∧ p.2 = .delete)) →
      (prepare_batch_for_subtree batch (some leaf)).1 = [] ∧
      ((prepare_batch_for_subtree batch (some leaf)).2 = none ∨
       (prepare_batch_for_subtree batch (some leaf)).2 = some (.insert leaf.value_hash)) := by
  intro batch
  induction batch with
  | nil => intro _; exact ⟨rfl, Or.inl rfl⟩
  | cons p rest ih =>
    intro h
    obtain ⟨kh, op⟩ := p
    rcases ih (fun q hq => h q (List.mem_cons_of_mem _ hq)) with ⟨h1, h2⟩
    rcases h (kh, op) (List.mem_cons_self _ _) with ⟨hk, hop⟩ | ⟨hk, hop⟩
    · simp only at hk hop
      subst hk hop
      refine ⟨by simp [prepare_batch_for_subtree, h1], ?_⟩
      right
      rcases h2 with h2 | h2 <;> simp [prepare_batch_for_subtree, h2]
    · simp only at hk hop
      subst hop
      refine ⟨by simp [prepare_batch_for_subtree, hk, h1], ?_⟩
      rcases h2 with h2 | h2
      · left; simp [prepare_batch_for_subtree, hk, h2]
      · right; simp [prepare_batch_for_subtree, hk, h2]

/-! ### The no-op frame theorem for the apply engine -/

theorem apply_at_child_noop (g f : Nat) (hfu : 3 * g + 2 ≤ f)
    (ih : ∀ (fuel : Nat), 3 * g + 2 ≤ fuel →
      ∀ (s : TreeStore) (new_version old_version : Nat) (bits : List Nat)
        (batch : List (Hash256 × Op Hash256)),
        subtreeWF g s.nodes old_version bits = true →
        NoopBatch g s.nodes old_version bits batch = true →
        BitSorted batch → KeysAlongPath bits batch →
        apply_at fuel s new_version old_version bits batch =
          some (s, .unchanged (lookupNode s.nodes (old_version, bits))))
    (s : TreeStore) (nv : Nat) (bits : List Nat) (il : Bool) (child : Option Child)
    (subB : List (Hash256 × Op Hash256))
    (hc : ∀ c, child = some c →
      (lookupNode s.nodes (c.version, extendOneBit bits il)).isSome = true ∧
      subtreeWF g s.nodes c.version (extendOneBit bits il) = true)
    (hns : ∀ c, child = some c →
      NoopBatch g s.nodes c.version (extendOneBit bits il) subB = true)
    (hnn : child = none → ∀ p ∈ subB, p.2 = .delete)
    (hso : BitSorted subB) (hpa : KeysAlongPath (extendOneBit bits il) subB) :
    apply_at_child (f + 1) s nv bits il child subB =
      some (s, .unchanged (childLookup s.nodes bits il child)) := by
  cases child with
  | none =>
    cases subB with
    | nil => rfl
    | cons p rest =>
      have hdel := hnn rfl
      obtain ⟨f', rfl⟩ : ∃ f', f = f' + 1 := ⟨f - 1, by omega⟩
      simp only [apply_at_child]
      rw [prepare_no_inserts _ hdel]
      simp [create_subtree, childLookup]
  | some c =>
    obtain ⟨hcs, hcw⟩ := hc c rfl
    obtain ⟨m, hm⟩ := Option.isSome_iff_exists.mp hcs
    cases subB with
    | nil =>
      simp only [apply_at_child]
      simp [hm, childLookup]
    | cons p rest =>
      have happ := ih f hfu s nv c.version (extendOneBit bits il) (p :: rest) hcw
        (hns c rfl) hso hpa
      simp only [apply_at_child, List.isEmpty_cons]
      rw [happ]
      simp [childLookup]

theorem apply_at_noop :
    ∀ (g : Nat) (fuel : Nat), 3 * g + 2 ≤ fuel →
    ∀ (s : TreeStore) (new_version old_version : Nat) (bits : List Nat)
      (batch : List (Hash256 × Op Hash256)),
      subtreeWF g s.nodes old_version bits = true →
      NoopBatch g s.nodes old_version bits batch = true →
      BitSorted batch → KeysAlongPath bits batch →
      apply_at fuel s new_version old_version bits batch =
        some (s, .unchanged (lookupNode s.nodes (old_version, bits))) := by
  intro g
  induction g with
  | zero =>
    intro fuel hf s nv ov bits batch hwf hnoop _ _
    have hlook : lookupNode s.nodes (ov, bits) = none := by
      revert hwf
      unfold subtreeWF
      cases h : lookupNode s.nodes (ov, bits) with
      | none => intro _; rfl
      | some n => intro hwf; simp [nodeShape] at hwf
    have hb : batch = [] := by
      cases batch with
      | nil => rfl
      | cons p rest =>
        exfalso
        have := (List.all_eq_true.mp hnoop) p (List.mem_cons_self _ _)
        obtain ⟨kh, op⟩ := p
        cases op <;> simp [noopOp, subtreeGet] at this
    subst hb
    obtain ⟨f, rfl⟩ : ∃ f, fuel = f + 2 := ⟨fuel - 2, by omega⟩
    simp [apply_at, hlook, prepare_batch_for_subtree, create_subtree]
  | succ g ih =>
    intro fuel hf s nv ov bits batch hwf hnoop hsort hpath
    obtain ⟨f, rfl⟩ : ∃ f, fuel = f + 3 := ⟨fuel - 3, by omega⟩
    have hf' : 3 * g + 2 ≤ f := by omega
    cases hlook : lookupNode s.nodes (ov, bits) with
    | none =>
      have hdel : ∀ p ∈ batch, p.2 = .delete := by
        intro p hp
        have hn := (List.all_eq_true.mp hnoop) p hp
        obtain ⟨kh, op⟩ := p
        cases op with
        | insert vh => simp [noopOp, subtreeGet, hlook] at hn
        | delete => rfl
      simp only [apply_at, hlook]
      rw [prepare_no_inserts batch hdel]
      simp [create_subtree]
    | some node =>
      cases node with
      | leaf l =>
        have hops : ∀ p ∈ batch, (p.1 = l.key_hash ∧ p.2 = .insert l.value_hash) ∨
            (p.1 ≠ l.key_hash ∧ p.2 = .delete) := by
          intro p hp
          have hn := (List.all_eq_true.mp hnoop) p hp
          obtain ⟨kh, op⟩ := p
          cases op with
          | insert vh =>
            left
            simp only [noopOp, subtreeGet, hlook, beq_iff_eq] at hn
            by_cases hk : l.key_hash = kh
            · simp only [if_pos hk, Option.some.injEq] at hn
              exact ⟨hk.symm, by rw [hn]⟩
            · simp [if_neg hk] at hn
          | delete =>
            right
            simp only [noopOp, subtreeGet, hlook, beq_iff_eq] at hn
            by_cases hk : l.key_hash = kh
            · simp [if_pos hk] at hn
            · exact ⟨fun he => hk he.symm, rfl⟩
        obtain ⟨hp1, hp2⟩ := prepare_leaf_noop l batch hops
        simp only [apply_at, hlook]
        rcases hp2 with hp2 | hp2
        · simp [apply_at_leaf, hp1, hp2]
        · simp [apply_at_leaf, hp1, hp2]
      | internal i =>
        have hsh := hwf
        unfold subtreeWF at hsh
        rw [hlook] at hsh
        simp only [nodeShape, Bool.and_eq_true] at hsh
        obtain ⟨⟨hone, hl⟩, hr⟩ := hsh
        -- the takeWhile/dropWhile split is exactly a filter by the branch bit
        have hmono : batch.Pairwise (fun x y =>
            (bit_at_index x.1 bits.length == 0) = false →
            (bit_at_index y.1 bits.length == 0) = false) := by
          refine List.Pairwise.imp_of_mem ?_ hsort
          intro x y hx hy hxy hfx
          have hagree : ∀ j < bits.length, bit_at_index x.1 j = bit_at_index y.1 j := by
            intro j hj
            rw [hpath x hx j hj, hpath y hy j hj]
          have hmn := bitLexLt_bit_mono bits.length hxy hagree
          have h1x := bit_at_index_le_one x.1 bits.length
          have h1y := bit_at_index_le_one y.1 bits.length
          simp only [beq_eq_false_iff_ne, ne_eq] at hfx ⊢
          omega
        obtain ⟨hsplit1, hsplit2⟩ := takeWhile_eq_filter_of_mono
          (fun p => bit_at_index p.1 bits.length == 0) batch hmono
        have hLmem : ∀ p ∈ batch.filter (fun p => bit_at_index p.1 bits.length == 0),
            p ∈ batch ∧ bit_at_index p.1 bits.length = 0 := by
          intro p hp
          rw [List.mem_filter] at hp
          exact ⟨hp.1, by simpa using hp.2⟩
        have hRmem : ∀ p ∈ batch.filter (fun p => !(bit_at_index p.1 bits.length == 0)),
            p ∈ batch ∧ bit_at_index p.1 bits.length = 1 := by
          intro p hp
          rw [List.mem_filter] at hp
          have hle := bit_at_index_le_one p.1 bits.length
          have h2 := hp.2
          simp only [Bool.not_eq_true', beq_eq_false_iff_ne, ne_eq] at h2
          exact ⟨hp.1, by omega⟩
        -- shape facts per side
        have hcL : ∀ c, i.left_child = some c →
            (lookupNode s.nodes (c.version, extendOneBit bits true)).isSome = true ∧
            subtreeWF g s.nodes c.version (extendOneBit bits true) = true := by
          intro c hc
          rw [hc] at hl
          simp only [Bool.and_eq_true, decide_eq_true_eq] at hl
          obtain ⟨hvle, hl2⟩ := hl
          cases hm : lookupNode s.nodes (c.version, extendOneBit bits true) with
          | none => rw [hm] at hl2; simp at hl2
          | some m =>
            rw [hm] at hl2
            simp only [Bool.and_eq_true] at hl2
            refine ⟨rfl, ?_⟩
            unfold subtreeWF
            rw [hm]
            exact hl2.2
        have hcR : ∀ c, i.right_child = some c →
            (lookupNode s.nodes (c.version, extendOneBit bits false)).isSome = true ∧
            subtreeWF g s.nodes c.version (extendOneBit bits false) = true := by
          intro c hc
          rw [hc] at hr
          simp only [Bool.and_eq_true, decide_eq_true_eq] at hr
          obtain ⟨hvle, hr2⟩ := hr
          cases hm : lookupNode s.nodes (c.version, extendOneBit bits false) with
          | none => rw [hm] at hr2; simp at hr2
          | some m =>
            rw [hm] at hr2
            simp only [Bool.and_eq_true] at hr2
            refine ⟨rfl, ?_⟩
            unfold subtreeWF
            rw [hm]
            exact hr2.2
        -- no-op transfer per side
        have hnsL : ∀ c, i.left_child = some c →
            NoopBatch g s.nodes c.version (extendOneBit bits true)
              (batch.filter (fun p => bit_at_index p.1 bits.length == 0)) = true := by
          intro c hc
          rw [NoopBatch, List.all_eq_true]
          intro p hp
          obtain ⟨hpb, hbit⟩ := hLmem p hp
          have hn := (List.all_eq_true.mp hnoop) p hpb
          obtain ⟨kh, op⟩ := p
          simp only at hbit
          cases op <;>
            simpa [noopOp, subtreeGet, hlook, hbit, hc] using hn
        have hnsR : ∀ c, i.right_child = some c →
            NoopBatch g s.nodes c.version (extendOneBit bits false)
              (batch.filter (fun p => !(bit_at_index p.1 bits.length == 0))) = true := by
          intro c hc
          rw [NoopBatch, List.all_eq_true]
          intro p hp
          obtain ⟨hpb, hbit⟩ := hRmem p hp
          have hn := (List.all_eq_true.mp hnoop) p hpb
          obtain ⟨kh, op⟩ := p
          simp only at hbit
          cases op <;>
            simpa [noopOp, subtreeGet, hlook, hbit, hc] using hn
        have hnnL : i.left_child = none →
            ∀ p ∈ batch.filter (fun p => bit_at_index p.1 bits.length == 0),
              p.2 = .delete := by
          intro hc p hp
          obtain ⟨hpb, hbit⟩ := hLmem p hp
          have hn := (List.all_eq_true.mp hnoop) p hpb
          obtain ⟨kh, op⟩ := p
          simp only at hbit
          cases op with
          | insert vh =>
            exfalso
            simp [noopOp, subtreeGet, hlook, hbit, hc] at hn
          | delete => rfl
        have hnnR : i.right_child = none →
            ∀ p ∈ batch.filter (fun p => !(bit_at_index p.1 bits.length == 0)),
              p.2 = .delete := by
          intro hc p hp
          obtain ⟨hpb, hbit⟩ := hRmem p hp
          have hn := (List.all_eq_true.mp hnoop) p hpb
          obtain ⟨kh, op⟩ := p
          simp only at hbit
          cases op with
          | insert vh =>
            exfalso
            simp [noopOp, subtreeGet, hlook, hbit, hc] at hn
          | delete => rfl
        -- sortedness and path facts per side
        have hsoL : BitSorted (batch.filter (fun p => bit_at_index p.1 bits.length == 0)) :=
          List.Pairwise.sublist (List.filter_sublist batch) hsort
        have hsoR : BitSorted (batch.filter (fun p => !(bit_at_index p.1 bits.length == 0))) :=
          List.Pairwise.sublist (List.filter_sublist batch) hsort
        have hpaL : KeysAlongPath (extendOneBit bits true)
            (batch.filter (fun p => bit_at_index p.1 bits.length == 0)) := by
          intro p hp j hj
          obtain ⟨hpb, hbit⟩ := hLmem p hp
          rw [extendOneBit_true] at hj ⊢
          simp only [List.length_append, List.length_cons, List.length_nil] at hj
          by_cases hlt : j < bits.length
          · rw [List.getD_append _ _ _ _ hlt]
            exact hpath p hpb j hlt
          · have hje : j = bits.length := by omega
            subst hje
            rw [hbit]
            rw [List.getD_eq_getElem?_getD, List.getElem?_append_right (le_refl _)]
            simp
        have hpaR : KeysAlongPath (extendOneBit bits false)
            (batch.filter (fun p => !(bit_at_index p.1 bits.length == 0))) := by
          intro p hp j hj
          obtain ⟨hpb, hbit⟩ := hRmem p hp
          rw [extendOneBit_false] at hj ⊢
          simp only [List.length_append, List.length_cons, List.length_nil] at hj
          by_cases hlt : j < bits.length
          · rw [List.getD_append _ _ _ _ hlt]
            exact hpath p hpb j hlt
          · have hje : j = bits.length := by omega
            subst hje
            rw [hbit]
            rw [List.getD_eq_getElem?_getD, List.getElem?_append_right (le_refl _)]
            simp
        have hL := apply_at_child_noop g f hf' ih s nv bits true
          i.left_child _ hcL hnsL hnnL hsoL hpaL
        have hR := apply_at_child_noop g f hf' ih s nv bits false
          i.right_child _ hcR hnsR hnnR hsoR hpaR
        simp only [apply_at, hlook, apply_at_internal, partition_batch]
        rw [hsplit1, hsplit2, hL]
        simp only [hR]
        -- reduce the outcome match using the at-least-one-child fact
        rcases hlc : i.left_child with _ | cl <;> rcases hrc : i.right_child with _ | cr
        · rw [hlc, hrc] at hone; simp at hone
        · obtain ⟨mr, hmr⟩ := Option.isSome_iff_exists.mp (hcR cr hrc).1
          simp [childLookup, hlc, hrc, hmr]
        · obtain ⟨ml, hml⟩ := Option.isSome_iff_exists.mp (hcL cl hlc).1
          simp [childLookup, hlc, hrc, hml]
        · obtain ⟨ml, hml⟩ := Option.isSome_iff_exists.mp (hcL cl hlc).1
          obtain ⟨mr, hmr⟩ := Option.isSome_iff_exists.mp (hcR cr hrc).1
          simp [childLookup, hlc, hrc, hml, hmr]

/-! ### Store and shape-invariant infrastructure -/

theorem lookupNode_insertEntry (nodes : NodeMap) (k : Nat × List Nat) (n : Node)
    (key : Nat × List Nat) :
    lookupNode (insertEntry nodes k n) key =
      if k = key then some n else lookupNode nodes key := by
  induction nodes with
  | nil =>
    by_cases h : k = key <;> simp [insertEntry, lookupNode, h]
  | cons e rest ih =>
    obtain ⟨ek, en⟩ := e
    by_cases hek : ek = k
    · subst hek
      by_cases h : ek = key <;> simp [insertEntry, lookupNode, h]
    · simp only [insertEntry, if_neg hek]
      by_cases h : ek = key
      · subst h
        have hke : ¬ k = ek := fun he => hek he.symm
        simp [lookupNode, if_neg hke]
      · simp [lookupNode, h, ih]

theorem not_prefix_extend_self (bits : List Nat) (a : Nat) : ¬ (bits ++ [a]) <+: bits := by
  intro hp
  have := hp.length_le
  simp at this

theorem not_prefix_extend_other {a b : Nat} (bits : List Nat) (q : List Nat) (h : a ≠ b) :
    ¬ (bits ++ [a]) <+: (bits ++ b :: q) := by
  intro hp
  rw [List.prefix_append_right_inj] at hp
  rw [List.cons_prefix_cons] at hp
  exact h hp.1

theorem prefix_extend (bits : List Nat) (a : Nat) : bits <+: bits ++ [a] :=
  List.prefix_append bits [a]

theorem extend_ne_self (bits : List Nat) (a : Nat) : bits ++ [a] ≠ bits := by
  intro h
  have := congrArg List.length h
  simp at this

theorem nodeShape_internal_iff (g : Nat) (nodes : NodeMap) (v : Nat) (bits : List Nat)
    (i : InternalNode) :
    nodeShape (g + 1) nodes v bits (.internal i) = true ↔
      (i.left_child.isSome || i.right_child.isSome) = true ∧
      (∀ c, i.left_child = some c → c.version ≤ v ∧
        ∃ m, lookupNode nodes (c.version, extendOneBit bits true) = some m ∧
          (i.right_child.isSome || !m.is_leaf) = true ∧
          nodeShape g nodes c.version (extendOneBit bits true) m = true) ∧
      (∀ c, i.right_child = some c → c.version ≤ v ∧
        ∃ m, lookupNode nodes (c.version, extendOneBit bits false) = some m ∧
          (i.left_child.isSome || !m.is_leaf) = true ∧
          nodeShape g nodes c.version (extendOneBit bits false) m = true) := by
  constructor
  · intro h
    simp only [nodeShape, Bool.and_eq_true] at h
    obtain ⟨⟨h1, h2⟩, h3⟩ := h
    refine ⟨h1, ?_, ?_⟩
    · intro c hc
      rw [hc] at h2
      simp only [Bool.and_eq_true, decide_eq_true_eq] at h2
      obtain ⟨hv, h22⟩ := h2
      cases hm : lookupNode nodes (c.version, extendOneBit bits true) with
      | none => rw [hm] at h22; simp at h22
      | some m =>
        rw [hm] at h22
        simp only [Bool.and_eq_true] at h22
        exact ⟨hv, m, rfl, h22.1, h22.2⟩
    · intro c hc
      rw [hc] at h3
      simp only [Bool.and_eq_true, decide_eq_true_eq] at h3
      obtain ⟨hv, h32⟩ := h3
      cases hm : lookupNode nodes (c.version, extendOneBit bits false) with
      | none => rw [hm] at h32; simp at h32
      | some m =>
        rw [hm] at h32
        simp only [Bool.and_eq_true] at h32
        exact ⟨hv, m, rfl, h32.1, h32.2⟩
  · intro h
    obtain ⟨h1, hL, hR⟩ := h
    simp only [nodeShape, Bool.and_eq_true]
    refine ⟨⟨h1, ?_⟩, ?_⟩
    · cases hlc : i.left_child with
      | none => rfl
      | some c =>
        obtain ⟨hv, m, hm, hlf, hsh⟩ := hL c hlc
        simp [hm, hv, hlf, hsh]
    · cases hrc : i.right_child with
      | none => rfl
      | some c =>
        obtain ⟨hv, m, hm, hlf, hsh⟩ := hR c hrc
        simp [hm, hv, hlf, hsh]

theorem nodeShape_leaf (g : Nat) (nodes : NodeMap) (v : Nat) (bits : List Nat) (l : LeafNode) :
    nodeShape (g + 1) nodes v bits (.leaf l) = true := rfl

theorem prefix_extendOneBit (bits : List Nat) (il : Bool) : bits <+: extendOneBit bits il := by
  cases il <;> exact List.prefix_append _ _

theorem extendOneBit_ne (bits : List Nat) (il : Bool) : extendOneBit bits il ≠ bits := by
  cases il <;> apply extend_ne_self

theorem not_prefix_extendOneBit_self (bits : List Nat) (il : Bool) :
    ¬ extendOneBit bits il <+: bits := by
  cases il <;> apply not_prefix_extend_self

theorem nodeShape_mono :
    ∀ (g g' : Nat), g ≤ g' →
      ∀ (nodes : NodeMap) (v : Nat) (bits : List Nat) (n : Node),
        nodeShape g nodes v bits n = true → nodeShape g' nodes v bits n = true := by
  intro g
  induction g with
  | zero => intro g' _ nodes v bits n h; simp [nodeShape] at h
  | succ g ih =>
    intro g' hg nodes v bits n h
    obtain ⟨g2, rfl⟩ : ∃ k, g' = k + 1 := ⟨g' - 1, by omega⟩
    cases n with
    | leaf l => exact nodeShape_leaf _ _ _ _ _
    | internal i =>
      rw [nodeShape_internal_iff] at h ⊢
      obtain ⟨h1, hL, hR⟩ := h
      refine ⟨h1, ?_, ?_⟩
      · intro c hc
        obtain ⟨hv, m, hm, hlf, hsh⟩ := hL c hc
        exact ⟨hv, m, hm, hlf, ih g2 (by omega) _ _ _ _ hsh⟩
      · intro c hc
        obtain ⟨hv, m, hm, hlf, hsh⟩ := hR c hc
        exact ⟨hv, m, hm, hlf, ih g2 (by omega) _ _ _ _ hsh⟩

theorem nodeShape_agree_path :
    ∀ (g : Nat) (nodes nodes' : NodeMap) (v : Nat) (bits : List Nat) (n : Node),
      (∀ (v' : Nat) (p' : List Nat), bits <+: p' → p' ≠ bits →
        lookupNode nodes' (v', p') = lookupNode nodes (v', p')) →
      nodeShape g nodes v bits n = true → nodeShape g nodes' v bits n = true := by
  intro g
  induction g with
  | zero => intro nodes nodes' v bits n _ h; simp [nodeShape] at h
  | succ g ih =>
    intro nodes nodes' v bits n hag h
    cases n with
    | leaf l => exact nodeShape_leaf _ _ _ _ _
    | internal i =>
      rw [nodeShape_internal_iff] at h ⊢
      obtain ⟨h1, hL, hR⟩ := h
      refine ⟨h1, ?_, ?_⟩
      · intro c hc
        obtain ⟨hv, m, hm, hlf, hsh⟩ := hL c hc
        refine ⟨hv, m, ?_, hlf, ?_⟩
        · rw [hag c.version _ (prefix_extendOneBit bits true) (extendOneBit_ne bits true)]
          exact hm
        · refine ih nodes nodes' c.version _ m ?_ hsh
          intro v' p' hp hne
          refine hag v' p' ((prefix_extendOneBit bits true).trans hp) ?_
          intro he
          rw [he] at hp
          exact not_prefix_extendOneBit_self bits true hp
      · intro c hc
        obtain ⟨hv, m, hm, hlf, hsh⟩ := hR c hc
        refine ⟨hv, m, ?_, hlf, ?_⟩
        · rw [hag c.version _ (prefix_extendOneBit bits false) (extendOneBit_ne bits false)]
          exact hm
        · refine ih nodes nodes' c.version _ m ?_ hsh
          intro v' p' hp hne
          refine hag v' p' ((prefix_extendOneBit bits false).trans hp) ?_
          intro he
          rw [he] at hp
          exact not_prefix_extendOneBit_self bits false hp

theorem nodeShape_agree_version :
    ∀ (g : Nat) (nodes nodes' : NodeMap) (v : Nat) (bits : List Nat) (n : Node),
      (∀ (v' : Nat) (p' : List Nat), v' ≤ v →
        lookupNode nodes' (v', p') = lookupNode nodes (v', p')) →
      nodeShape g nodes v bits n = true → nodeShape g nodes' v bits n = true := by
  intro g
  induction g with
  | zero => intro nodes nodes' v bits n _ h; simp [nodeShape] at h
  | succ g ih =>
    intro nodes nodes' v bits n hag h
    cases n with
    | leaf l => exact nodeShape_leaf _ _ _ _ _
    | internal i =>
      rw [nodeShape_internal_iff] at h ⊢
      obtain ⟨h1, hL, hR⟩ := h
      refine ⟨h1, ?_, ?_⟩
      · intro c hc
        obtain ⟨hv, m, hm, hlf, hsh⟩ := hL c hc
        refine ⟨hv, m, ?_, hlf, ?_⟩
        · rw [hag c.version _ hv]
          exact hm
        · exact ih nodes nodes' c.version _ m (fun v' p' hle => hag v' p' (hle.trans hv)) hsh
      · intro c hc
        obtain ⟨hv, m, hm, hlf, hsh⟩ := hR c hc
        refine ⟨hv, m, ?_, hlf, ?_⟩
        · rw [hag c.version _ hv]
          exact hm
        · exact ih nodes nodes' c.version _ m (fun v' p' hle => hag v' p' (hle.trans hv)) hsh

theorem nodeShape_version_le (g : Nat) (nodes : NodeMap) (v v' : Nat) (bits : List Nat)
    (n : Node) (hv : v ≤ v') :
    nodeShape g nodes v bits n = true → nodeShape g nodes v' bits n = true := by
  cases g with
  | zero => intro h; simp [nodeShape] at h
  | succ g =>
    intro h
    cases n with
    | leaf l => exact nodeShape_leaf _ _ _ _ _
    | internal i =>
      rw [nodeShape_internal_iff] at h ⊢
      obtain ⟨h1, hL, hR⟩ := h
      refine ⟨h1, ?_, ?_⟩
      · intro c hc
        obtain ⟨hcv, m, hm, hlf, hsh⟩ := hL c hc
        exact ⟨hcv.trans hv, m, hm, hlf, hsh⟩
      · intro c hc
        obtain ⟨hcv, m, hm, hlf, hsh⟩ := hR c hc
        exact ⟨hcv.trans hv, m, hm, hlf, hsh⟩

/-! ### create_subtree builds well-shaped subtrees -/

theorem takeWhile_eq_of_dropWhile_nil {α : Type} (P : α → Bool) (l : List α)
    (h : l.dropWhile P = []) : l.takeWhile P = l := by
  have := List.takeWhile_append_dropWhile P l
  rw [h] at this
  simpa using this

theorem dropWhile_eq_of_takeWhile_nil {α : Type} (P : α → Bool) (l : List α)
    (h : l.takeWhile P = []) : l.dropWhile P = l := by
  have := List.takeWhile_append_dropWhile P l
  rw [h] at this
  simpa using this

theorem partition_leaf_right_none (leaf : Option LeafNode) (bits : List Nat)
    (h : (partition_leaf leaf bits).2 = none) : (partition_leaf leaf bits).1 = leaf := by
  cases leaf with
  | none => rfl
  | some l =>
    by_cases hb : bit_at_index l.key_hash bits.length = 0
    · simp [partition_leaf, hb]
    · simp [partition_leaf, hb] at h

theorem partition_leaf_left_none (leaf : Option LeafNode) (bits : List Nat)
    (h : (partition_leaf leaf bits).1 = none) : (partition_leaf leaf bits).2 = leaf := by
  cases leaf with
  | none => rfl
  | some l =>
    by_cases hb : bit_at_index l.key_hash bits.length = 0
    · simp [partition_leaf, hb] at h
    · simp [partition_leaf, hb]

theorem lookup_insert_preserve (nodes : NodeMap) (w : Nat) (p : List Nat) (m : Node)
    (v' : Nat) (p' : List Nat) (h : (w, p) ≠ (v', p')) :
    lookupNode (insertEntry nodes (w, p) m) (v', p') = lookupNode nodes (v', p') := by
  rw [lookupNode_insertEntry]
  simp [h]

theorem nodeShape_insert_outside (g : Nat) (nodes : NodeMap) (v : Nat) (q : List Nat)
    (n : Node) (w : Nat) (p : List Nat) (m : Node)
    (h : ¬ (q <+: p ∧ p ≠ q)) :
    nodeShape g nodes v q n = true → nodeShape g (insertEntry nodes (w, p) m) v q n = true := by
  refine nodeShape_agree_path g nodes _ v q n ?_
  intro v' p' hpre hne
  refine lookup_insert_preserve nodes w p m v' p' ?_
  intro he
  injection he with he1 he2
  exact h ⟨he2 ▸ hpre, he2 ▸ hne⟩

theorem nodeShape_insert_newversion (g : Nat) (nodes : NodeMap) (v : Nat) (q : List Nat)
    (n : Node) (w : Nat) (p : List Nat) (m : Node) (h : v < w) :
    nodeShape g nodes v q n = true → nodeShape g (insertEntry nodes (w, p) m) v q n = true := by
  refine nodeShape_agree_version g nodes _ v q n ?_
  intro v' p' hle
  refine lookup_insert_preserve nodes w p m v' p' ?_
  intro he
  injection he with he1 he2
  omega

theorem saveNode_nodes (s : TreeStore) (v : Nat) (bits : List Nat) (n : Node) :
    (saveNode s v bits n).nodes = insertEntry s.nodes (v, bits) n := rfl

/-- Assembling a fresh internal node at `(v, bits)`: if each present child
resolves and is well-shaped before the save, the saved node is well-shaped. -/
theorem built_internal_shape (fuel : Nat) (s2 : TreeStore) (v : Nat) (bits : List Nat)
    (lc rc : Option Child)
    (hone : (lc.isSome || rc.isSome) = true)
    (hL : ∀ c, lc = some c → c.version ≤ v ∧ ∃ m,
      lookupNode s2.nodes (c.version, extendOneBit bits true) = some m ∧
      (rc.isSome || !m.is_leaf) = true ∧
      nodeShape fuel s2.nodes c.version (extendOneBit bits true) m = true)
    (hR : ∀ c, rc = some c → c.version ≤ v ∧ ∃ m,
      lookupNode s2.nodes (c.version, extendOneBit bits false) = some m ∧
      (lc.isSome || !m.is_leaf) = true ∧
      nodeShape fuel s2.nodes c.version (extendOneBit bits false) m = true) :
    lookupNode (saveNode s2 v bits (Node.internal ⟨lc, rc⟩)).nodes (v, bits) =
      some (Node.internal ⟨lc, rc⟩) ∧
    nodeShape (fuel + 1) (saveNode s2 v bits (Node.internal ⟨lc, rc⟩)).nodes v bits
      (Node.internal ⟨lc, rc⟩) = true := by
  constructor
  · rw [saveNode_nodes, lookupNode_insertEntry]
    simp
  · rw [nodeShape_internal_iff]
    refine ⟨hone, ?_, ?_⟩
    · intro c hc
      obtain ⟨hv, m, hm, hlf, hsh⟩ := hL c hc
      refine ⟨hv, m, ?_, hlf, ?_⟩
      · rw [saveNode_nodes, lookup_insert_preserve _ _ _ _ _ _ (by
          intro he; injection he with he1 he2
          exact extendOneBit_ne bits true he2.symm)]
        exact hm
      · rw [saveNode_nodes]
        refine nodeShape_insert_outside fuel s2.nodes c.version _ m v bits _ ?_ hsh
        intro hcontra
        exact not_prefix_extendOneBit_self bits true hcontra.1
    · intro c hc
      obtain ⟨hv, m, hm, hlf, hsh⟩ := hR c hc
      refine ⟨hv, m, ?_, hlf, ?_⟩
      · rw [saveNode_nodes, lookup_insert_preserve _ _ _ _ _ _ (by
          intro he; injection he with he1 he2
          exact extendOneBit_ne bits false he2.symm)]
        exact hm
      · rw [saveNode_nodes]
        refine nodeShape_insert_outside fuel s2.nodes c.version _ m v bits _ ?_ hsh
        intro hcontra
        exact not_prefix_extendOneBit_self bits false hcontra.1

theorem prefix_bit_eq {a b : Nat} {bits p : List Nat}
    (ha : (bits ++ [a]) <+: p) (hb : (bits ++ [b]) <+: p) : a = b := by
  obtain ⟨ta, hta⟩ := ha
  obtain ⟨tb, htb⟩ := hb
  rw [← htb] at hta
  simp only [List.append_assoc] at hta
  rw [List.append_right_inj] at hta
  simp only [List.cons_append, List.nil_append, List.cons.injEq] at hta
  exact hta.1

theorem not_prefix_extend_bits_of (bits p' : List Nat) {a b : Nat} (hab : a ≠ b)
    (h : (bits ++ [a]) <+: p') : ¬ (bits ++ [b]) <+: p' :=
  fun h2 => hab (prefix_bit_eq h h2)

theorem extendOneBit_prefix_excl (bits p' : List Nat) (il : Bool)
    (h : extendOneBit bits il <+: p') : ¬ extendOneBit bits (!il) <+: p' := by
  cases il with
  | true =>
    rw [extendOneBit_true] at h
    rw [show (!true) = false from rfl, extendOneBit_false]
    exact not_prefix_extend_bits_of bits p' (by decide) h
  | false =>
    rw [extendOneBit_false] at h
    rw [show (!false) = true from rfl, extendOneBit_true]
    exact not_prefix_extend_bits_of bits p' (by decide) h

theorem create_split_core (fuel : Nat)
    (ih : ∀ (s : TreeStore) (v : Nat) (bits : List Nat)
      (batch : List (Hash256 × Hash256)) (leaf : Option LeafNode)
      (s' : TreeStore) (out : Outcome),
      create_subtree fuel s v bits batch leaf = some (s', out) →
      (∀ (v' : Nat) (p' : List Nat), (v' ≠ v ∨ ¬ bits <+: p') →
        lookupNode s'.nodes (v', p') = lookupNode s.nodes (v', p')) ∧
      ((out = .unchanged none ∧ s' = s ∧ batch = [] ∧ leaf = none) ∨
       (∃ n, out = .updated n ∧ lookupNode s'.nodes (v, bits) = some n ∧
         nodeShape fuel s'.nodes v bits n = true ∧
         (2 ≤ batch.length + (if leaf.isSome then 1 else 0) → n.is_leaf = false))))
    (s : TreeStore) (v : Nat) (bits : List Nat)
    (batch : List (Hash256 × Hash256)) (leaf : Option LeafNode)
    (s' : TreeStore) (out : Outcome)
    (hcount : 2 ≤ batch.length + (if leaf.isSome then 1 else 0))
    (h : (match create_subtree fuel s v (extendOneBit bits true)
            (partition_batch batch bits).1 (partition_leaf leaf bits).1 with
          | none => none
          | some (s, left_outcome) =>
            match create_subtree fuel s v (extendOneBit bits false)
                (partition_batch batch bits).2 (partition_leaf leaf bits).2 with
            | none => none
            | some (s, right_outcome) =>
              match into_child v left_outcome, into_child v right_outcome with
              | some lc, some rc =>
                  some (saveNode s v bits (Node.internal ⟨lc, rc⟩),
                    Outcome.updated (Node.internal ⟨lc, rc⟩))
              | _, _ => none) = some (s', out)) :
    (∀ (v' : Nat) (p' : List Nat), (v' ≠ v ∨ ¬ bits <+: p') →
      lookupNode s'.nodes (v', p') = lookupNode s.nodes (v', p')) ∧
    ((out = .unchanged none ∧ s' = s ∧ batch = [] ∧ leaf = none) ∨
     (∃ n, out = .updated n ∧ lookupNode s'.nodes (v, bits) = some n ∧
       nodeShape (fuel + 1) s'.nodes v bits n = true ∧
       (2 ≤ batch.length + (if leaf.isSome then 1 else 0) → n.is_leaf = false))) := by
  cases hcl : create_subtree fuel s v (extendOneBit bits true)
      (partition_batch batch bits).1 (partition_leaf leaf bits).1 with
  | none => simp [hcl] at h
  | some pr =>
    obtain ⟨s1, lo⟩ := pr
    simp only [hcl] at h
    cases hcr : create_subtree fuel s1 v (extendOneBit bits false)
        (partition_batch batch bits).2 (partition_leaf leaf bits).2 with
    | none => simp [hcr] at h
    | some pr2 =>
      obtain ⟨s2, ro⟩ := pr2
      simp only [hcr] at h
      obtain ⟨hFl, hOl⟩ := ih _ _ _ _ _ _ _ hcl
      obtain ⟨hFr, hOr⟩ := ih _ _ _ _ _ _ _ hcr
      have hFl' : ∀ (v' : Nat) (p' : List Nat), (v' ≠ v ∨ ¬ bits <+: p') →
          lookupNode s1.nodes (v', p') = lookupNode s.nodes (v', p') := by
        intro v' p' hvp
        refine hFl v' p' ?_
        rcases hvp with hv | hp
        · exact Or.inl hv
        · exact Or.inr (fun hpre => hp ((prefix_extendOneBit bits true).trans hpre))
      have hFr' : ∀ (v' : Nat) (p' : List Nat), (v' ≠ v ∨ ¬ bits <+: p') →
          lookupNode s2.nodes (v', p') = lookupNode s1.nodes (v', p') := by
        intro v' p' hvp
        refine hFr v' p' ?_
        rcases hvp with hv | hp
        · exact Or.inl hv
        · exact Or.inr (fun hpre => hp ((prefix_extendOneBit bits false).trans hpre))
      have hsave : ∀ (n : Node) (v' : Nat) (p' : List Nat), (v' ≠ v ∨ ¬ bits <+: p') →
          lookupNode (saveNode s2 v bits n).nodes (v', p') = lookupNode s.nodes (v', p') := by
        intro n v' p' hvp
        rw [saveNode_nodes, lookup_insert_preserve _ _ _ _ _ _ (by
          intro he; injection he with he1 he2
          rcases hvp with hv | hp
          · exact hv he1.symm
          · exact hp (he2 ▸ List.prefix_rfl))]
        rw [hFr' v' p' hvp, hFl' v' p' hvp]
      rcases hOl with ⟨hlo, hs1, hbl1, hll1⟩ | ⟨ln, hlo, hlk, hlsh, hllf⟩
      · rcases hOr with ⟨hro, hs2, hbl2, hll2⟩ | ⟨rn, hro, hrk, hrsh, hrlf⟩
        · -- both sides empty: contradicts the item count
          exfalso
          have hb : batch = [] := by
            have hsplit := List.takeWhile_append_dropWhile
              (fun p => bit_at_index p.1 bits.length == 0) batch
            rw [show batch.takeWhile (fun p => bit_at_index p.1 bits.length == 0) = []
                from hbl1,
              show batch.dropWhile (fun p => bit_at_index p.1 bits.length == 0) = []
                from hbl2] at hsplit
            simpa using hsplit.symm
          have hlf : leaf = none := by
            have h1 := partition_leaf_left_none leaf bits hll1
            rw [hll2] at h1
            exact h1.symm
          rw [hb, hlf] at hcount
          simp at hcount
        · -- left empty, right built: the right subtree holds every item
          subst hlo hro hs1
          simp only [into_child] at h
          obtain ⟨rfl, rfl⟩ := Prod.mk.inj (Option.some.inj h)
          have hbatch : (partition_batch batch bits).2 = batch :=
            dropWhile_eq_of_takeWhile_nil _ batch hbl1
          have hleaf : (partition_leaf leaf bits).2 = leaf :=
            partition_leaf_left_none leaf bits hll1
          rw [hbatch, hleaf] at hrlf
          have hrleaf : rn.is_leaf = false := hrlf hcount
          have hbuild := built_internal_shape fuel s2 v bits none (some ⟨v, rn.hash⟩)
            (by simp)
            (by intro c hc; cases hc)
            (by
              intro c hc
              injection hc with hc
              subst hc
              exact ⟨le_refl v, rn, hrk, by simp [hrleaf], hrsh⟩)
          refine ⟨fun v' p' hvp => hsave _ v' p' hvp, Or.inr ⟨_, rfl, hbuild.1, hbuild.2,
            fun _ => by simp [Node.is_leaf]⟩⟩
      · rcases hOr with ⟨hro, hs2, hbl2, hll2⟩ | ⟨rn, hro, hrk, hrsh, hrlf⟩
        · -- right empty, left built: the left subtree holds every item
          subst hlo hro hs2
          simp only [into_child] at h
          obtain ⟨rfl, rfl⟩ := Prod.mk.inj (Option.some.inj h)
          have hbatch : (partition_batch batch bits).1 = batch :=
            takeWhile_eq_of_dropWhile_nil _ batch hbl2
          have hleaf : (partition_leaf leaf bits).1 = leaf :=
            partition_leaf_right_none leaf bits hll2
          rw [hbatch, hleaf] at hllf
          have hlleaf : ln.is_leaf = false := hllf hcount
          have hbuild := built_internal_shape fuel s2 v bits (some ⟨v, ln.hash⟩) none
            (by simp)
            (by
              intro c hc
              injection hc with hc
              subst hc
              exact ⟨le_refl v, ln, hlk, by simp [hlleaf], hlsh⟩)
            (by intro c hc; cases hc)
          refine ⟨fun v' p' hvp => hsave _ v' p' hvp, Or.inr ⟨_, rfl, hbuild.1, hbuild.2,
            fun _ => by simp [Node.is_leaf]⟩⟩
        · -- both sides built
          subst hlo hro
          simp only [into_child] at h
          obtain ⟨rfl, rfl⟩ := Prod.mk.inj (Option.some.inj h)
          have hlk2 : lookupNode s2.nodes (v, extendOneBit bits true) = some ln := by
            rw [hFr v (extendOneBit bits true)
              (Or.inr (extendOneBit_prefix_excl bits _ true List.prefix_rfl))]
            exact hlk
          have hlsh2 : nodeShape fuel s2.nodes v (extendOneBit bits true) ln = true := by
            refine nodeShape_agree_path fuel s1.nodes s2.nodes v _ ln ?_ hlsh
            intro v' p' hpre _
            exact hFr v' p' (Or.inr (extendOneBit_prefix_excl bits p' true hpre))
          have hbuild := built_internal_shape fuel s2 v bits
            (some ⟨v, ln.hash⟩) (some ⟨v, rn.hash⟩)
            (by simp)
            (by
              intro c hc
              injection hc with hc
              subst hc
              exact ⟨le_refl v, ln, hlk2, by simp, hlsh2⟩)
            (by
              intro c hc
              injection hc with hc
              subst hc
              exact ⟨le_refl v, rn, hrk, by simp, hrsh⟩)
          refine ⟨fun v' p' hvp => hsave _ v' p' hvp, Or.inr ⟨_, rfl, hbuild.1, hbuild.2,
            fun _ => by simp [Node.is_leaf]⟩⟩

theorem create_subtree_spec :
    ∀ (fuel : Nat) (s : TreeStore) (v : Nat) (bits : List Nat)
      (batch : List (Hash256 × Hash256)) (leaf : Option LeafNode)
      (s' : TreeStore) (out : Outcome),
      create_subtree fuel s v bits batch leaf = some (s', out) →
      (∀ (v' : Nat) (p' : List Nat), (v' ≠ v ∨ ¬ bits <+: p') →
        lookupNode s'.nodes (v', p') = lookupNode s.nodes (v', p')) ∧
      ((out = .unchanged none ∧ s' = s ∧ batch = [] ∧ leaf = none) ∨
       (∃ n, out = .updated n ∧ lookupNode s'.nodes (v, bits) = some n ∧
         nodeShape fuel s'.nodes v bits n = true ∧
         (2 ≤ batch.length + (if leaf.isSome then 1 else 0) → n.is_leaf = false))) := by
  intro fuel
  induction fuel with
  | zero => intro s v bits batch leaf s' out h; simp [create_subtree] at h
  | succ fuel ih =>
    intro s v bits batch leaf s' out h
    have hframe : ∀ (n : Node) (v' : Nat) (p' : List Nat), (v' ≠ v ∨ ¬ bits <+: p') →
        lookupNode (saveNode s v bits n).nodes (v', p') = lookupNode s.nodes (v', p') := by
      intro n v' p' hvp
      rw [saveNode_nodes, lookup_insert_preserve _ _ _ _ _ _ (by
        intro he; injection he with he1 he2
        rcases hvp with hv | hp
        · exact hv he1.symm
        · exact hp (he2 ▸ List.prefix_rfl))]
    rcases batch with _ | ⟨p, rest⟩
    · rcases leaf with _ | l
      · simp only [create_subtree] at h
        obtain ⟨rfl, rfl⟩ := Prod.mk.inj (Option.some.inj h)
        exact ⟨fun _ _ _ => rfl, Or.inl ⟨rfl, rfl, rfl, rfl⟩⟩
      · simp only [create_subtree] at h
        obtain ⟨rfl, rfl⟩ := Prod.mk.inj (Option.some.inj h)
        refine ⟨hframe _, Or.inr ⟨Node.leaf l, rfl, ?_, nodeShape_leaf _ _ _ _ _, ?_⟩⟩
        · rw [saveNode_nodes, lookupNode_insertEntry]
          simp
        · intro hc
          simp at hc
    · obtain ⟨kh, vh⟩ := p
      rcases rest with _ | ⟨q, rest2⟩
      · rcases leaf with _ | l
        · simp only [create_subtree] at h
          obtain ⟨rfl, rfl⟩ := Prod.mk.inj (Option.some.inj h)
          refine ⟨hframe _, Or.inr ⟨Node.leaf ⟨kh, vh⟩, rfl, ?_, nodeShape_leaf _ _ _ _ _, ?_⟩⟩
          · rw [saveNode_nodes, lookupNode_insertEntry]
            simp
          · intro hc
            simp at hc
        · simp only [create_subtree] at h
          exact create_split_core fuel ih s v bits [(kh, vh)] (some l) s' out (by simp) h
      · simp only [create_subtree] at h
        exact create_split_core fuel ih s v bits ((kh, vh) :: q :: rest2) leaf s' out
          (by cases leaf <;> simp <;> omega) h

/-! ### apply_at_leaf meets the step contract -/

theorem apply_at_leaf_spec (fuel : Nat) (s : TreeStore) (nv : Nat) (bits : List Nat)
    (l : LeafNode) (batch : List (Hash256 × Op Hash256)) (s' : TreeStore) (out : Outcome)
    (h : apply_at_leaf fuel s nv bits l batch = some (s', out)) :
    AtConc s s' nv bits out (some (Node.leaf l)) (fuel + 1) := by
  unfold AtConc
  simp only [apply_at_leaf] at h
  cases hr1 : (prepare_batch_for_subtree batch (some l)).1 with
  | nil =>
    cases hr2 : (prepare_batch_for_subtree batch (some l)).2 with
    | none =>
      simp only [hr1, hr2] at h
      obtain ⟨rfl, rfl⟩ := Prod.mk.inj (Option.some.inj h)
      refine ⟨fun _ _ _ => rfl, fun o ho => ⟨rfl, (Outcome.unchanged.inj ho).symm⟩,
        fun n hn => ?_, fun hd => ?_⟩
      · cases hn
      · cases hd
    | some op =>
      cases op with
      | insert vh =>
        simp only [hr1, hr2] at h
        by_cases hv : vh = l.value_hash
        · rw [if_pos hv] at h
          obtain ⟨rfl, rfl⟩ := Prod.mk.inj (Option.some.inj h)
          refine ⟨fun _ _ _ => rfl, fun o ho => ⟨rfl, (Outcome.unchanged.inj ho).symm⟩,
            fun n hn => ?_, fun hd => ?_⟩
          · cases hn
          · cases hd
        · rw [if_neg hv] at h
          obtain ⟨rfl, rfl⟩ := Prod.mk.inj (Option.some.inj h)
          refine ⟨fun _ _ _ => rfl, fun o ho => ?_, fun n hn => ?_, fun hd => ?_⟩
          · cases ho
          · obtain rfl := Outcome.updated.inj hn
            exact nodeShape_leaf fuel _ _ _ _
          · cases hd
      | delete =>
        simp only [hr1, hr2] at h
        obtain ⟨rfl, rfl⟩ := Prod.mk.inj (Option.some.inj h)
        refine ⟨fun _ _ _ => rfl, fun o ho => ?_, fun n hn => ?_, fun _ => rfl⟩
        · cases ho
        · cases hn
  | cons x xs =>
    have hcreate : ∀ (leafArg : Option LeafNode),
        create_subtree fuel s nv bits (x :: xs) leafArg = some (s', out) →
        (∀ (v' : Nat) (p' : List Nat), (v' ≠ nv ∨ ¬ bits <+: p') →
          lookupNode s'.nodes (v', p') = lookupNode s.nodes (v', p')) ∧
        (∀ o, out = .unchanged o → s'.nodes = s.nodes ∧ o = some (Node.leaf l)) ∧
        (∀ n, out = .updated n → nodeShape (fuel + 1) s'.nodes nv bits n = true) ∧
        (out = .deleted →
          lookupNode s'.nodes (nv, bits) = lookupNode s.nodes (nv, bits)) := by
      intro leafArg hcr
      obtain ⟨hF, hO⟩ := create_subtree_spec fuel s nv bits (x :: xs) leafArg s' out hcr
      rcases hO with ⟨_, _, hbn, _⟩ | ⟨n, rfl, hlk, hsh, _⟩
      · cases hbn
      · refine ⟨hF, fun o ho => ?_, fun n2 hn2 => ?_, fun hd => ?_⟩
        · cases ho
        · obtain rfl := Outcome.updated.inj hn2
          exact nodeShape_mono fuel (fuel + 1) (by omega) _ _ _ _ hsh
        · cases hd
    cases hr2 : (prepare_batch_for_subtree batch (some l)).2 with
    | none =>
      simp only [hr1, hr2] at h
      exact hcreate (some l) h
    | some op =>
      cases op with
      | insert vh =>
        simp only [hr1, hr2] at h
        exact hcreate (some { l with value_hash := vh }) h
      | delete =>
        simp only [hr1, hr2] at h
        exact hcreate none h

/-! ### apply_at_internal meets the step contract -/

theorem apply_at_internal_step (fuel : Nat)
    (ihC : ∀ (s : TreeStore) (nv : Nat) (bits : List Nat) (il : Bool) (child : Option Child)
      (batch : List (Hash256 × Op Hash256)) (s' : TreeStore) (out : Outcome) (g : Nat),
      apply_at_child fuel s nv bits il child batch = some (s', out) →
      (∀ c, child = some c → c.version < nv ∧ ∃ m,
        lookupNode s.nodes (c.version, extendOneBit bits il) = some m ∧
        nodeShape g s.nodes c.version (extendOneBit bits il) m = true) →
      ChildConc s s' nv bits il child out (g + fuel))
    (s : TreeStore) (nv ov : Nat) (bits : List Nat) (i : InternalNode)
    (batch : List (Hash256 × Op Hash256)) (s' : TreeStore) (out : Outcome) (g : Nat)
    (h : apply_at_internal (fuel + 1) s nv bits i batch = some (s', out))
    (hns : nodeShape (g + 1) s.nodes ov bits (.internal i) = true) (hov : ov < nv) :
    AtConc s s' nv bits out (some (.internal i)) (g + 1 + (fuel + 1)) := by
  simp only [apply_at_internal, partition_batch] at h
  rw [nodeShape_internal_iff] at hns
  obtain ⟨hone, hLsh, hRsh⟩ := hns
  have hchL : ∀ c, i.left_child = some c → c.version < nv ∧ ∃ m,
      lookupNode s.nodes (c.version, extendOneBit bits true) = some m ∧
      nodeShape g s.nodes c.version (extendOneBit bits true) m = true := by
    intro c hc
    obtain ⟨hv, m, hm, _, hsh⟩ := hLsh c hc
    exact ⟨by omega, m, hm, hsh⟩
  cases hcl : apply_at_child fuel s nv bits true i.left_child
      (batch.takeWhile (fun p => bit_at_index p.1 bits.length == 0)) with
  | none => simp [hcl] at h
  | some pr =>
    obtain ⟨s1, lo⟩ := pr
    simp only [hcl] at h
    have hCl := ihC s nv bits true i.left_child _ s1 lo g hcl hchL
    obtain ⟨hFl, hUl, hSl, hDl⟩ := hCl
    have hchR : ∀ c, i.right_child = some c → c.version < nv ∧ ∃ m,
        lookupNode s1.nodes (c.version, extendOneBit bits false) = some m ∧
        nodeShape g s1.nodes c.version (extendOneBit bits false) m = true := by
      intro c hc
      obtain ⟨hv, m, hm, _, hsh⟩ := hRsh c hc
      refine ⟨by omega, m, ?_, ?_⟩
      · rw [hFl c.version _ (Or.inl (by omega))]
        exact hm
      · refine nodeShape_agree_version g s.nodes s1.nodes c.version _ m ?_ hsh
        intro v' p' hle
        exact hFl v' p' (Or.inl (by omega))
    cases hcr2 : apply_at_child fuel s1 nv bits false i.right_child
        (batch.dropWhile (fun p => bit_at_index p.1 bits.length == 0)) with
    | none => simp [hcr2] at h
    | some pr2 =>
      obtain ⟨s2, ro⟩ := pr2
      simp only [hcr2] at h
      have hCr := ihC s1 nv bits false i.right_child _ s2 ro g hcr2 hchR
      obtain ⟨hFr, hUr, hSr, hDr⟩ := hCr
      have hFF : ∀ (v' : Nat) (p' : List Nat), (v' ≠ nv ∨ ¬ bits <+: p') →
          lookupNode s2.nodes (v', p') = lookupNode s.nodes (v', p') := by
        intro v' p' hvp
        have hcond : ∀ il : Bool, (v' ≠ nv ∨ ¬ extendOneBit bits il <+: p') := by
          intro il
          rcases hvp with hv | hp
          · exact Or.inl hv
          · exact Or.inr (fun hpre => hp ((prefix_extendOneBit bits il).trans hpre))
        rw [hFr v' p' (hcond false), hFl v' p' (hcond true)]
      have hNN : lookupNode s2.nodes (nv, bits) = lookupNode s.nodes (nv, bits) := by
        rw [hFr nv bits (Or.inr (not_prefix_extendOneBit_self bits false)),
          hFl nv bits (Or.inr (not_prefix_extendOneBit_self bits true))]
      have hconc_deleted : AtConc s s2 nv bits .deleted (some (.internal i))
          (g + 1 + (fuel + 1)) := by
        refine ⟨hFF, fun o ho => ?_, fun n hn => ?_, fun _ => hNN⟩
        · cases ho
        · cases hn
      have hconc_updated : ∀ n, nodeShape (g + fuel + 1 + 1) s2.nodes nv bits n = true →
          AtConc s s2 nv bits (.updated n) (some (.internal i)) (g + 1 + (fuel + 1)) := by
        intro n hsh
        refine ⟨hFF, fun o ho => ?_, fun n2 hn2 => ?_, fun hd => ?_⟩
        · cases ho
        · obtain rfl := Outcome.updated.inj hn2
          exact nodeShape_mono _ _ (by omega) _ _ _ _ hsh
        · cases hd
      -- transfers of a freshly written left subtree across the right call
      have hlkL : ∀ n1, lo = .updated n1 →
          lookupNode s2.nodes (nv, extendOneBit bits true) = some n1 := by
        intro n1 h1
        rw [hFr nv _ (Or.inr (extendOneBit_prefix_excl bits _ true List.prefix_rfl))]
        exact (hSl n1 h1).1
      have hshL2 : ∀ n1, lo = .updated n1 →
          nodeShape (g + fuel) s2.nodes nv (extendOneBit bits true) n1 = true := by
        intro n1 h1
        refine nodeShape_agree_path _ s1.nodes s2.nodes nv _ n1 ?_ (hSl n1 h1).2
        intro v' p' hpre _
        exact hFr v' p' (Or.inr (extendOneBit_prefix_excl bits p' true hpre))
      -- kept old left child across both calls
      have hkeepL : ∀ c, i.left_child = some c → s1.nodes = s.nodes →
          lookupNode s2.nodes (c.version, extendOneBit bits true) =
            lookupNode s.nodes (c.version, extendOneBit bits true) ∧
          (∀ m, nodeShape g s.nodes c.version (extendOneBit bits true) m = true →
            nodeShape g s2.nodes c.version (extendOneBit bits true) m = true) := by
        intro c hc h1s
        have hlt : c.version < nv := (hchL c hc).1
        constructor
        · rw [hFr c.version _ (Or.inl (by omega)), h1s]
        · intro m hm
          refine nodeShape_agree_version g s.nodes s2.nodes c.version _ m ?_ hm
          intro v' p' hle
          rw [hFr v' p' (Or.inl (by omega)), h1s]
      rcases lo with o1 | n1 | _
      · -- left Unchanged
        obtain ⟨h1nodes, h1o⟩ := hUl o1 rfl
        rcases ro with o2 | n2 | _
        · -- both Unchanged
          obtain ⟨h2nodes, h2o⟩ := hUr o2 rfl
          rcases o1 with _ | lm
          · rcases o2 with _ | rm
            · -- unchanged none / unchanged none → Deleted
              obtain ⟨rfl, rfl⟩ := Prod.mk.inj (Option.some.inj h)
              exact hconc_deleted
            · -- unchanged none / unchanged (some rm) → Unchanged internal
              obtain ⟨rfl, rfl⟩ := Prod.mk.inj (Option.some.inj h)
              refine ⟨hFF, fun o ho => ?_, fun n hn => ?_, fun hd => ?_⟩
              · rw [h2nodes, h1nodes]
                exact ⟨rfl, (Outcome.unchanged.inj ho).symm⟩
              · cases hn
              · cases hd
          · rcases o2 with _ | rm
            · -- unchanged (some lm) / unchanged none → Unchanged internal
              obtain ⟨rfl, rfl⟩ := Prod.mk.inj (Option.some.inj h)
              refine ⟨hFF, fun o ho => ?_, fun n hn => ?_, fun hd => ?_⟩
              · rw [h2nodes, h1nodes]
                exact ⟨rfl, (Outcome.unchanged.inj ho).symm⟩
              · cases hn
              · cases hd
            · -- unchanged (some lm) / unchanged (some rm) → Unchanged internal
              obtain ⟨rfl, rfl⟩ := Prod.mk.inj (Option.some.inj h)
              refine ⟨hFF, fun o ho => ?_, fun n hn => ?_, fun hd => ?_⟩
              · rw [h2nodes, h1nodes]
                exact ⟨rfl, (Outcome.unchanged.inj ho).symm⟩
              · cases hn
              · cases hd
        · -- left Unchanged / right Updated n2
          rcases o1 with _ | lm
          · -- unchanged none / updated n2: collapse check on n2
            rcases h1o with ⟨hlnone, _⟩ | ⟨c, m, hc, _, hnone⟩
            swap
            · cases hnone
            have h2 : (if n2.is_leaf = true then some (s2, Outcome.updated n2)
                else some (s2, combineDefault nv i (Outcome.unchanged none)
                  (Outcome.updated n2))) = some (s', out) := h
            by_cases hleaf : n2.is_leaf = true
            · rw [if_pos hleaf] at h2
              obtain ⟨rfl, rfl⟩ := Prod.mk.inj (Option.some.inj h2)
              refine hconc_updated n2 ?_
              cases n2 with
              | leaf l2 => exact nodeShape_leaf _ _ _ _ _
              | internal i2 => simp [Node.is_leaf] at hleaf
            · rw [if_neg hleaf] at h2
              obtain ⟨rfl, rfl⟩ := Prod.mk.inj (Option.some.inj h2)
              refine hconc_updated _ ?_
              simp only [combineDefault]
              rw [show g + fuel + 1 + 1 = (g + fuel + 1) + 1 from rfl,
                nodeShape_internal_iff]
              refine ⟨by simp [hlnone], ?_, ?_⟩
              · intro c hc
                rw [hlnone] at hc
                cases hc
              · intro c hc
                injection hc with hc
                subst hc
                refine ⟨le_refl nv, n2, (hSr n2 rfl).1, ?_, ?_⟩
                · simp [hlnone, Bool.not_eq_true, hleaf]
                · exact nodeShape_mono _ _ (by omega) _ _ _ _ (hSr n2 rfl).2
          · -- unchanged (some lm) / updated n2 → combineDefault keeps old left child
            rcases h1o with ⟨_, hnone⟩ | ⟨c, m, hc, hmlk, hmeq⟩
            · cases hnone
            obtain rfl : m = lm := (Option.some.inj hmeq).symm
            obtain ⟨rfl, rfl⟩ := Prod.mk.inj (Option.some.inj h)
            refine hconc_updated _ ?_
            simp only [combineDefault]
            rw [show g + fuel + 1 + 1 = (g + fuel + 1) + 1 from rfl,
              nodeShape_internal_iff]
            refine ⟨by simp [hc], ?_, ?_⟩
            · intro c2 hc2
              rw [hc] at hc2
              injection hc2 with hc2
              subst hc2
              obtain ⟨hkl, hks⟩ := hkeepL c hc h1nodes
              obtain ⟨hv2, m2, hm2, _, hsh2⟩ := hLsh c hc
              refine ⟨by omega, m2, ?_, by simp, ?_⟩
              · rw [hkl]
                exact hm2
              · exact nodeShape_mono g _ (by omega) _ _ _ _ (hks m2 hsh2)
            · intro c2 hc2
              injection hc2 with hc2
              subst hc2
              refine ⟨le_refl nv, n2, (hSr n2 rfl).1, by simp [hc], ?_⟩
              exact nodeShape_mono _ _ (by omega) _ _ _ _ (hSr n2 rfl).2
        · -- left Unchanged / right Deleted
          rcases o1 with _ | lm
          · -- unchanged none / deleted → Deleted
            obtain ⟨rfl, rfl⟩ := Prod.mk.inj (Option.some.inj h)
            exact hconc_deleted
          · -- unchanged (some lm) / deleted: collapse check on lm
            rcases h1o with ⟨_, hnone⟩ | ⟨c, m, hc, hmlk, hmeq⟩
            · cases hnone
            obtain rfl : m = lm := (Option.some.inj hmeq).symm
            have h2 : (if m.is_leaf = true then some (s2, Outcome.updated m)
                else some (s2, combineDefault nv i (Outcome.unchanged (some m))
                  Outcome.deleted)) = some (s', out) := h
            by_cases hleaf : m.is_leaf = true
            · rw [if_pos hleaf] at h2
              obtain ⟨rfl, rfl⟩ := Prod.mk.inj (Option.some.inj h2)
              refine hconc_updated m ?_
              cases m with
              | leaf l2 => exact nodeShape_leaf _ _ _ _ _
              | internal i2 => simp [Node.is_leaf] at hleaf
            · rw [if_neg hleaf] at h2
              obtain ⟨rfl, rfl⟩ := Prod.mk.inj (Option.some.inj h2)
              refine hconc_updated _ ?_
              simp only [combineDefault]
              rw [show g + fuel + 1 + 1 = (g + fuel + 1) + 1 from rfl,
                nodeShape_internal_iff]
              refine ⟨by simp [hc], ?_, ?_⟩
              · intro c2 hc2
                rw [hc] at hc2
                injection hc2 with hc2
                subst hc2
                obtain ⟨hkl, hks⟩ := hkeepL c hc h1nodes
                obtain ⟨hv2, m2, hm2, _, hsh2⟩ := hLsh c hc
                have hmm : m = m2 := Option.some.inj (hmlk.symm.trans hm2)
                refine ⟨by omega, m2, ?_, ?_, ?_⟩
                · rw [hkl]
                  exact hm2
                · rw [← hmm]
                  simp only [Bool.not_eq_true] at hleaf
                  simp [hleaf]
                · exact nodeShape_mono g _ (by omega) _ _ _ _ (hks m2 hsh2)
              · intro c2 hc2
                cases hc2
      · -- left Updated n1
        rcases ro with o2 | n2 | _
        · -- updated n1 / unchanged o2
          obtain ⟨h2nodes, h2o⟩ := hUr o2 rfl
          rcases o2 with _ | rm
          · -- updated n1 / unchanged none: collapse check on n1
            rcases h2o with ⟨hrnone, _⟩ | ⟨c, m, hc, _, hnone⟩
            swap
            · cases hnone
            have h2 : (if n1.is_leaf = true then some (s2, Outcome.updated n1)
                else some (s2, combineDefault nv i (Outcome.updated n1)
                  (Outcome.unchanged none))) = some (s', out) := h
            by_cases hleaf : n1.is_leaf = true
            · rw [if_pos hleaf] at h2
              obtain ⟨rfl, rfl⟩ := Prod.mk.inj (Option.some.inj h2)
              refine hconc_updated n1 ?_
              cases n1 with
              | leaf l2 => exact nodeShape_leaf _ _ _ _ _
              | internal i2 => simp [Node.is_leaf] at hleaf
            · rw [if_neg hleaf] at h2
              obtain ⟨rfl, rfl⟩ := Prod.mk.inj (Option.some.inj h2)
              refine hconc_updated _ ?_
              simp only [combineDefault]
              rw [show g + fuel + 1 + 1 = (g + fuel + 1) + 1 from rfl,
                nodeShape_internal_iff]
              refine ⟨by simp, ?_, ?_⟩
              · intro c2 hc2
                injection hc2 with hc2
                subst hc2
                refine ⟨le_refl nv, n1, hlkL n1 rfl, ?_, ?_⟩
                · simp [hrnone, Bool.not_eq_true, hleaf]
                · exact nodeShape_mono _ _ (by omega) _ _ _ _ (hshL2 n1 rfl)
              · intro c2 hc2
                rw [hrnone] at hc2
                cases hc2
          · -- updated n1 / unchanged (some rm) → two children
            rcases h2o with ⟨_, hnone⟩ | ⟨c, m, hc, hmlk, hmeq⟩
            · cases hnone
            obtain rfl : m = rm := (Option.some.inj hmeq).symm
            obtain ⟨rfl, rfl⟩ := Prod.mk.inj (Option.some.inj h)
            refine hconc_updated _ ?_
            simp only [combineDefault]
            rw [show g + fuel + 1 + 1 = (g + fuel + 1) + 1 from rfl,
              nodeShape_internal_iff]
            refine ⟨by simp, ?_, ?_⟩
            · intro c2 hc2
              injection hc2 with hc2
              subst hc2
              refine ⟨le_refl nv, n1, hlkL n1 rfl, by simp [hc], ?_⟩
              exact nodeShape_mono _ _ (by omega) _ _ _ _ (hshL2 n1 rfl)
            · intro c2 hc2
              rw [hc] at hc2
              injection hc2 with hc2
              subst hc2
              obtain ⟨hv2, m2, hm2, hsh2⟩ := hchR c hc
              refine ⟨by omega, m2, ?_, by simp, ?_⟩
              · rw [h2nodes]
                exact hm2
              · refine nodeShape_mono g _ (by omega) _ _ _ _ ?_
                refine nodeShape_agree_version g s1.nodes s2.nodes c.version _ m2 ?_ hsh2
                intro v' p' hle
                rw [h2nodes]
        · -- updated n1 / updated n2 → two fresh children
          obtain ⟨rfl, rfl⟩ := Prod.mk.inj (Option.some.inj h)
          refine hconc_updated _ ?_
          simp only [combineDefault]
          rw [show g + fuel + 1 + 1 = (g + fuel + 1) + 1 from rfl,
            nodeShape_internal_iff]
          refine ⟨by simp, ?_, ?_⟩
          · intro c2 hc2
            injection hc2 with hc2
            subst hc2
            refine ⟨le_refl nv, n1, hlkL n1 rfl, by simp, ?_⟩
            exact nodeShape_mono _ _ (by omega) _ _ _ _ (hshL2 n1 rfl)
          · intro c2 hc2
            injection hc2 with hc2
            subst hc2
            refine ⟨le_refl nv, n2, (hSr n2 rfl).1, by simp, ?_⟩
            exact nodeShape_mono _ _ (by omega) _ _ _ _ (hSr n2 rfl).2
        · -- updated n1 / deleted: collapse check on n1
          have h2 : (if n1.is_leaf = true then some (s2, Outcome.updated n1)
              else some (s2, combineDefault nv i (Outcome.updated n1)
                Outcome.deleted)) = some (s', out) := h
          by_cases hleaf : n1.is_leaf = true
          · rw [if_pos hleaf] at h2
            obtain ⟨rfl, rfl⟩ := Prod.mk.inj (Option.some.inj h2)
            refine hconc_updated n1 ?_
            cases n1 with
            | leaf l2 => exact nodeShape_leaf _ _ _ _ _
            | internal i2 => simp [Node.is_leaf] at hleaf
          · rw [if_neg hleaf] at h2
            obtain ⟨rfl, rfl⟩ := Prod.mk.inj (Option.some.inj h2)
            refine hconc_updated _ ?_
            simp only [combineDefault]
            rw [show g + fuel + 1 + 1 = (g + fuel + 1) + 1 from rfl,
              nodeShape_internal_iff]
            refine ⟨by simp, ?_, ?_⟩
            · intro c2 hc2
              injection hc2 with hc2
              subst hc2
              refine ⟨le_refl nv, n1, hlkL n1 rfl, ?_, ?_⟩
              · simp [Bool.not_eq_true, hleaf]
              · exact nodeShape_mono _ _ (by omega) _ _ _ _ (hshL2 n1 rfl)
            · intro c2 hc2
              cases hc2
      · -- left Deleted
        rcases ro with o2 | n2 | _
        · -- deleted / unchanged o2
          obtain ⟨h2nodes, h2o⟩ := hUr o2 rfl
          rcases o2 with _ | rm
          · -- deleted / unchanged none → Deleted
            obtain ⟨rfl, rfl⟩ := Prod.mk.inj (Option.some.inj h)
            exact hconc_deleted
          · -- deleted / unchanged (some rm): collapse check on rm
            rcases h2o with ⟨_, hnone⟩ | ⟨c, m, hc, hmlk, hmeq⟩
            · cases hnone
            obtain rfl : m = rm := (Option.some.inj hmeq).symm
            have h2 : (if m.is_leaf = true then some (s2, Outcome.updated m)
                else some (s2, combineDefault nv i Outcome.deleted
                  (Outcome.unchanged (some m)))) = some (s', out) := h
            by_cases hleaf : m.is_leaf = true
            · rw [if_pos hleaf] at h2
              obtain ⟨rfl, rfl⟩ := Prod.mk.inj (Option.some.inj h2)
              refine hconc_updated m ?_
              cases m with
              | leaf l2 => exact nodeShape_leaf _ _ _ _ _
              | internal i2 => simp [Node.is_leaf] at hleaf
            · rw [if_neg hleaf] at h2
              obtain ⟨rfl, rfl⟩ := Prod.mk.inj (Option.some.inj h2)
              refine hconc_updated _ ?_
              simp only [combineDefault]
              rw [show g + fuel + 1 + 1 = (g + fuel + 1) + 1 from rfl,
                nodeShape_internal_iff]
              refine ⟨by simp [hc], ?_, ?_⟩
              · intro c2 hc2
                cases hc2
              · intro c2 hc2
                rw [hc] at hc2
                injection hc2 with hc2
                subst hc2
                obtain ⟨hv2, m2, hm2, hsh2⟩ := hchR c hc
                have hmm : m = m2 := Option.some.inj (hmlk.symm.trans hm2)
                refine ⟨by omega, m2, ?_, ?_, ?_⟩
                · rw [h2nodes]
                  exact hm2
                · rw [← hmm]
                  simp only [Bool.not_eq_true] at hleaf
                  simp [hleaf]
                · refine nodeShape_mono g _ (by omega) _ _ _ _ ?_
                  refine nodeShape_agree_version g s1.nodes s2.nodes c.version _ m2 ?_ hsh2
                  intro v' p' hle
                  rw [h2nodes]
        · -- deleted / updated n2: collapse check on n2
          have h2 : (if n2.is_leaf = true then some (s2, Outcome.updated n2)
              else some (s2, combineDefault nv i Outcome.deleted
                (Outcome.updated n2))) = some (s', out) := h
          by_cases hleaf : n2.is_leaf = true
          · rw [if_pos hleaf] at h2
            obtain ⟨rfl, rfl⟩ := Prod.mk.inj (Option.some.inj h2)
            refine hconc_updated n2 ?_
            cases n2 with
            | leaf l2 => exact nodeShape_leaf _ _ _ _ _
            | internal i2 => simp [Node.is_leaf] at hleaf
          · rw [if_neg hleaf] at h2
            obtain ⟨rfl, rfl⟩ := Prod.mk.inj (Option.some.inj h2)
            refine hconc_updated _ ?_
            simp only [combineDefault]
            rw [show g + fuel + 1 + 1 = (g + fuel + 1) + 1 from rfl,
              nodeShape_internal_iff]
            refine ⟨by simp, ?_, ?_⟩
            · intro c2 hc2
              cases hc2
            · intro c2 hc2
              injection hc2 with hc2
              subst hc2
              refine ⟨le_refl nv, n2, (hSr n2 rfl).1, ?_, ?_⟩
              · simp [Bool.not_eq_true, hleaf]
              · exact nodeShape_mono _ _ (by omega) _ _ _ _ (hSr n2 rfl).2
        · -- deleted / deleted → Deleted
          obtain ⟨rfl, rfl⟩ := Prod.mk.inj (Option.some.inj h)
          exact hconc_deleted

/-! ### The apply engine preserves the shape invariant -/

theorem apply_engine_spec :
    ∀ (fuel : Nat),
      (∀ (s : TreeStore) (nv ov : Nat) (bits : List Nat)
        (batch : List (Hash256 × Op Hash256)) (s' : TreeStore) (out : Outcome) (g : Nat),
        apply_at fuel s nv ov bits batch = some (s', out) →
        subtreeWF g s.nodes ov bits = true → ov < nv →
        AtConc s s' nv bits out (lookupNode s.nodes (ov, bits)) (g + fuel)) ∧
      (∀ (s : TreeStore) (nv ov : Nat) (bits : List Nat) (i : InternalNode)
        (batch : List (Hash256 × Op Hash256)) (s' : TreeStore) (out : Outcome) (g : Nat),
        apply_at_internal fuel s nv bits i batch = some (s', out) →
        nodeShape (g + 1) s.nodes ov bits (.internal i) = true → ov < nv →
        AtConc s s' nv bits out (some (.internal i)) (g + 1 + fuel)) ∧
      (∀ (s : TreeStore) (nv : Nat) (bits : List Nat) (il : Bool) (child : Option Child)
        (batch : List (Hash256 × Op Hash256)) (s' : TreeStore) (out : Outcome) (g : Nat),
        apply_at_child fuel s nv bits il child batch = some (s', out) →
        (∀ c, child = some c → c.version < nv ∧ ∃ m,
          lookupNode s.nodes (c.version, extendOneBit bits il) = some m ∧
          nodeShape g s.nodes c.version (extendOneBit bits il) m = true) →
        ChildConc s s' nv bits il child out (g + fuel)) := by
  intro fuel
  induction fuel with
  | zero =>
    refine ⟨?_, ?_, ?_⟩
    · intro s nv ov bits batch s' out g h _ _
      simp [apply_at] at h
    · intro s nv ov bits i batch s' out g h _ _
      simp [apply_at_internal] at h
    · intro s nv bits il child batch s' out g h _
      simp [apply_at_child] at h
  | succ fuel ih =>
    obtain ⟨ihA, ihI, ihC⟩ := ih
    refine ⟨?_, ?_, ?_⟩
    · -- apply_at (fuel + 1)
      intro s nv ov bits batch s' out g h hwf hov
      simp only [apply_at] at h
      cases hlook : lookupNode s.nodes (ov, bits) with
      | none =>
        simp only [hlook] at h
        obtain ⟨hF, hO⟩ := create_subtree_spec fuel s nv bits _ none s' out h
        unfold AtConc
        rcases hO with ⟨rfl, rfl, _, _⟩ | ⟨n, rfl, hlk, hsh, _⟩
        · refine ⟨hF, fun o ho => ⟨rfl, (Outcome.unchanged.inj ho).symm⟩,
            fun n hn => ?_, fun hd => ?_⟩
          · cases hn
          · cases hd
        · refine ⟨hF, fun o ho => ?_, fun n2 hn2 => ?_, fun hd => ?_⟩
          · cases ho
          · obtain rfl := Outcome.updated.inj hn2
            exact nodeShape_mono fuel _ (by omega) _ _ _ _ hsh
          · cases hd
      | some node =>
        cases node with
        | leaf l =>
          simp only [hlook] at h
          obtain ⟨hF, hU, hS, hD⟩ := apply_at_leaf_spec fuel s nv bits l batch s' out h
          unfold AtConc
          exact ⟨hF, hU, fun n hn =>
            nodeShape_mono (fuel + 1) _ (by omega) _ _ _ _ (hS n hn), hD⟩
        | internal i =>
          simp only [hlook] at h
          cases g with
          | zero =>
            exfalso
            unfold subtreeWF at hwf
            rw [hlook] at hwf
            simp [nodeShape] at hwf
          | succ g0 =>
            have hns : nodeShape (g0 + 1) s.nodes ov bits (.internal i) = true := by
              unfold subtreeWF at hwf
              rw [hlook] at hwf
              exact hwf
            obtain ⟨hF, hU, hS, hD⟩ := ihI s nv ov bits i batch s' out g0 h hns hov
            unfold AtConc
            exact ⟨hF, hU, fun n hn =>
              nodeShape_mono (g0 + 1 + fuel) _ (by omega) _ _ _ _ (hS n hn), hD⟩
    · -- apply_at_internal (fuel + 1)
      intro s nv ov bits i batch s' out g h hns hov
      exact apply_at_internal_step fuel ihC s nv ov bits i batch s' out g h hns hov
    · -- apply_at_child (fuel + 1)
      intro s nv bits il child batch s' out g h hch
      cases child with
      | none =>
        cases batch with
        | nil =>
          simp only [apply_at_child, List.isEmpty_nil] at h
          obtain ⟨rfl, rfl⟩ := Prod.mk.inj (Option.some.inj h)
          unfold ChildConc
          refine ⟨fun _ _ _ => rfl,
            fun o ho => ⟨rfl, Or.inl ⟨rfl, (Outcome.unchanged.inj ho).symm⟩⟩,
            fun n hn => ?_, fun hd => ?_⟩
          · cases hn
          · cases hd
        | cons p rest =>
          simp only [apply_at_child, List.isEmpty_cons] at h
          obtain ⟨hF, hO⟩ := create_subtree_spec fuel s nv (extendOneBit bits il) _ none
            s' out h
          unfold ChildConc
          rcases hO with ⟨rfl, rfl, _, _⟩ | ⟨n, rfl, hlk, hsh, _⟩
          · refine ⟨hF,
              fun o ho => ⟨rfl, Or.inl ⟨rfl, (Outcome.unchanged.inj ho).symm⟩⟩,
              fun n hn => ?_, fun hd => ?_⟩
            · cases hn
            · cases hd
          · refine ⟨hF, fun o ho => ?_, fun n2 hn2 => ?_, fun hd => ?_⟩
            · cases ho
            · obtain rfl := Outcome.updated.inj hn2
              exact ⟨hlk, nodeShape_mono fuel _ (by omega) _ _ _ _ hsh⟩
            · cases hd
      | some c =>
        obtain ⟨hcv, m, hm, hms⟩ := hch c rfl
        cases batch with
        | nil =>
          simp only [apply_at_child, List.isEmpty_nil] at h
          simp only [hm] at h
          obtain ⟨rfl, rfl⟩ := Prod.mk.inj (Option.some.inj h)
          unfold ChildConc
          refine ⟨fun _ _ _ => rfl,
            fun o ho => ⟨rfl, Or.inr ⟨c, m, rfl, hm, (Outcome.unchanged.inj ho).symm⟩⟩,
            fun n hn => ?_, fun hd => ?_⟩
          · cases hn
          · cases hd
        | cons p rest =>
          simp only [apply_at_child, List.isEmpty_cons] at h
          cases hrec : apply_at fuel s nv c.version (extendOneBit bits il) (p :: rest) with
          | none => simp [hrec] at h
          | some pr =>
            obtain ⟨s1, out1⟩ := pr
            simp only [hrec] at h
            have hwf1 : subtreeWF g s.nodes c.version (extendOneBit bits il) = true := by
              unfold subtreeWF
              rw [hm]
              exact hms
            obtain ⟨hF, hU, hS, hD⟩ :=
              ihA s nv c.version (extendOneBit bits il) (p :: rest) s1 out1 g hrec hwf1 hcv
            rcases out1 with o1 | n1 | _
            · -- Unchanged: no save, no orphan mark
              obtain ⟨hnodes, ho1⟩ := hU o1 rfl
              obtain ⟨rfl, rfl⟩ := Prod.mk.inj (Option.some.inj h)
              unfold ChildConc
              refine ⟨fun v' p' _ => by rw [hnodes],
                fun o ho => ?_, fun n hn => ?_, fun hd => ?_⟩
              · refine ⟨hnodes, Or.inr ⟨c, m, rfl, hm, ?_⟩⟩
                obtain rfl := (Outcome.unchanged.inj ho).symm
                rw [ho1, hm]
              · cases hn
              · cases hd
            · -- Updated: save at the child path, mark old child orphaned
              obtain ⟨rfl, rfl⟩ := Prod.mk.inj (Option.some.inj h)
              unfold ChildConc
              have hnodes : (markNodeAsOrphaned
                  (saveNode s1 nv (extendOneBit bits il) n1) nv c.version
                  (extendOneBit bits il)).nodes =
                  insertEntry s1.nodes (nv, extendOneBit bits il) n1 := rfl
              refine ⟨?_, fun o ho => ?_, fun n hn => ?_, fun hd => ?_⟩
              · intro v' p' hvp
                rw [hnodes, lookup_insert_preserve _ _ _ _ _ _ ?_, hF v' p' hvp]
                intro he
                injection he with he1 he2
                rcases hvp with hv | hp
                · exact hv he1.symm
                · exact hp (he2 ▸ List.prefix_rfl)
              · cases ho
              · obtain rfl := Outcome.updated.inj hn
                constructor
                · rw [hnodes, lookupNode_insertEntry]
                  simp
                · rw [hnodes]
                  refine nodeShape_mono (g + fuel) _ (by omega) _ _ _ _ ?_
                  refine nodeShape_insert_outside _ _ _ _ _ _ _ _ ?_ (hS n1 rfl)
                  intro hcontra
                  exact hcontra.2 rfl
              · cases hd
            · -- Deleted: only the orphan mark
              obtain ⟨rfl, rfl⟩ := Prod.mk.inj (Option.some.inj h)
              unfold ChildConc
              have hnodes : (markNodeAsOrphaned s1 nv c.version
                  (extendOneBit bits il)).nodes = s1.nodes := rfl
              refine ⟨?_, fun o ho => ?_, fun n hn => ?_, fun _ => ?_⟩
              · intro v' p' hvp
                rw [hnodes]
                exact hF v' p' hvp
              · cases ho
              · cases hn
              · rw [hnodes]
                exact hD rfl

theorem lookup_none_of_all_version (w v : Nat) (hne : ¬ v = w) :
    ∀ (nodes : NodeMap), nodes.all (fun e => e.1.1 == v) = true →
      ∀ p, lookupNode nodes (w, p) = none := by
  intro nodes
  induction nodes with
  | nil => intro _ p; rfl
  | cons e rest ih =>
    intro h p
    obtain ⟨⟨ev, ep⟩, en⟩ := e
    simp only [List.all_cons, Bool.and_eq_true, beq_iff_eq] at h
    obtain ⟨hv, hrest⟩ := h
    simp only [lookupNode]
    rw [if_neg (by
      intro he
      injection he with he1 he2
      omega)]
    exact ih (by simpa [List.all_eq_true] using hrest) p

/-- One `apply` preserves the structural invariant at the new version's root,
provided nothing is stored at the new version yet. -/
theorem apply_preserves_shape (s : TreeStore) (old_version new_version : Nat)
    (batch : List (Hash256 × Op Hash256)) (s' : TreeStore) (r : Option Hash256) (g : Nat)
    (h : apply s old_version new_version batch = some (s', r))
    (hwf : subtreeWF g s.nodes old_version [] = true)
    (hov : old_version < new_version)
    (hfresh : ∀ p, lookupNode s.nodes (new_version, p) = none) :
    subtreeWF (g + applyFuel + 1) s'.nodes new_version [] = true := by
  unfold apply at h
  have main : ∀ (S : TreeStore), S.nodes = s.nodes →
      (match apply_at applyFuel S new_version old_version [] batch with
       | some (st, .updated nrn) =>
           some (saveNode st new_version [] nrn, some nrn.hash)
       | some (st, .unchanged (some nrn)) =>
           some (saveNode st new_version [] nrn, some nrn.hash)
       | some (st, .deleted) => some (st, (none : Option Hash256))
       | some (st, .unchanged none) => some (st, (none : Option Hash256))
       | none => none) = some (s', r) →
      subtreeWF (g + applyFuel + 1) s'.nodes new_version [] = true := by
    intro S hSn hm
    cases happ : apply_at applyFuel S new_version old_version [] batch with
    | none => simp [happ] at hm
    | some pr =>
      obtain ⟨s2, out⟩ := pr
      simp only [happ] at hm
      have hwfS : subtreeWF g S.nodes old_version [] = true := by rw [hSn]; exact hwf
      obtain ⟨hF, hU, hS, hD⟩ := (apply_engine_spec applyFuel).1 S new_version old_version
        [] batch s2 out g happ hwfS hov
      rcases out with o | n | _
      · obtain ⟨hnodes, ho⟩ := hU o rfl
        rcases o with _ | rn
        · obtain ⟨rfl, rfl⟩ := Prod.mk.inj (Option.some.inj hm)
          unfold subtreeWF
          rw [hnodes, hSn, hfresh []]
        · obtain ⟨rfl, rfl⟩ := Prod.mk.inj (Option.some.inj hm)
          -- the old root is re-saved at the new version
          have hrn : lookupNode s.nodes (old_version, []) = some rn := by
            rw [← hSn, ← ho]
          have hshape : nodeShape g s.nodes old_version [] rn = true := by
            unfold subtreeWF at hwf
            rw [hrn] at hwf
            exact hwf
          unfold subtreeWF
          rw [saveNode_nodes, hnodes, hSn, lookupNode_insertEntry]
          simp only [if_pos rfl]
          refine nodeShape_mono g _ (by omega) _ _ _ _ ?_
          refine nodeShape_version_le g _ old_version new_version [] rn (by omega) ?_
          refine nodeShape_insert_newversion g s.nodes old_version [] rn new_version [] rn
            (by omega) hshape
      · obtain ⟨rfl, rfl⟩ := Prod.mk.inj (Option.some.inj hm)
        unfold subtreeWF
        rw [saveNode_nodes, lookupNode_insertEntry]
        simp only [if_pos rfl]
        refine nodeShape_mono (g + applyFuel) _ (by omega) _ _ _ _ ?_
        refine nodeShape_insert_outside _ _ _ _ _ _ _ _ ?_ (hS n rfl)
        intro hcontra
        exact hcontra.2 rfl
      · obtain ⟨rfl, rfl⟩ := Prod.mk.inj (Option.some.inj hm)
        unfold subtreeWF
        rw [hD rfl, hSn, hfresh []]
  cases hroot : lookupNode s.nodes (old_version, []) with
  | none =>
    rw [hroot] at h
    simp only [Option.isSome_none, Bool.false_eq_true, if_false] at h
    exact main s rfl h
  | some root =>
    rw [hroot] at h
    simp only [Option.isSome_some, if_true] at h
    exact main (markNodeAsOrphaned s new_version old_version []) rfl h

set_option maxHeartbeats 4000000 in
/-- The computed S1 result is the literal store and the documented root
digest. This is the one place the full S1 hashing pipeline is evaluated;
every other concrete theorem about the S1 tree rewrites with it and then
works on the literal. -/
theorem s1Result_eq : s1Result = some (s1StoreLit, some s1RootDigest) := by
  decide

theorem s1Store_eq : s1Store = s1StoreLit := by
  unfold s1Store
  rw [s1Result_eq]
  rfl

end Grug

namespace Grug

/-! ## Claim theorems -/

/-- C1: starting from an empty store, `apply_raw` with `old_version = 0`,
`new_version = 1` and the batch {"r"→Insert("foo"), "m"→Insert("bar"),
"L"→Insert("fuzz"), "a"→Insert("buzz")} returns the root hash
`ae08c246d53a8ff3572a68d5bba4d610aaaa765e3ef535320c5653969aaa031b`, and
afterwards the orphans set is empty. -/
theorem c1_four_key_initial_batch :
    s1Result.map Prod.snd = some (some s1RootDigest) ∧
    s1Result.map (fun p => p.1.orphans) = some [] := by
  rw [s1Result_eq]
  exact ⟨rfl, rfl⟩

set_option maxHeartbeats 1000000 in
/-- C6: from the S1 state at version 1, `apply_raw(1, 2, all four keys →
Delete)` returns `None` as the new root hash, and afterwards every node
stored at version 1 has an orphans entry with
`orphaned_since_version = 2`. -/
theorem c6_delete_everything :
    s3Result.map Prod.snd = some none ∧
    s3Result.map (fun p => allV1NodesOrphanedSince2 p.1) = some true := by
  have hs3 : s3Result = apply_raw s1StoreLit 1 2 s3Batch := by
    unfold s3Result
    rw [s1Store_eq]
  rw [hs3]
  decide

/-- C9: for every byte sequence and indices `i`, `j` with `j < 8` and
`8*i + j` within the bit length, `bit_at_index bytes (8*i + j)` equals
`(bytes[i] >>> (7 - j)) &&& 1`; index 0 is the MSB of byte 0. -/
theorem c9_bit_indexing (bytes : Bytes) (i j : Nat) (hj : j < 8)
    (_hlen : 8 * i + j < 8 * bytes.length) :
    bit_at_index bytes (8 * i + j) = (bytes.getD i 0 >>> (7 - j)) &&& 1 := by
  unfold bit_at_index
  have h1 : (8 * i + j) / 8 = i := by omega
  have h2 : (8 * i + j) % 8 = j := by omega
  rw [h1, h2]

theorem c9_bit_indexing_witness :
    2 < 8 ∧ 8 * 1 + 2 < 8 * ([170, 85] : Bytes).length ∧
    bit_at_index [170, 85] (8 * 1 + 2) = (([170, 85] : Bytes).getD 1 0 >>> (7 - 2)) &&& 1 :=
  ⟨by decide, by decide, c9_bit_indexing [170, 85] 1 2 (by decide) (by decide)⟩

/-- C10: at a version where no root node is stored, `prove` returns an error
(modelled `none`, from `Path::load`'s data-not-found) for every key hash,
never a non-membership proof. -/
theorem c10_prove_missing_root (s : TreeStore) (key_hash : Hash256) (version : Nat)
    (h : lookupNode s.nodes (version, []) = none) :
    prove s key_hash version = none := by
  unfold prove
  rw [h]

theorem c10_prove_missing_root_witness :
    lookupNode emptyTreeStore.nodes (7, []) = none ∧
    prove emptyTreeStore (List.replicate 32 0) 7 = none :=
  ⟨by decide, c10_prove_missing_root emptyTreeStore (List.replicate 32 0) 7 (by decide)⟩

set_option maxHeartbeats 1000000 in
/-- C3 counterexample: after S1, a batch consisting solely of identical-value
overwrites and deletes of absent keys returns the prior root hash unchanged,
but the store does gain an orphan entry (the old root, orphaned since the new
version) and a new node (the root re-saved at the new version) — refuting "no
new nodes and no new orphans". -/
theorem c3_noop_counterexample :
    s4Result.map Prod.snd = some (some s1RootDigest) ∧
    s1Store.orphans = [] ∧
    s4Result.map (fun p => p.1.orphans) = some [(2, 1, [])] ∧
    (lookupNode s1Store.nodes (2, [])).isSome = false ∧
    s4Result.map (fun p => (lookupNode p.1.nodes (2, [])).isSome) = some true := by
  have hs4 : s4Result = apply_raw s1StoreLit 1 2 s4Batch := by
    unfold s4Result
    rw [s1Store_eq]
  rw [hs4, s1Store_eq]
  decide


/-- C4: the cache-overlay merge law — scanning the overlay view of a sorted
base and pending batch yields exactly the scan of the base with the batch
applied, for all bounds and orders; instantiated on the S5 store, the
ascending unbounded scan yields [(1,1),(3,3),(4,4),(5,5),(6,255),(8,8)] and
the descending scan its reverse. -/
theorem c4_cache_overlay_merge_law :
    (∀ (base : List Record) (pending : List (Bytes × Op Bytes)) (mi ma : Option Bytes)
       (order : Order), SortedByKey base → SortedByKey pending →
       cacheScan base pending mi ma order = scanList (applyBatch base pending) mi ma order) ∧
    cacheScan s5Base s5Pending none none .ascending = s5Merged ∧
    cacheScan s5Base s5Pending none none .descending = s5Merged.reverse := by
  refine ⟨fun base pending mi ma order hb hp =>
    cacheScan_merge_law base pending mi ma order hb hp, ?_, ?_⟩
  · rw [cacheScan_merge_law _ _ _ _ _ (by decide) (by decide)]
    decide
  · rw [cacheScan_merge_law _ _ _ _ _ (by decide) (by decide)]
    decide

theorem c4_cache_overlay_merge_law_witness :
    SortedByKey s5Base ∧ SortedByKey s5Pending ∧
    cacheScan s5Base s5Pending (some [2]) (some [7]) .ascending =
      scanList (applyBatch s5Base s5Pending) (some [2]) (some [7]) .ascending :=
  ⟨by decide, by decide,
   c4_cache_overlay_merge_law.1 s5Base s5Pending (some [2]) (some [7]) .ascending
     (by decide) (by decide)⟩

/-- C7: for a shared store whose contents do not change between pages, the
concatenation of the pages materialized by the shared-store scan iterator
(`BATCH_SIZE = 30` records per page, ascending re-seeding `min` to
`increment_last_byte(last_key)`, descending re-seeding `max` to `last_key`)
equals the full single scan of the underlying store over the same bounds and
order. -/
theorem c7_shared_paging_correctness (contents : List Record) (mi ma : Option Bytes)
    (order : Order) (hs : SortedByKey contents) :
    sharedScan contents mi ma order = scanList contents mi ma order := by
  apply sharedScanPages_eq (contents.length + 1) contents mi ma order hs
  have h1 : (scanList contents mi ma order).length ≤ contents.length := by
    cases order with
    | ascending => exact List.length_filter_le _ _
    | descending =>
      show (contents.filter _).reverse.length ≤ _
      rw [List.length_reverse]
      exact List.length_filter_le _ _
  simp only [BATCH_SIZE]
  omega

theorem c7_shared_paging_correctness_witness :
    SortedByKey ([([1], [1]), ([2], [2])] : List Record) ∧
    sharedScan [([1], [1]), ([2], [2])] none none .ascending =
      scanList [([1], [1]), ([2], [2])] none none .ascending :=
  ⟨by decide,
   c7_shared_paging_correctness [([1], [1]), ([2], [2])] none none .ascending (by decide)⟩

/-- C5 (amended): `prove` returns `Membership` exactly when the bit walk
reaches a leaf with the queried key hash; otherwise it returns
`NonMembership` whose witness is the spec's walk witness (mismatching leaf,
or the first internal node whose required child is absent with `None` on the
queried side); and `sibling_hashes` is the reverse of the root-toward-leaf
descent order, i.e. ordered from leaf toward root. -/
theorem c5_prove_characterization :
    ∀ (s : TreeStore) (key_hash : Hash256) (version : Nat) (pf : Proof),
      prove s key_hash version = some pf →
      ∃ root w sibs,
        lookupNode s.nodes (version, []) = some root ∧
        walkWitness s key_hash (bitsOfBytes key_hash) [] root = some w ∧
        descentSiblings s key_hash (bitsOfBytes key_hash) [] root = some sibs ∧
        pf = (match w with
              | none => Proof.membership ⟨sibs.reverse⟩
              | some pn => Proof.nonMembership ⟨pn, sibs.reverse⟩) ∧
        ((∃ mp, pf = Proof.membership mp) ↔ w = none) := by
  intro s key_hash version pf hp
  unfold prove at hp
  rcases hroot : lookupNode s.nodes (version, []) with _ | root
  · rw [hroot] at hp
    cases hp
  · rw [hroot] at hp
    simp only [] at hp
    rw [proveLoop_spec s key_hash (bitsOfBytes key_hash) [] root []] at hp
    rcases hw : walkWitness s key_hash (bitsOfBytes key_hash) [] root with _ | w <;>
      rw [hw] at hp
    · cases hp
    · rcases hsb : descentSiblings s key_hash (bitsOfBytes key_hash) [] root with _ | sibs <;>
        rw [hsb] at hp
      · cases hp
      · cases w with
        | none =>
          simp only [List.nil_append] at hp
          have hpf : pf = Proof.membership ⟨sibs.reverse⟩ := by
            cases hp
            rfl
          refine ⟨root, none, sibs, rfl, hw, hsb, hpf, ?_⟩
          simp [hpf]
        | some pn =>
          simp only [List.nil_append] at hp
          have hpf : pf = Proof.nonMembership ⟨pn, sibs.reverse⟩ := by
            cases hp
            rfl
          refine ⟨root, some pn, sibs, rfl, hw, hsb, hpf, ?_⟩
          constructor
          · intro hmp
            rcases hmp with ⟨mp, hmp⟩
            rw [hpf] at hmp
            cases hmp
          · intro hx
            cases hx

set_option maxHeartbeats 1000000 in
/-- C5 counterexample: for key "r" in the S1 tree, `prove` returns
`sibling_hashes = [hash(011), None, hash(1)]`, which is ordered leaf toward
root — the reverse of the root-toward-leaf descent order
`[hash(1), None, hash(011)]` the claim asserts. -/
theorem c5_sibling_order_counterexample :
    prove s1Store (sha256 [114]) 1 =
      some (Proof.membership ⟨[some hash011, none, some hash1]⟩) ∧
    rootToLeafSiblings s1Store (sha256 [114]) 1 =
      some [some hash1, none, some hash011] ∧
    ([some hash011, none, some hash1] : List (Option Hash256)) ≠
      [some hash1, none, some hash011] := by
  rw [s1Store_eq]
  decide

set_option maxHeartbeats 1000000 in
theorem c5_prove_characterization_witness :
    ∃ root w sibs,
      lookupNode s1Store.nodes (1, []) = some root ∧
      walkWitness s1Store (sha256 [114]) (bitsOfBytes (sha256 [114])) [] root = some w ∧
      descentSiblings s1Store (sha256 [114]) (bitsOfBytes (sha256 [114])) [] root = some sibs ∧
      ((Proof.membership ⟨[some hash011, none, some hash1]⟩ : Proof) =
        (match w with
         | none => Proof.membership ⟨sibs.reverse⟩
         | some pn => Proof.nonMembership ⟨pn, sibs.reverse⟩)) ∧
      ((∃ mp, (Proof.membership ⟨[some hash011, none, some hash1]⟩ : Proof) =
          Proof.membership mp) ↔ w = none) :=
  c5_prove_characterization s1Store (sha256 [114]) 1
    (Proof.membership ⟨[some hash011, none, some hash1]⟩) (by rw [s1Store_eq]; decide)



/-- C3: for every batch that is a no-op on the stored tree (inserts re-bind
bound keys to their present value hashes, deletes target absent keys, batch
sorted with unique key hashes), `apply` returns the prior root hash, and the
only store changes are that the old root node (when one exists) is re-saved
at the new version and marked orphaned since the new version; no other node
and no other orphan entry is produced. -/
theorem c3_noop_frame (g : Nat) (s : TreeStore) (old_version new_version : Nat)
    (batch : List (Hash256 × Op Hash256))
    (hg : 3 * g + 2 ≤ applyFuel)
    (hwf : subtreeWF g s.nodes old_version [] = true)
    (hnoop : NoopBatch g s.nodes old_version [] batch = true)
    (hsort : BitSorted batch) :
    apply s old_version new_version batch =
      some ((match lookupNode s.nodes (old_version, []) with
             | some root =>
                 saveNode (markNodeAsOrphaned s new_version old_version [])
                   new_version [] root
             | none => s),
            root_hash s old_version) := by
  have hpath : KeysAlongPath [] batch := by
    intro p _ j hj
    simp at hj
  cases hroot : lookupNode s.nodes (old_version, []) with
  | none =>
    have happ := apply_at_noop g applyFuel hg s new_version old_version [] batch
      hwf hnoop hsort hpath
    unfold apply
    rw [hroot] at happ ⊢
    simp only [Option.isSome_none, Bool.false_eq_true, if_false]
    rw [happ]
    simp [root_hash, hroot]
  | some root =>
    have happ := apply_at_noop g applyFuel hg
      (markNodeAsOrphaned s new_version old_version []) new_version old_version [] batch
      hwf hnoop hsort hpath
    have hroot2 : lookupNode (markNodeAsOrphaned s new_version old_version []).nodes
        (old_version, []) = some root := hroot
    rw [hroot2] at happ
    unfold apply
    rw [hroot]
    simp only [Option.isSome_some, if_true]
    rw [happ]
    simp [root_hash, hroot]

theorem c3_noop_frame_witness :
    (3 * 1 + 2 ≤ applyFuel) ∧
    subtreeWF 1 (TreeStore.mk
      [((1, []), Node.leaf ⟨List.replicate 32 0, List.replicate 32 1⟩)] []).nodes 1 [] = true ∧
    NoopBatch 1 (TreeStore.mk
      [((1, []), Node.leaf ⟨List.replicate 32 0, List.replicate 32 1⟩)] []).nodes 1 []
      [(List.replicate 32 0, .insert (List.replicate 32 1))] = true ∧
    BitSorted [(List.replicate 32 0, .insert (List.replicate 32 1))] ∧
    apply (TreeStore.mk
      [((1, []), Node.leaf ⟨List.replicate 32 0, List.replicate 32 1⟩)] []) 1 2
      [(List.replicate 32 0, .insert (List.replicate 32 1))] =
      some ((match lookupNode (TreeStore.mk
              [((1, []), Node.leaf ⟨List.replicate 32 0, List.replicate 32 1⟩)] []).nodes
              (1, []) with
             | some root =>
                 saveNode (markNodeAsOrphaned (TreeStore.mk
                   [((1, []), Node.leaf ⟨List.replicate 32 0, List.replicate 32 1⟩)] []) 2 1 [])
                   2 [] root
             | none => (TreeStore.mk
                 [((1, []), Node.leaf ⟨List.replicate 32 0, List.replicate 32 1⟩)] [])),
            root_hash (TreeStore.mk
              [((1, []), Node.leaf ⟨List.replicate 32 0, List.replicate 32 1⟩)] []) 1) :=
  ⟨by decide, by decide, by decide, by decide,
   c3_noop_frame 1 _ 1 2 _ (by decide) (by decide) (by decide) (by decide)⟩

/-- C2: the structural invariant — every internal node reachable from the
stored root has at least one child and never exactly one child that is a
leaf, while an internal node whose single child is an internal node is
permitted — holds of the empty store and is preserved by every successful
`apply` onto a version at which nothing is stored yet; and deleting one of
three keys retains a version-2 root whose single child is the old internal
subtree over the other two (not collapsed). -/
theorem c2_collapse_invariant :
    (∀ (s : TreeStore) (old_version new_version : Nat)
       (batch : List (Hash256 × Op Hash256)) (s' : TreeStore) (r : Option Hash256)
       (g : Nat),
       apply s old_version new_version batch = some (s', r) →
       subtreeWF g s.nodes old_version [] = true →
       old_version < new_version →
       (∀ p, lookupNode s.nodes (new_version, p) = none) →
       subtreeWF (g + applyFuel + 1) s'.nodes new_version [] = true) ∧
    (∀ (g v : Nat) (bits : List Nat), subtreeWF g emptyTreeStore.nodes v bits = true) ∧
    singleInternalChildRetained c2Result2 = true := by
  refine ⟨fun s ov nv batch s' r g h hwf hlt hfresh =>
    apply_preserves_shape s ov nv batch s' r g h hwf hlt hfresh,
    fun g v bits => rfl, by decide⟩

set_option maxHeartbeats 2000000 in
theorem c2_collapse_invariant_witness :
    ∃ r, apply c2Store1 1 2 [(c2KeyC, Op.delete)] = some (c2Store2, r) ∧
      subtreeWF 4 c2Store1.nodes 1 [] = true ∧ 1 < 2 ∧
      (∀ p, lookupNode c2Store1.nodes (2, p) = none) ∧
      subtreeWF (4 + applyFuel + 1) c2Store2.nodes 2 [] = true := by
  have hfresh : ∀ p, lookupNode c2Store1.nodes (2, p) = none :=
    lookup_none_of_all_version 2 1 (by decide) c2Store1.nodes (by decide)
  have happ : apply c2Store1 1 2 [(c2KeyC, Op.delete)] =
      some (c2Store2, (c2Result2.map Prod.snd).getD none) := by decide
  exact ⟨_, happ, by decide, by decide, hfresh,
    c2_collapse_invariant.1 c2Store1 1 2 _ c2Store2 _ 4 happ (by decide) (by decide) hfresh⟩

end Grug
